import Mathlib

/-!
Verification of the constexpr JSON engine (parser-combinator core,
sizing pass, extent pass, tree builder, accessor layer) against its
natural-language specification.

The embedding translates the C++ sources:
  * `cx_parser.h`     — the generic parser-combinator core (namespace CxP below)
  * the JSON grammar, sizing / extent / build passes of the externally-sized
    arena model (`sizes_recur`, `extent_recur`, `value_recur`, `value_wrapper`)
  * `cx_json_value.h` — the arena value node and the `value_proxy` accessors
    (namespace JSONM below).

Modelling conventions:
  * Input bytes are `List Nat` (byte values); `parse_input_t` is a byte
    cursor, its suffix structure is explicit.
  * `parse_result_t<T>` is `Except PErr (T × Input)`.  `PErr.soft` is the
    C++ `std::nullopt` ("no match"); `PErr.hard` is a thrown exception,
    which in the sources arises only from the throwing `fail(T, ErrorFn)`
    combinator.  A thrown exception propagates through every combinator and
    is only *not* retried by alternation, exactly as `Except.error .hard`
    propagates below.
  * C++ `double` is modelled by `Dbl`, an exact (unnormalised) fraction with
    the arithmetic operations the number grammar performs.  The C++ code
    computes in IEEE binary64; `Dbl` is its exact-arithmetic shadow.  Every
    concrete input used in a theorem below only produces intermediate values
    that are exactly representable in binary64 (small integers, halves), so
    the exact and floating computations coincide there.
  * C++ `int` values flowing through the number grammar are nonnegative at
    every accumulation site (digit folds); they are modelled by `Nat`, with
    the sign applied as in the source.  Overflow of the 32-bit `int` is
    undefined behaviour in C++ (a failed constant expression in constexpr
    evaluation) and is not modelled.
  * The C++ `while` loops folding parse results (`accumulate_parse`) run
    callables that consume at least one byte whenever they succeed; the loop
    is bounded here by a fuel argument instantiated with the input length,
    which dominates the iteration count for consuming element parsers.  (On
    a non-consuming element parser the C++ loop would not terminate.)
  * The mutually recursive value grammars (`sizes_recur`, `extent_recur`,
    `value_recur`) recurse without a structural bound in C++; they take an
    explicit nesting-fuel argument here, decremented once per value level.
    Statements quantify over the fuel.
-/

deriving instance DecidableEq for Except

namespace CxP

/-- Parse input: a byte-range cursor, `parse_input_t = std::string_view`. -/
abbrev Input := List Nat

/-- Failure class: `soft` is the `std::nullopt` result, `hard` is a thrown
exception (only produced by the throwing `fail` combinator). -/
inductive PErr where
  | soft
  | hard
deriving DecidableEq

/-- `parse_result_t<T> = cx::optional<cx::pair<T, std::string_view>>`,
with a thrown exception as the second error form. -/
abbrev PResult (T : Type) := Except PErr (T × Input)

/-- A parser for `T`: takes the input, optionally returns a `T` plus the
leftover input. -/
abbrev Parser (T : Type) := Input → PResult T

/-- `fmap(f, p)`: map a function over a successful parse result. -/
def fmap (f : α → β) (p : Parser α) : Parser β := fun i =>
  match p i with
  | .error e => .error e
  | .ok (a, rest) => .ok (f a, rest)

/-- `bind(p, f)`: run `p`, then feed value and residual input to `f`. -/
def bindP (p : Parser α) (f : α → Input → PResult β) : Parser β := fun i =>
  match p i with
  | .error e => .error e
  | .ok (a, rest) => f a rest

/-- `lift(t)`: the parser that consumes nothing and returns `t`. -/
def lift (t : α) : Parser α := fun s => .ok (t, s)

/-- `fail(T)`: the parser that always fails (softly). -/
def failP : Parser α := fun _ => .error .soft

/-- `fail(T, ErrorFn)` where `ErrorFn` throws: the parser that raises a
hard (fatal) failure. -/
def failHardP : Parser α := fun _ => .error .hard

/-- Alternation `p1 | p2`: try `p1`; on a soft failure try `p2` on the same
input.  A hard failure (exception) propagates. -/
def alt (p1 p2 : Parser α) : Parser α := fun i =>
  match p1 i with
  | .ok r => .ok r
  | .error .hard => .error .hard
  | .error .soft => p2 i

/-- `combine(p1, p2, f)`: run both in sequence, combine the results. -/
def combine (p1 : Parser α) (p2 : Parser β) (f : α → β → γ) : Parser γ := fun i =>
  match p1 i with
  | .error e => .error e
  | .ok (a, r1) =>
    match p2 r1 with
    | .error e => .error e
    | .ok (b, r2) => .ok (f a b, r2)

/-- Sequencing `p1 < p2`: both must succeed, keep the second result. -/
def seqSnd (p1 : Parser α) (p2 : Parser β) : Parser β :=
  combine p1 p2 (fun _ b => b)

/-- Sequencing `p1 > p2`: both must succeed, keep the first result. -/
def seqFst (p1 : Parser α) (p2 : Parser β) : Parser α :=
  combine p1 p2 (fun a _ => a)

/-- `detail::accumulate_parse`: fold repeated applications of `p` via `f`,
stopping at the first soft element failure or at the end of input.  The C++
loop `while (!s.empty())` is bounded here by a fuel argument; `many` below
instantiates the fuel with the input length, which bounds the iteration
count whenever `p` consumes input on success (on a non-consuming success
the C++ loop would not terminate). -/
def accumulate_parse (p : Parser α) (f : β → α → β) :
    Nat → Input → β → Except PErr (β × Input)
  | _, [], init => .ok (init, [])
  | 0, s, init => .ok (init, s)
  | fuel + 1, s, init =>
    match p s with
    | .error .hard => .error .hard
    | .error .soft => .ok (init, s)
    | .ok (a, s') => accumulate_parse p f fuel s' (f init a)

/-- `detail::accumulate_n_parse`: fold up to `n` applications of `p`,
stopping early (successfully) at the first soft element failure. -/
def accumulate_n_parse (p : Parser α) (f : β → α → β) :
    Nat → Input → β → Except PErr (β × Input)
  | 0, s, init => .ok (init, s)
  | n + 1, s, init =>
    match p s with
    | .error .hard => .error .hard
    | .error .soft => .ok (init, s)
    | .ok (a, s') => accumulate_n_parse p f n s' (f init a)

/-- `many(p, init, f)`: zero or more `p`, folded via `f`; never fails softly. -/
def many (p : Parser α) (init : β) (f : β → α → β) : Parser β := fun s =>
  accumulate_parse p f s.length s init

/-- `many1(p, init, f)`: one or more `p`; fails if the first application fails. -/
def many1 (p : Parser α) (init : β) (f : β → α → β) : Parser β := fun s =>
  match p s with
  | .error e => .error e
  | .ok (a, s') => accumulate_parse p f s'.length s' (f init a)

/-- `exactly_n(p, n, init, f)`: apply `p` (at most) `n` times, folding via
`f`; mirrors `accumulate_n_parse`, which stops early without failing when
`p` fails before the `n`-th repetition. -/
def exactly_n (p : Parser α) (n : Nat) (init : β) (f : β → α → β) : Parser β := fun s =>
  accumulate_n_parse p f n s init

/-- `option(def, p)`: `p` if it succeeds, otherwise succeed with `d`. -/
def option (d : α) (p : Parser α) : Parser α := fun s =>
  match p s with
  | .ok r => .ok r
  | .error .hard => .error .hard
  | .error .soft => .ok (d, s)

/-- `separated_by_val(p1, p2, init, f)`: zero or more `p1` separated by
`p2`, folded via `f`; returns `init` if the first `p1` fails. -/
def separated_by_val (p1 : Parser α) (p2 : Parser γ) (init : β) (f : β → α → β) :
    Parser β := fun s =>
  match p1 s with
  | .error .hard => .error .hard
  | .error .soft => .ok (init, s)
  | .ok (a, s') => accumulate_parse (seqSnd p2 p1) f s'.length s' (f init a)

/-- `make_char_parser(c)`: match the single byte `c`. -/
def make_char_p (c : Nat) : Parser Nat := fun s =>
  match s with
  | [] => .error .soft
  | x :: xs => if x = c then .ok (c, xs) else .error .soft

/-- `one_of(chars)`: match one byte contained in `chars`. -/
def one_of (chars : List Nat) : Parser Nat := fun s =>
  match s with
  | [] => .error .soft
  | x :: xs => if x ∈ chars then .ok (x, xs) else .error .soft

/-- `none_of(chars)`: match one byte not contained in `chars`. -/
def none_of (chars : List Nat) : Parser Nat := fun s =>
  match s with
  | [] => .error .soft
  | x :: xs => if x ∈ chars then .error .soft else .ok (x, xs)

/-- The prefix comparison performed by `cx::mismatch` inside
`make_string_parser`: if `str` is an initial run of the input, return the
leftover input. -/
def matchLit : List Nat → Input → Option Input
  | [], s => some s
  | _ :: _, [] => none
  | c :: cs, x :: xs => if x = c then matchLit cs xs else none

/-- `make_string_parser(str)`: match the literal byte string `str`. -/
def make_string_p (str : List Nat) : Parser (List Nat) := fun s =>
  match matchLit str s with
  | none => .error .soft
  | some rest => .ok (str, rest)

/-- Byte value of a character literal. -/
def ch (c : Char) : Nat := c.toNat

/-- Byte list of a string literal. -/
def str2bytes (s : String) : List Nat := s.data.map ch

/-- The decimal digit bytes `"0123456789"`. -/
def digitsChars : List Nat := str2bytes "0123456789"

/-- The nonzero decimal digit bytes `"123456789"`. -/
def digits1Chars : List Nat := str2bytes "123456789"

/-- `int0_parser()`: parse an int that may begin with 0.  The C++
accumulator is an `int`; it is nonnegative throughout, modelled by `Nat`. -/
def int0P : Parser Nat :=
  many1 (one_of digitsChars) 0 (fun acc c => acc * 10 + (c - ch '0'))

/-- `int1_parser()`: parse an int that may not begin with 0. -/
def int1P : Parser Nat :=
  bindP (one_of digits1Chars)
    (fun x rest =>
      many (one_of digitsChars) (x - ch '0') (fun acc c => acc * 10 + (c - ch '0')) rest)

/-- `skip_whitespace()`: zero or more of space, tab, LF, CR. -/
def skip_whitespace : Parser Unit :=
  many (alt (make_char_p (ch ' '))
        (alt (make_char_p (ch '\t'))
        (alt (make_char_p (ch '\n')) (make_char_p (ch '\r')))))
    () (fun m _ => m)

end CxP

namespace JSONM

open CxP

/-- Exact-fraction shadow of the C++ `double` values produced by the number
grammar.  The numerator/denominator are never normalised, so every
operation is structural and kernel-computable. -/
structure Dbl where
  num : Int
  den : Int
deriving DecidableEq

/-- Conversion of a C++ `int` to `double`. -/
def Dbl.ofInt (i : Int) : Dbl := ⟨i, 1⟩

/-- `d += k` for an integer `k`. -/
def Dbl.addInt (a : Dbl) (k : Int) : Dbl := ⟨a.num + k * a.den, a.den⟩

/-- `d /= k` for an integer `k`. -/
def Dbl.divInt (a : Dbl) (k : Int) : Dbl := ⟨a.num, a.den * k⟩

/-- `d *= k` for an integer `k`. -/
def Dbl.mulInt (a : Dbl) (k : Int) : Dbl := ⟨a.num * k, a.den⟩

/-- `i + d` with `i` a C++ `int`. -/
def Dbl.intAdd (i : Int) (d : Dbl) : Dbl := ⟨i * d.den + d.num, d.den⟩

/-- The fraction-reconstruction loop in `number_parser`'s mantissa lambda:
`while (f > 0) { d += f % 10; d /= 10; f /= 10; }`.  The first argument is
fuel dominating the iteration count (the digit count of `f`, which is at
most `f`). -/
def fracLoop : Nat → Nat → Dbl → Dbl
  | 0, _, d => d
  | fuel + 1, f, d =>
    if f > 0 then fracLoop fuel (f / 10) ((d.addInt (f % 10)).divInt 10) else d

/-- The positive-exponent loop: `while (exp--) mantissa *= 10`. -/
def mulLoop : Nat → Dbl → Dbl
  | 0, m => m
  | k + 1, m => mulLoop k (m.mulInt 10)

/-- The negative-exponent loop: `while (exp++) mantissa /= 10`. -/
def divLoop : Nat → Dbl → Dbl
  | 0, m => m
  | k + 1, m => divLoop k (m.divInt 10)

/-- `bool_parser()`. -/
def boolP : Parser Bool :=
  alt (fmap (fun _ => true) (make_string_p (str2bytes "true")))
      (fmap (fun _ => false) (make_string_p (str2bytes "false")))

/-- `null_parser()`. -/
def nullP : Parser Unit :=
  fmap (fun _ => ()) (make_string_p (str2bytes "null"))

/-- `neg_parser` inside `number_parser()`: an optional minus sign,
defaulting to `'+'`. -/
def negP : Parser Nat := CxP.option (ch '+') (make_char_p (ch '-'))

/-- `integral_parser` inside `number_parser()`. -/
def integralP : Parser Int :=
  combine negP
    (alt (fmap (fun _ => 0) (make_char_p (ch '0'))) int1P)
    (fun sign i => if sign = ch '+' then (i : Int) else -(i : Int))

/-- `frac_parser` inside `number_parser()`: a dot followed by digits parsed
as an int (note: this drops leading zeros of the fractional part). -/
def fracP : Parser Nat := seqSnd (make_char_p (ch '.')) int0P

/-- `mantissa_parser` inside `number_parser()`. -/
def mantissaP : Parser Dbl :=
  combine integralP (CxP.option 0 fracP)
    (fun i f => Dbl.intAdd i (fracLoop f f ⟨0, 1⟩))

/-- `exponent_parser` inside `number_parser()`. -/
def exponentP : Parser Int :=
  bindP (seqSnd (alt (make_char_p (ch 'e')) (make_char_p (ch 'E')))
           (alt (make_char_p (ch '+')) negP))
    (fun sign sv =>
      fmap (fun (j : Nat) => if sign = ch '+' then (j : Int) else -(j : Int)) int0P sv)

/-- `number_parser()`: mantissa and optional exponent, scaled by the
repeated multiply/divide loops of the source. -/
def numberP : Parser Dbl :=
  combine mantissaP (CxP.option 0 exponentP)
    (fun mantissa e =>
      if e > 0 then mulLoop e.toNat mantissa else divLoop (-e).toNat mantissa)

/-- `convert_escaped_char(c)`. -/
def convert_escaped_char (c : Nat) : Nat :=
  if c = ch 'b' then 8
  else if c = ch 'f' then 12
  else if c = ch 'n' then 10
  else if c = ch 'r' then 13
  else if c = ch 't' then 9
  else c

/-- `to_utf8(hexcode)`: encode a code point as UTF-8 bytes (at most 4). -/
def to_utf8 (hexcode : Nat) : List Nat :=
  if hexcode ≤ 0x7f then
    [hexcode]
  else if hexcode ≤ 0x7ff then
    [0xC0 ||| (hexcode >>> 6), 0x80 ||| (hexcode &&& 0x3f)]
  else if hexcode ≤ 0xffff then
    [0xE0 ||| (hexcode >>> 12), 0x80 ||| ((hexcode >>> 6) &&& 0x3f),
     0x80 ||| (hexcode &&& 0x3f)]
  else if hexcode ≤ 0x10ffff then
    [0xF0 ||| (hexcode >>> 18), 0x80 ||| ((hexcode >>> 12) &&& 0x3f),
     0x80 ||| ((hexcode >>> 6) &&& 0x3f), 0x80 ||| (hexcode &&& 0x3f)]
  else []

/-- `to_utf8_count(hexcode)`: the byte count of the UTF-8 encoding. -/
def to_utf8_count (hexcode : Nat) : Nat :=
  if hexcode ≤ 0x7f then 1
  else if hexcode ≤ 0x7ff then 2
  else if hexcode ≤ 0xffff then 3
  else 4

/-- `to_hex(c)`: hex digit value of a byte (garbage on non-hex bytes, as in
the source, which is only applied to bytes accepted by `one_of`). -/
def to_hex (c : Nat) : Nat :=
  if ch '0' ≤ c ∧ c ≤ ch '9' then c - ch '0'
  else if ch 'a' ≤ c ∧ c ≤ ch 'f' then c - ch 'a' + 10
  else c - ch 'A' + 10

/-- The hexadecimal digit bytes accepted by the unicode escape. -/
def hexChars : List Nat := str2bytes "0123456789abcdefABCDEF"

/-- The four-hex-digit accumulator of the unicode escape:
`(hexcode << 4) + to_hex(c)` over `uint16_t`. -/
def hexStep (hexcode : Nat) (c : Nat) : Nat :=
  ((hexcode <<< 4) + to_hex c) % 65536

/-- `unicode_point_parser()`: `\uXXXX`, re-encoded to UTF-8. -/
def unicodePointP : Parser (List Nat) :=
  fmap to_utf8
    (seqSnd (make_char_p (ch '\\'))
      (seqSnd (make_char_p (ch 'u'))
        (exactly_n (one_of hexChars) 4 0 hexStep)))

/-- `unicode_point_count_parser()`: `\uXXXX`, counted instead of encoded. -/
def unicodePointCountP : Parser Nat :=
  fmap to_utf8_count
    (seqSnd (make_char_p (ch '\\'))
      (seqSnd (make_char_p (ch 'u'))
        (exactly_n (one_of hexChars) 4 0 hexStep)))

/-- `special_char_parser` inside the string character grammar. -/
def specialCharP : Parser Nat :=
  alt (make_char_p (ch '"'))
  (alt (make_char_p (ch '\\'))
  (alt (make_char_p (ch '/'))
  (alt (make_char_p (ch 'b'))
  (alt (make_char_p (ch 'f'))
  (alt (make_char_p (ch 'n'))
  (alt (make_char_p (ch 'r')) (make_char_p (ch 't'))))))))

/-- `escaped_char_parser`: a backslash followed by a special character,
converted via `convert_escaped_char`. -/
def escapedCharP : Parser Nat :=
  fmap convert_escaped_char (seqSnd (make_char_p (ch '\\')) specialCharP)

/-- `string_char_parser()`: one string character, decoded to its output
bytes (a `cx::basic_string<char, 4>` in the source). -/
def stringCharP : Parser (List Nat) :=
  alt (fmap (fun c => [c]) (alt escapedCharP (none_of [ch '\\', ch '"'])))
      unicodePointP

/-- `string_char_count_parser()`: one string character, counted. -/
def stringCharCountP : Parser Nat :=
  alt (fmap (fun _ => 1) (alt escapedCharP (none_of [ch '\\', ch '"'])))
      unicodePointCountP

/-- `string_size_parser()`: the decoded byte count of a quoted string. -/
def stringSizeP : Parser Nat :=
  seqFst (seqSnd (make_char_p (ch '"'))
           (many stringCharCountP 0 (fun a b => a + b)))
    (make_char_p (ch '"'))

end JSONM

namespace JSONM

open CxP

/-- The result of the sizing pass: arena node count and decoded string byte
count required by a document. -/
structure Sizes where
  num_objects : Nat
  string_size : Nat
deriving DecidableEq

/-- `operator+(Sizes, Sizes)`: componentwise addition. -/
def Sizes.add (x y : Sizes) : Sizes :=
  ⟨x.num_objects + y.num_objects, x.string_size + y.string_size⟩

/-- The scalar/string alternatives of `sizes_recur::value_parser`. -/
def sizesScalarP : Parser Sizes :=
  alt (fmap (fun _ => Sizes.mk 1 0)
        (alt (make_string_p (str2bytes "true"))
        (alt (make_string_p (str2bytes "false")) (make_string_p (str2bytes "null")))))
  (alt (fmap (fun _ => Sizes.mk 1 0) numberP)
       (fmap (fun len => Sizes.mk 1 len) stringSizeP))

/-- `sizes_recur::array_parser`, parameterised by the value parser it
recurses through. -/
def sizesArrayP (val : Parser Sizes) : Parser Sizes :=
  seqFst (seqFst
    (seqSnd (make_char_p (ch '['))
      (separated_by_val val
        (seqSnd skip_whitespace (make_char_p (ch ',')))
        ⟨1, 0⟩ Sizes.add))
    skip_whitespace)
    (alt (make_char_p (ch ']')) failHardP)

/-- `sizes_recur::key_value_parser`, parameterised by the value parser. -/
def sizesKeyValueP (val : Parser Sizes) : Parser Sizes :=
  bindP (seqFst (seqFst (seqSnd skip_whitespace stringSizeP) skip_whitespace)
           (make_char_p (ch ':')))
    (fun len sv =>
      fmap (fun (s : Sizes) => Sizes.mk (s.num_objects + 1) (s.string_size + len))
        val sv)

/-- `sizes_recur::object_parser`, parameterised by the value parser. -/
def sizesObjectP (val : Parser Sizes) : Parser Sizes :=
  seqFst (seqFst
    (seqSnd (make_char_p (ch '{'))
      (separated_by_val (sizesKeyValueP val)
        (seqSnd skip_whitespace (make_char_p (ch ',')))
        ⟨1, 0⟩ Sizes.add))
    skip_whitespace)
    (alt (make_char_p (ch '}')) failHardP)

/-- `sizes_recur::value_parser`: the sizing pass over a JSON value.  The C++
recursion is unbounded; here one unit of fuel is spent per value nesting
level, so any run of the C++ parser is reproduced by a sufficiently large
fuel (the input length always suffices, as each level consumes a byte). -/
def sizesValueP : Nat → Parser Sizes
  | 0 => failP
  | fuel + 1 =>
    seqSnd skip_whitespace
      (alt sizesScalarP
        (alt (sizesArrayP (sizesValueP fuel)) (sizesObjectP (sizesValueP fuel))))

/-- The scalar/string alternatives of `extent_recur::value_parser`,
with results discarded to `monostate`. -/
def extentScalarP : Parser Unit :=
  alt (fmap (fun _ => ())
        (alt (make_string_p (str2bytes "true"))
        (alt (make_string_p (str2bytes "false")) (make_string_p (str2bytes "null")))))
  (alt (fmap (fun _ => ()) numberP)
       (fmap (fun _ => ()) stringSizeP))

/-- `extent_recur::array_parser`, parameterised by the value parser. -/
def extentArrayP (val : Parser (List Nat)) : Parser Unit :=
  seqFst (seqFst
    (seqSnd (make_char_p (ch '['))
      (separated_by_val val
        (seqSnd skip_whitespace (make_char_p (ch ',')))
        () (fun x _ => x)))
    skip_whitespace)
    (make_char_p (ch ']'))

/-- `extent_recur::key_value_parser`, parameterised by the value parser. -/
def extentKeyValueP (val : Parser (List Nat)) : Parser (List Nat) :=
  seqSnd (seqSnd (seqSnd (seqSnd skip_whitespace stringSizeP) skip_whitespace)
           (make_char_p (ch ':')))
    val

/-- `extent_recur::object_parser`, parameterised by the value parser. -/
def extentObjectP (val : Parser (List Nat)) : Parser Unit :=
  seqFst (seqFst
    (seqSnd (make_char_p (ch '{'))
      (separated_by_val (extentKeyValueP val)
        (seqSnd skip_whitespace (make_char_p (ch ',')))
        () (fun x _ => x)))
    skip_whitespace)
    (make_char_p (ch '}'))

/-- `extent_recur::value_parser`: locate the byte span of one JSON value
without interpreting it.  The span is the consumed prefix of the input
(`std::string_view{sv.data(), r->second.data() - sv.data()}`). -/
def extentValueP : Nat → Parser (List Nat)
  | 0 => failP
  | fuel + 1 => fun sv =>
    match (seqSnd skip_whitespace
            (alt extentScalarP
              (alt (fmap (fun _ => ()) (extentArrayP (extentValueP fuel)))
                   (fmap (fun _ => ()) (extentObjectP (extentValueP fuel)))))) sv with
    | .error e => .error e
    | .ok (_, rest) => .ok (sv.take (sv.length - rest.length), rest)

/-- `JSON::value::ExternalView`: a window into the node arena or the string
buffer. -/
structure ExternalView where
  offset : Nat
  extent : Nat
deriving DecidableEq

/-- `JSON::value`: one arena node — the C++ tagged union of
`cx_json_value.h` as a tagged variant. -/
inductive value where
  | Unparsed (span : List Nat)
  | String (ev : ExternalView)
  | Number (d : Dbl)
  | Array (ev : ExternalView)
  | Object (ev : ExternalView)
  | Boolean (b : Bool)
  | Null
deriving DecidableEq

/-- The externalised storage mutated by `value_recur`: the node arena
(`value object_storage[NumObjects]`, modelled as a total map so that the
claims about which indices get written are expressible for any capacity)
and the string buffer (`cx::basic_string<char, StringSize>`, append-only). -/
structure BuildSt where
  v : Nat → value
  s : List Nat

/-- Write one arena node.  Every `v[i].to_X() = payload` site in
`value_recur` sets the tag and payload of node `i` to exactly this. -/
def BuildSt.write (st : BuildSt) (i : Nat) (node : value) : BuildSt :=
  ⟨Function.update st.v i node, st.s⟩

/-- Append decoded bytes to the string buffer. -/
def BuildSt.append (st : BuildSt) (bytes : List Nat) : BuildSt :=
  ⟨st.v, st.s ++ bytes⟩

/-- A stateful parser: the C++ build-pass lambdas capture mutable
references to the arena and string buffer; success and failure both leave
whatever mutations already happened in place, so the state is returned in
either case. -/
abbrev SParser (T : Type) := Input → BuildSt → PResult T × BuildSt

/-- Lift a pure parser into the stateful layer. -/
def liftP (p : Parser α) : SParser α := fun i st => (p i, st)

/-- Stateful `fmap` with an effectful function (the build-pass `fmap`
callbacks write into the arena). -/
def fmapEff (f : α → BuildSt → β × BuildSt) (p : SParser α) : SParser β := fun i st =>
  match p i st with
  | (.error e, st') => (.error e, st')
  | (.ok (a, rest), st') =>
    match f a st' with
    | (b, st'') => (.ok (b, rest), st'')

/-- Stateful `bind`. -/
def bindS (p : SParser α) (f : α → Input → BuildSt → PResult β × BuildSt) :
    SParser β := fun i st =>
  match p i st with
  | (.error e, st') => (.error e, st')
  | (.ok (a, rest), st') => f a rest st'

/-- Stateful alternation: on a soft failure of `p1` the second parser runs
on the original input but the state as `p1` left it (C++ mutations through
captured references are not rolled back). -/
def altS (p1 p2 : SParser α) : SParser α := fun i st =>
  match p1 i st with
  | (.ok r, st') => (.ok r, st')
  | (.error .hard, st') => (.error .hard, st')
  | (.error .soft, st') => p2 i st'

/-- Stateful `combine`. -/
def combineS (p1 : SParser α) (p2 : SParser β) (f : α → β → γ) : SParser γ := fun i st =>
  match p1 i st with
  | (.error e, st') => (.error e, st')
  | (.ok (a, r1), st') =>
    match p2 r1 st' with
    | (.error e, st'') => (.error e, st'')
    | (.ok (b, r2), st'') => (.ok (f a b, r2), st'')

/-- Stateful `p1 < p2`. -/
def seqSndS (p1 : SParser α) (p2 : SParser β) : SParser β :=
  combineS p1 p2 (fun _ b => b)

/-- Stateful `p1 > p2`. -/
def seqFstS (p1 : SParser α) (p2 : SParser β) : SParser α :=
  combineS p1 p2 (fun a _ => a)

/-- Stateful `accumulate_parse` with an effectful fold (the build-pass
`many`/`separated_by_val` callbacks write into the arena and string
buffer); fuelled like the pure version. -/
def accumulateS (p : SParser α) (f : β → α → BuildSt → β × BuildSt) :
    Nat → Input → β → BuildSt → Except PErr (β × Input) × BuildSt
  | _, [], init, st => (.ok (init, []), st)
  | 0, s, init, st => (.ok (init, s), st)
  | fuel + 1, s, init, st =>
    match p s st with
    | (.error .hard, st') => (.error .hard, st')
    | (.error .soft, st') => (.ok (init, s), st')
    | (.ok (a, s'), st') =>
      match f init a st' with
      | (b, st'') => accumulateS p f fuel s' b st''

/-- Stateful `many`. -/
def manyS (p : SParser α) (init : β) (f : β → α → BuildSt → β × BuildSt) :
    SParser β := fun s st =>
  accumulateS p f s.length s init st

/-- Stateful `separated_by_val`. -/
def separated_by_valS (p1 : SParser α) (p2 : SParser γ) (init : β)
    (f : β → α → BuildSt → β × BuildSt) : SParser β := fun s st =>
  match p1 s st with
  | (.error .hard, st') => (.error .hard, st')
  | (.error .soft, st') => (.ok (init, s), st')
  | (.ok (a, s'), st') =>
    match f init a st' with
    | (b, st'') => accumulateS (seqSndS p2 p1) f s'.length s' b st''

/-- The `std::numeric_limits<std::size_t>::max()` sentinel used by the
build-pass string parser to defer reading the append offset. -/
def sizetMax : Nat := 2 ^ 64 - 1

/-- `value_recur::string_parser(S&)`: decode a quoted string, appending its
bytes to the string buffer and returning the resulting window. -/
def buildStringP : SParser ExternalView :=
  seqFstS
    (seqSndS (liftP (make_char_p (ch '"')))
      (manyS (liftP stringCharP) (ExternalView.mk sizetMax 0)
        (fun ev str st =>
          let offset := if ev.offset = sizetMax then st.s.length else ev.offset
          (⟨offset, ev.extent + str.length⟩, st.append str))))
    (liftP (make_char_p (ch '"')))

/-- `value_recur::kv_extent`: a decoded key window plus the value's span. -/
structure kv_extent where
  key : ExternalView
  val : List Nat

/-- `value_recur::key_value_extent_parser(S&)`: parse a member as the
decoded key (appended to the string buffer) and the extent of its value. -/
def buildKeyValueExtentP (ext : Parser (List Nat)) : SParser kv_extent :=
  bindS (seqFstS (seqFstS (seqSndS (liftP skip_whitespace) buildStringP)
           (liftP skip_whitespace))
           (liftP (make_char_p (ch ':'))))
    (fun key sv st =>
      (fmap (fun val => kv_extent.mk key val) ext sv, st))

/-- Read an `Unparsed` node's span.  The non-const `to_Unparsed()` of the
source converts a node of any other tag to `Unparsed` holding an empty
span before returning it; both effects are reproduced. -/
def readUnparsed (st : BuildSt) (i : Nat) : List Nat × BuildSt :=
  match st.v i with
  | .Unparsed sp => (sp, st)
  | _ => ([], st.write i (.Unparsed []))

/-- The stage-two loop of `value_recur::array_parser`: for each reserved
index `i` in `[lo, k)` run the full value parser on the recorded span,
threading the arena extent `m`.  Structured on the count `k - lo`. -/
def buildArrayLoop (val : Nat → Nat → SParser Nat) :
    Nat → Nat → Nat → BuildSt → PResult Nat × BuildSt
  | 0, _, m, st => (.ok (m, []), st)
  | n + 1, i, m, st =>
    match readUnparsed st i with
    | (sp, st₁) =>
      match val i m sp st₁ with
      | (.error e, st₂) => (.error e, st₂)
      | (.ok (m', _), st₂) => buildArrayLoop val n (i + 1) m' st₂

/-- The stage-two loop of `value_recur::object_parser`: like the array
loop but stepping two reserved indices at a time and parsing the span at
the odd slot `i + 1`. -/
def buildObjectLoop (val : Nat → Nat → SParser Nat) :
    Nat → Nat → Nat → BuildSt → PResult Nat × BuildSt
  | 0, _, m, st => (.ok (m, []), st)
  | n + 1, i, m, st =>
    match readUnparsed st (i + 1) with
    | (sp, st₁) =>
      match val (i + 1) m sp st₁ with
      | (.error e, st₂) => (.error e, st₂)
      | (.ok (m', _), st₂) => buildObjectLoop val n (i + 2) m' st₂

/-- `value_recur::array_parser(v, s, idx, max)` (entered after the `'['`
was consumed by the caller): stage one records each element's span as an
`Unparsed` placeholder at the next reserved index; on finding `']'` the
array node is written at `idx` and stage two finalises each placeholder. -/
def buildArrayP (val : Nat → Nat → SParser Nat) (ext : Parser (List Nat))
    (idx max : Nat) : SParser Nat := fun sv st =>
  match (seqFstS (seqFstS
          (separated_by_valS (liftP ext)
            (liftP (seqSnd skip_whitespace (make_char_p (ch ','))))
            max
            (fun i extent st => (i + 1, st.write i (.Unparsed extent))))
          (liftP skip_whitespace))
          (liftP (make_char_p (ch ']')))) sv st with
  | (.error e, st') => (.error e, st')
  | (.ok (k, rest), st') =>
    let st₂ := st'.write idx (.Array ⟨max, k - max⟩)
    match buildArrayLoop val (k - max) max k st₂ with
    | (.error e, st₃) => (.error e, st₃)
    | (.ok (m, _), st₃) => (.ok (m, rest), st₃)

/-- `value_recur::object_parser(v, s, idx, max)` (entered after `'{'`):
stage one writes each member's decoded key node and the value's span as an
`Unparsed` placeholder at consecutive reserved indices; on `'}'` the
object node is written at `idx` and stage two finalises the value slots. -/
def buildObjectP (val : Nat → Nat → SParser Nat) (ext : Parser (List Nat))
    (idx max : Nat) : SParser Nat := fun sv st =>
  match (seqFstS (seqFstS
          (separated_by_valS (buildKeyValueExtentP ext)
            (liftP (seqSnd skip_whitespace (make_char_p (ch ','))))
            max
            (fun i kve st =>
              (i + 2, (st.write i (.String kve.key)).write (i + 1) (.Unparsed kve.val))))
          (liftP skip_whitespace))
          (liftP (make_char_p (ch '}')))) sv st with
  | (.error e, st') => (.error e, st')
  | (.ok (k, rest), st') =>
    let st₂ := st'.write idx (.Object ⟨max, k - max⟩)
    match buildObjectLoop val ((k - max) / 2) max k st₂ with
    | (.error e, st₃) => (.error e, st₃)
    | (.ok (m, _), st₃) => (.ok (m, rest), st₃)

/-- `value_recur::value_parser(v, s, idx, max)`: parse one JSON value,
writing its node at `idx`; `max` is the one-past-the-end arena index where
a compound value's children may grow.  Returns the new one-past-the-end
index.  Fuelled per value nesting level like the sizing pass. -/
def buildValueP : Nat → Nat → Nat → SParser Nat
  | 0, _, _ => liftP failP
  | fuel + 1, idx, max =>
    seqSndS (liftP skip_whitespace)
      (altS (fmapEff (fun _ st => (max, st.write idx (.Boolean true)))
              (liftP (make_string_p (str2bytes "true"))))
      (altS (fmapEff (fun _ st => (max, st.write idx (.Boolean false)))
              (liftP (make_string_p (str2bytes "false"))))
      (altS (fmapEff (fun _ st => (max, st.write idx .Null))
              (liftP (make_string_p (str2bytes "null"))))
      (altS (fmapEff (fun d st => (max, st.write idx (.Number d)))
              (liftP numberP))
      (altS (fmapEff (fun ev st => (max, st.write idx (.String ev)))
              buildStringP)
      (altS (seqSndS (liftP (make_char_p (ch '[')))
              (buildArrayP (buildValueP fuel) (extentValueP fuel) idx max))
            (seqSndS (liftP (make_char_p (ch '{')))
              (buildObjectP (buildValueP fuel) (extentValueP fuel) idx max))))))))

/-- The empty externalised storage of a fresh `value_wrapper`: every arena
node is default-constructed (`Type::Null`), the string buffer is empty. -/
def initSt : BuildSt := ⟨fun _ => .Null, []⟩

/-- `value_wrapper::construct`: run the build pass from node 0 with the
free space starting at node 1. -/
def construct (fuel : Nat) (s : Input) : PResult Nat × BuildSt :=
  buildValueP fuel 0 1 s initSt

end JSONM

namespace JSONM

/-- Post-parse navigation errors of the accessor layer (`value_proxy`
throws `std::runtime_error`; the spec names the three classes). -/
inductive NavErr where
  | TypeMismatch
  | KeyNotFound
  | IndexOutOfRange
deriving DecidableEq

/-- `value_proxy::operator[](std::size_t)` (array element access): requires
the node at `index` to be tagged Array (`to_Array() const` throws on a tag
mismatch), rejects an index with `idx > ext.extent` ("Index past end of
array") and returns a proxy at `ext.offset + idx`. -/
def arrayElem (v : Nat → value) (index : Nat) (idx : Nat) : Except NavErr Nat :=
  match v index with
  | .Array ev => if idx > ev.extent then .error .IndexOutOfRange else .ok (ev.offset + idx)
  | _ => .error .TypeMismatch

/-- The decoded bytes of a String node's window into the string buffer. -/
def stringBytes (s : List Nat) (ev : ExternalView) : List Nat :=
  (s.drop ev.offset).take ev.extent

/-- The key-scanning loop of `value_proxy::operator[](const K&)`: walk the
alternating (key, value) node pairs in `[i, stop)`, comparing each key's
decoded bytes with the requested key; structured on the pair count.  A
non-String node in a key slot makes `to_String() const` throw
(TypeMismatch). -/
def objectScan (v : Nat → value) (s : List Nat) (key : List Nat) :
    Nat → Nat → Except NavErr Nat
  | 0, _ => .error .KeyNotFound
  | n + 1, i =>
    match v i with
    | .String ev =>
      if stringBytes s ev = key then .ok (i + 1)
      else objectScan v s key n (i + 2)
    | _ => .error .TypeMismatch

/-- `value_proxy::operator[](const K&)` (object member access): requires an
Object-tagged node, scans its `extent / 2` member pairs for a key whose
decoded bytes equal `key`, and returns a proxy at the matching value's
index. -/
def objectMember (v : Nat → value) (s : List Nat) (index : Nat) (key : List Nat) :
    Except NavErr Nat :=
  match v index with
  | .Object ev => objectScan v s key (ev.extent / 2) ev.offset
  | _ => .error .TypeMismatch

/-- `value_proxy::to_Number() const`. -/
def asNumber (v : Nat → value) (index : Nat) : Except NavErr Dbl :=
  match v index with
  | .Number d => .ok d
  | _ => .error .TypeMismatch

/-- `value_proxy::to_Boolean() const`. -/
def asBoolean (v : Nat → value) (index : Nat) : Except NavErr Bool :=
  match v index with
  | .Boolean b => .ok b
  | _ => .error .TypeMismatch

/-- `value_proxy::to_String() const`, resolved to the decoded bytes. -/
def asString (v : Nat → value) (s : List Nat) (index : Nat) : Except NavErr (List Nat) :=
  match v index with
  | .String ev => .ok (stringBytes s ev)
  | _ => .error .TypeMismatch

end JSONM

namespace JSONM

open CxP

/-- Standard UTF-8 decoding of a 1-3 byte sequence (the reference
definition the encoder is checked against; 4-byte sequences do not arise
from `\uXXXX` escapes, whose code points fit in 16 bits). -/
def utf8decode (bs : List Nat) : Option Nat :=
  match bs with
  | [b0] => if b0 ≤ 0x7f then some b0 else none
  | [b0, b1] =>
    if 0xC0 ≤ b0 ∧ b0 ≤ 0xDF ∧ 0x80 ≤ b1 ∧ b1 ≤ 0xBF then
      some ((b0 - 0xC0) * 64 + (b1 - 0x80))
    else none
  | [b0, b1, b2] =>
    if 0xE0 ≤ b0 ∧ b0 ≤ 0xEF ∧ 0x80 ≤ b1 ∧ b1 ≤ 0xBF ∧ 0x80 ≤ b2 ∧ b2 ≤ 0xBF then
      some ((b0 - 0xE0) * 4096 + (b1 - 0x80) * 64 + (b2 - 0x80))
    else none
  | _ => none

end JSONM

namespace CxP

/-- A parser's successful residual is a suffix of its input (it never
conjures bytes; consumption only moves the cursor forward). -/
def SuffP (p : Parser α) : Prop :=
  ∀ s x r, p s = .ok (x, r) → r <:+ s

/-- A parser consumes at least one byte whenever it succeeds. -/
def ConsumesP (p : Parser α) : Prop :=
  ∀ s x r, p s = .ok (x, r) → r.length < s.length

/-- Localization: a run that leaves all of `b` unconsumed behaves the same
on the input truncated at `b`. -/
def PLocP (p : Parser α) : Prop :=
  ∀ a b x r, p (a ++ b) = .ok (x, r ++ b) → p a = .ok (x, r)

/-- Soft-failure localization: a soft failure is preserved when the input
is truncated at an unreached extension. -/
def SLocP (p : Parser α) : Prop :=
  ∀ a b, p (a ++ b) = .error .soft → p a = .error .soft

/-- Quiescent extension: a success that stops strictly before the end of
the input is unaffected by appending further bytes. -/
def QExtP (p : Parser α) : Prop :=
  ∀ a b x m, p a = .ok (x, m) → m ≠ [] → p (a ++ b) = .ok (x, m ++ b)

/-- The parser never fails softly. -/
def NeverSoftP (p : Parser α) : Prop :=
  ∀ s, p s ≠ .error .soft

/-- The parser never fails hard. -/
def NeverHardP (p : Parser α) : Prop :=
  ∀ s, p s ≠ .error .hard

end CxP

namespace JSONM

/-- A state transition never turns a node into an `Unparsed` node it was
not already: any `Unparsed` node of the final arena was present, with the
same span, in the initial arena. -/
def UnparsedStable (st st' : BuildSt) : Prop :=
  ∀ j sp, st'.v j = .Unparsed sp → st.v j = .Unparsed sp

/-- A stateful parser that never touches the node arena (it may append to
the string buffer). -/
def VPresS (p : SParser α) : Prop :=
  ∀ i st, ((p i st).2).v = st.v

end JSONM

/-! ### Helper lemmas -/

namespace JSONM

open CxP

/-- Bitwise-or of a multiple of `2 ^ k` with a value below `2 ^ k` is their
sum (the UTF-8 encoder combines disjoint bit ranges this way). -/
theorem lor_two_pow_mul_add (k : Nat) : ∀ m y : Nat, y < 2 ^ k →
    (2 ^ k * m) ||| y = 2 ^ k * m + y := by
  induction k with
  | zero =>
    intro m y h
    interval_cases y
    simp
  | succ k ih =>
    intro m y h
    have hy : y = Nat.bit (y % 2 = 1) (y / 2) := by
      simp [Nat.bit]
      rcases Nat.mod_two_eq_zero_or_one y with h2 | h2 <;> simp [h2] <;> omega
    have hm : 2 ^ (k + 1) * m = Nat.bit false (2 ^ k * m) := by
      simp [Nat.bit]; ring
    have hlt : y / 2 < 2 ^ k := by
      have h2 : 2 ^ (k + 1) = 2 ^ k * 2 := by ring
      omega
    rw [hm, hy, Nat.lor_bit, ih _ _ hlt]
    simp [Nat.bit]
    rcases Nat.mod_two_eq_zero_or_one y with h2 | h2 <;> simp [h2] <;> ring_nf

set_option maxRecDepth 10000

/-- The UTF-8 encoder is inverted by standard UTF-8 decoding on every code
point expressible by a `\uXXXX` escape. -/
theorem utf8_roundtrip (c : Nat) (hc : c ≤ 0xffff) :
    utf8decode (to_utf8 c) = some c := by
  by_cases h1 : c ≤ 0x7f
  · simp [to_utf8, h1, utf8decode]
  · by_cases h2 : c ≤ 0x7ff
    · have e1 : (0xC0 : Nat) ||| (c >>> 6) = 192 + c / 64 := by
        have hs : c >>> 6 = c / 64 := by
          simpa using Nat.shiftRight_eq_div_pow c 6
        have h3 : (0xC0 : Nat) = 2 ^ 6 * 3 := by norm_num
        rw [hs, h3, lor_two_pow_mul_add 6 3 (c / 64) (by omega)]
      have e2 : (0x80 : Nat) ||| (c &&& 0x3f) = 128 + c % 64 := by
        have ha : c &&& 0x3f = c % 64 := by
          simpa using Nat.and_pow_two_sub_one_eq_mod c 6
        have h3 : (0x80 : Nat) = 2 ^ 7 * 1 := by norm_num
        rw [ha, h3, lor_two_pow_mul_add 7 1 (c % 64) (by omega)]
      rw [show to_utf8 c = [0xC0 ||| (c >>> 6), 0x80 ||| (c &&& 0x3f)] from by
            simp [to_utf8, h1, h2],
          e1, e2]
      simp only [utf8decode]
      rw [if_pos (by refine ⟨by omega, by omega, by omega, by omega⟩)]
      congr 1
      omega
    · have e1 : (0xE0 : Nat) ||| (c >>> 12) = 224 + c / 4096 := by
        have hs : c >>> 12 = c / 4096 := by
          simpa using Nat.shiftRight_eq_div_pow c 12
        have h3 : (0xE0 : Nat) = 2 ^ 5 * 7 := by norm_num
        rw [hs, h3, lor_two_pow_mul_add 5 7 (c / 4096) (by omega)]
      have e2 : (0x80 : Nat) ||| ((c >>> 6) &&& 0x3f) = 128 + c / 64 % 64 := by
        have hs : c >>> 6 = c / 64 := by
          simpa using Nat.shiftRight_eq_div_pow c 6
        have ha : c / 64 &&& 0x3f = c / 64 % 64 := by
          simpa using Nat.and_pow_two_sub_one_eq_mod (c / 64) 6
        have h3 : (0x80 : Nat) = 2 ^ 7 * 1 := by norm_num
        rw [hs, ha, h3, lor_two_pow_mul_add 7 1 (c / 64 % 64) (by omega)]
      have e3 : (0x80 : Nat) ||| (c &&& 0x3f) = 128 + c % 64 := by
        have ha : c &&& 0x3f = c % 64 := by
          simpa using Nat.and_pow_two_sub_one_eq_mod c 6
        have h3 : (0x80 : Nat) = 2 ^ 7 * 1 := by norm_num
        rw [ha, h3, lor_two_pow_mul_add 7 1 (c % 64) (by omega)]
      rw [show to_utf8 c =
            [0xE0 ||| (c >>> 12), 0x80 ||| ((c >>> 6) &&& 0x3f), 0x80 ||| (c &&& 0x3f)] from by
            simp [to_utf8, h1, h2, hc],
          e1, e2, e3]
      simp only [utf8decode]
      rw [if_pos (by refine ⟨by omega, by omega, by omega, by omega, by omega, by omega⟩)]
      congr 1
      omega

/-- The encoded length of a `\uXXXX` code point follows its range. -/
theorem utf8_length (c : Nat) (hc : c ≤ 0xffff) :
    (to_utf8 c).length = if c ≤ 0x7f then 1 else if c ≤ 0x7ff then 2 else 3 := by
  by_cases h1 : c ≤ 0x7f <;> by_cases h2 : c ≤ 0x7ff <;>
    simp [to_utf8, h1, h2, hc]

end JSONM

namespace CxP

/-- A successful literal match leaves a suffix of the input. -/
theorem matchLit_suffix : ∀ (str : List Nat) (s rest : Input),
    matchLit str s = some rest → rest <:+ s
  | [], s, rest, h => by
    simp [matchLit] at h
    simp [h]
  | c :: cs, [], rest, h => by
    simp [matchLit] at h
  | c :: cs, x :: xs, rest, h => by
    by_cases hx : x = c
    · subst hx
      simp [matchLit] at h
      exact (matchLit_suffix cs xs rest h).trans (List.suffix_cons x xs)
    · simp [matchLit, hx] at h

end CxP

/-! ### Claim theorems -/

namespace JSONM

open CxP

/-- C7: For every `\uXXXX` escape, the decoded byte sequence is the UTF-8
encoding of the code point — standard UTF-8 decoding recovers the code
point — with length 1 for code points ≤ 0x7F, 2 for ≤ 0x7FF and 3 for
≤ 0xFFFF; in particular U+2603 (the snowman) decodes to exactly the bytes
0xE2 0x98 0x83, also through the escape parser. -/
theorem C7_utf8_encoding (c : Nat) (hc : c ≤ 0xffff) :
    utf8decode (to_utf8 c) = some c ∧
    (to_utf8 c).length = (if c ≤ 0x7f then 1 else if c ≤ 0x7ff then 2 else 3) ∧
    to_utf8 0x2603 = [0xE2, 0x98, 0x83] ∧
    unicodePointP (str2bytes "\\u2603") = .ok ([0xE2, 0x98, 0x83], []) :=
  ⟨utf8_roundtrip c hc, utf8_length c hc, by decide, by decide⟩

/-- Witness for C7 at the snowman code point U+2603. -/
theorem C7_witness :
    (0x2603 : Nat) ≤ 0xffff ∧
    (utf8decode (to_utf8 0x2603) = some 0x2603 ∧
    (to_utf8 0x2603).length =
      (if (0x2603 : Nat) ≤ 0x7f then 1 else if (0x2603 : Nat) ≤ 0x7ff then 2 else 3) ∧
    to_utf8 0x2603 = [0xE2, 0x98, 0x83] ∧
    unicodePointP (str2bytes "\\u2603") = .ok ([0xE2, 0x98, 0x83], [])) :=
  ⟨by decide, C7_utf8_encoding 0x2603 (by decide)⟩

/-- C2: the accessor bounds check is `idx > ext.extent`, so element access
at `i = extent` is *not* rejected: on an Array node with `extent = 1` the
access at index 1 returns a handle one past the element range (the claim
and the spec require `IndexOutOfRange` for every `i ≥ extent`).  Indices
below the extent and above it behave as claimed. -/
theorem C2_array_index_at_extent_not_rejected :
    arrayElem (Function.update (fun _ => value.Null) 0 (.Array ⟨1, 1⟩)) 0 1 = .ok 2 ∧
    arrayElem (Function.update (fun _ => value.Null) 0 (.Array ⟨1, 1⟩)) 0 0 = .ok 1 ∧
    arrayElem (Function.update (fun _ => value.Null) 0 (.Array ⟨1, 1⟩)) 0 2 =
      .error .IndexOutOfRange := by
  refine ⟨by decide, by decide, by decide⟩

/-- C5: the fractional digits are parsed by `int0_parser` into an `int`,
which drops leading zeros, so `"1.05"` parses to the double 3/2 (every
intermediate value — 5, 0.5, 1.5 — is exactly representable in binary64,
so the exact-fraction model coincides with the IEEE computation), not to
the value 21/20 the literal denotes. -/
theorem C5_number_fraction_misparse :
    numberP (str2bytes "1.05") = .ok (⟨15, 10⟩, []) ∧
    (15 : Int) * 2 = 3 * 10 ∧
    (15 : Int) * 20 ≠ 21 * 10 := by
  refine ⟨by decide, by decide, by decide⟩

/-- C6: `accumulate_n_parse` returns success with the partial accumulator
when its element parser fails before the n-th repetition, so the `\uXXXX`
escape parser accepts `"\u12g!"`, consuming only two hex digits and
decoding code point 0x12 — an input where `\u` is followed by fewer than 4
hex digits *is* accepted as a unicode escape. -/
theorem C6_escape_accepts_short_hex :
    unicodePointP (str2bytes "\\u12g!") = .ok ([0x12], str2bytes "g!") ∧
    exactly_n (one_of hexChars) 4 0 hexStep (str2bytes "12g!") =
      .ok (0x12, str2bytes "g!") := by
  refine ⟨by decide, by decide⟩

/-- Counterexample to C4 as stated: on the malformed input `"{"` the build
pass fails *softly* (`std::nullopt` from the missing `'}'`), not with the
hard (throwing) failure the claim asserts for both passes — only the
sizing pass throws. -/
theorem C4_counterexample :
    (construct 3 (str2bytes "\x7b")).1 = .error .soft ∧ PErr.soft ≠ PErr.hard := by
  refine ⟨by decide, by decide⟩

/-- C4 (amended): each of the six malformed inputs fails in both passes —
the sizing pass with a hard (throwing) failure, the build pass with a soft
no-value failure — so neither pass produces a value for any of them. -/
theorem C4_malformed_inputs :
    sizesValueP 3 (str2bytes "\x7b") = .error .hard ∧
    sizesValueP 3 (str2bytes "[") = .error .hard ∧
    sizesValueP 3 (str2bytes "\x7b\"a\"") = .error .hard ∧
    sizesValueP 3 (str2bytes "\x7b1") = .error .hard ∧
    sizesValueP 3 (str2bytes "\x7b\"a\":1") = .error .hard ∧
    sizesValueP 3 (str2bytes "[1,]") = .error .hard ∧
    (construct 3 (str2bytes "\x7b")).1 = .error .soft ∧
    (construct 3 (str2bytes "[")).1 = .error .soft ∧
    (construct 3 (str2bytes "\x7b\"a\"")).1 = .error .soft ∧
    (construct 3 (str2bytes "\x7b1")).1 = .error .soft ∧
    (construct 3 (str2bytes "\x7b\"a\":1")).1 = .error .soft ∧
    (construct 3 (str2bytes "[1,]")).1 = .error .soft := by
  refine ⟨by decide, by decide, by decide, by decide, by decide, by decide,
         by decide, by decide, by decide, by decide, by decide, by decide⟩

/-- C9: on the scenario input the build pass succeeds (8 nodes: object,
three key/value pairs, and the array element "hello"), and accessor
navigation yields member "a" as the Number 1, member "b" as the Boolean
true, and element 0 of member "c" as the String "hello". -/
theorem C9_scenario :
    (construct 9 (str2bytes "\x7b\"a\":1, \"b\":true, \"c\":[\"hello\"]\x7d")).1 =
      .ok (8, []) ∧
    ((objectMember (construct 9 (str2bytes "\x7b\"a\":1, \"b\":true, \"c\":[\"hello\"]\x7d")).2.v
        (construct 9 (str2bytes "\x7b\"a\":1, \"b\":true, \"c\":[\"hello\"]\x7d")).2.s
        0 (str2bytes "a")).bind
      (fun i => asNumber (construct 9 (str2bytes "\x7b\"a\":1, \"b\":true, \"c\":[\"hello\"]\x7d")).2.v i))
      = .ok ⟨1, 1⟩ ∧
    ((objectMember (construct 9 (str2bytes "\x7b\"a\":1, \"b\":true, \"c\":[\"hello\"]\x7d")).2.v
        (construct 9 (str2bytes "\x7b\"a\":1, \"b\":true, \"c\":[\"hello\"]\x7d")).2.s
        0 (str2bytes "b")).bind
      (fun i => asBoolean (construct 9 (str2bytes "\x7b\"a\":1, \"b\":true, \"c\":[\"hello\"]\x7d")).2.v i))
      = .ok true ∧
    (((objectMember (construct 9 (str2bytes "\x7b\"a\":1, \"b\":true, \"c\":[\"hello\"]\x7d")).2.v
        (construct 9 (str2bytes "\x7b\"a\":1, \"b\":true, \"c\":[\"hello\"]\x7d")).2.s
        0 (str2bytes "c")).bind
      (fun i => arrayElem (construct 9 (str2bytes "\x7b\"a\":1, \"b\":true, \"c\":[\"hello\"]\x7d")).2.v i 0)).bind
      (fun i => asString (construct 9 (str2bytes "\x7b\"a\":1, \"b\":true, \"c\":[\"hello\"]\x7d")).2.v
                  (construct 9 (str2bytes "\x7b\"a\":1, \"b\":true, \"c\":[\"hello\"]\x7d")).2.s i))
      = .ok (str2bytes "hello") := by
  refine ⟨by decide, by decide, by decide, by decide⟩

/-- Counterexample to C10 as stated: `make_string_parser` with the empty
pattern *succeeds* on empty input (the `cx::mismatch` loop matches the
empty prefix trivially), rather than returning the no-match result. -/
theorem C10_counterexample :
    make_string_p [] [] = .ok ([], []) := by decide

/-- C10 (amended): `make_char_parser`, `one_of`, `none_of`, and
`make_string_parser` with a nonempty pattern all return the no-match
result on empty input, and each primitive only moves the cursor forward
within its input: a successful residual is a suffix of the input. -/
theorem C10_primitives_empty_input :
    (∀ c : Nat, make_char_p c [] = .error .soft) ∧
    (∀ cs : List Nat, one_of cs [] = .error .soft) ∧
    (∀ cs : List Nat, none_of cs [] = .error .soft) ∧
    (∀ str : List Nat, str ≠ [] → make_string_p str [] = .error .soft) ∧
    (∀ c : Nat, SuffP (make_char_p c)) ∧
    (∀ cs : List Nat, SuffP (one_of cs)) ∧
    (∀ cs : List Nat, SuffP (none_of cs)) ∧
    (∀ str : List Nat, SuffP (make_string_p str)) := by
  refine ⟨fun c => rfl, fun cs => rfl, fun cs => rfl, ?_, ?_, ?_, ?_, ?_⟩
  · intro str hstr
    cases str with
    | nil => exact absurd rfl hstr
    | cons c cs => rfl
  · intro c s x r h
    cases s with
    | nil => simp [make_char_p] at h
    | cons y ys =>
      by_cases hy : y = c
      · simp [make_char_p, hy] at h
        exact h.2 ▸ List.suffix_cons y ys
      · simp [make_char_p, hy] at h
  · intro cs s x r h
    cases s with
    | nil => simp [one_of] at h
    | cons y ys =>
      by_cases hy : y ∈ cs
      · simp [one_of, hy] at h
        exact h.2 ▸ List.suffix_cons y ys
      · simp [one_of, hy] at h
  · intro cs s x r h
    cases s with
    | nil => simp [none_of] at h
    | cons y ys =>
      by_cases hy : y ∈ cs
      · simp [none_of, hy] at h
      · simp [none_of, hy] at h
        exact h.2 ▸ List.suffix_cons y ys
  · intro str s x r h
    simp only [make_string_p] at h
    cases hm : matchLit str s with
    | none => simp [hm] at h
    | some rst =>
      simp [hm] at h
      exact h.2 ▸ matchLit_suffix str s rst hm

/-- Witness for C10 (amended) at the one-byte pattern `"a"` and a sample
successful run of `make_char_parser`. -/
theorem C10_witness :
    ([ch 'a'] ≠ ([] : List Nat) ∧ make_string_p [ch 'a'] [] = .error .soft) ∧
    (make_char_p (ch 'a') [ch 'a', ch 'b'] = .ok (ch 'a', [ch 'b']) ∧
      [ch 'b'] <:+ [ch 'a', ch 'b']) :=
  ⟨⟨by decide, C10_primitives_empty_input.2.2.2.1 [ch 'a'] (by decide)⟩,
   by decide,
   C10_primitives_empty_input.2.2.2.2.1 (ch 'a') [ch 'a', ch 'b'] (ch 'a') [ch 'b']
     (by decide)⟩

/-- Counterexample to C3 as stated: the object `{"a":[1]}` has exactly one
member, so the claim's formula predicts 1 + 2×1 = 3 nodes, but the sizing
pass computes 4 nodes (object node, key node, array node, array element
node) — a member whose value is an array consumes more than two nodes. -/
theorem C3_counterexample :
    sizesValueP 4 (str2bytes "\x7b\"a\":[1]\x7d") = .ok (⟨4, 1⟩, []) ∧
    (4 : Nat) ≠ 1 + 2 * 1 := by
  refine ⟨by decide, by decide⟩

end JSONM

namespace CxP

theorem fmap_ok {α β} {f : α → β} {p : Parser α} {i : Input} {b : β} {r : Input}
    (h : fmap f p i = .ok (b, r)) : ∃ a, p i = .ok (a, r) ∧ b = f a := by
  unfold fmap at h
  cases h1 : p i with
  | error e => rw [h1] at h; cases h
  | ok ar =>
    obtain ⟨a, r1⟩ := ar
    rw [h1] at h
    cases h
    exact ⟨a, rfl, rfl⟩

theorem fmap_ok_intro {α β} {f : α → β} {p : Parser α} {i : Input} {a : α} {r : Input}
    (h : p i = .ok (a, r)) : fmap f p i = .ok (f a, r) := by
  unfold fmap; rw [h]

theorem fmap_err {α β} {f : α → β} {p : Parser α} {i : Input} {e : PErr} :
    fmap f p i = .error e ↔ p i = .error e := by
  unfold fmap
  cases h1 : p i with
  | error e' => simp
  | ok ar => simp

theorem combine_ok {α β γ} {p1 : Parser α} {p2 : Parser β} {f : α → β → γ}
    {i : Input} {c : γ} {r : Input}
    (h : combine p1 p2 f i = .ok (c, r)) :
    ∃ a r1 b, p1 i = .ok (a, r1) ∧ p2 r1 = .ok (b, r) ∧ c = f a b := by
  unfold combine at h
  cases h1 : p1 i with
  | error e => rw [h1] at h; cases h
  | ok ar =>
    obtain ⟨a, r1⟩ := ar
    rw [h1] at h
    dsimp only at h
    cases h2 : p2 r1 with
    | error e => rw [h2] at h; cases h
    | ok br =>
      obtain ⟨b, r2⟩ := br
      rw [h2] at h
      cases h
      refine ⟨a, r1, b, ?_, ?_, rfl⟩ <;> simp [h1, h2]

theorem combine_ok_intro {α β γ} {p1 : Parser α} {p2 : Parser β} {f : α → β → γ}
    {i : Input} {a : α} {r1 : Input} {b : β} {r2 : Input}
    (h1 : p1 i = .ok (a, r1)) (h2 : p2 r1 = .ok (b, r2)) :
    combine p1 p2 f i = .ok (f a b, r2) := by
  unfold combine; rw [h1]; dsimp only; rw [h2]

theorem combine_err {α β γ} {p1 : Parser α} {p2 : Parser β} {f : α → β → γ}
    {i : Input} {e : PErr}
    (h : combine p1 p2 f i = .error e) :
    p1 i = .error e ∨ ∃ a r1, p1 i = .ok (a, r1) ∧ p2 r1 = .error e := by
  unfold combine at h
  cases h1 : p1 i with
  | error e' => rw [h1] at h; cases h; exact Or.inl rfl
  | ok ar =>
    obtain ⟨a, r1⟩ := ar
    rw [h1] at h
    dsimp only at h
    cases h2 : p2 r1 with
    | error e' =>
      rw [h2] at h
      cases h
      refine Or.inr ⟨a, r1, ?_, ?_⟩ <;> simp [h1, h2]
    | ok br => rw [h2] at h; cases h

theorem combine_err_intro1 {α β γ} {p1 : Parser α} {p2 : Parser β} {f : α → β → γ}
    {i : Input} {e : PErr} (h : p1 i = .error e) :
    combine p1 p2 f i = .error e := by
  unfold combine; rw [h]

theorem combine_err_intro2 {α β γ} {p1 : Parser α} {p2 : Parser β} {f : α → β → γ}
    {i : Input} {a : α} {r1 : Input} {e : PErr}
    (h1 : p1 i = .ok (a, r1)) (h2 : p2 r1 = .error e) :
    combine p1 p2 f i = .error e := by
  unfold combine; rw [h1]; dsimp only; rw [h2]

theorem alt_ok {α} {p1 p2 : Parser α} {i : Input} {r : α × Input}
    (h : alt p1 p2 i = .ok r) :
    p1 i = .ok r ∨ (p1 i = .error .soft ∧ p2 i = .ok r) := by
  unfold alt at h
  cases h1 : p1 i with
  | error e =>
    rw [h1] at h
    cases e
    · exact Or.inr ⟨rfl, h⟩
    · cases h
  | ok r' => rw [h1] at h; exact Or.inl h

theorem alt_ok_intro1 {α} {p1 p2 : Parser α} {i : Input} {r : α × Input}
    (h : p1 i = .ok r) : alt p1 p2 i = .ok r := by
  unfold alt; rw [h]

theorem alt_ok_intro2 {α} {p1 p2 : Parser α} {i : Input} {r : α × Input}
    (h1 : p1 i = .error .soft) (h2 : p2 i = .ok r) : alt p1 p2 i = .ok r := by
  unfold alt; rw [h1]; exact h2

theorem alt_err {α} {p1 p2 : Parser α} {i : Input} {e : PErr}
    (h : alt p1 p2 i = .error e) :
    (p1 i = .error .hard ∧ e = .hard) ∨ (p1 i = .error .soft ∧ p2 i = .error e) := by
  unfold alt at h
  cases h1 : p1 i with
  | error e' =>
    rw [h1] at h
    cases e'
    · exact Or.inr ⟨rfl, h⟩
    · cases h; exact Or.inl ⟨rfl, rfl⟩
  | ok r' => rw [h1] at h; cases h

theorem alt_err_intro {α} {p1 p2 : Parser α} {i : Input} {e : PErr}
    (h1 : p1 i = .error .soft) (h2 : p2 i = .error e) : alt p1 p2 i = .error e := by
  unfold alt; rw [h1]; exact h2

theorem bindP_ok {α β} {p : Parser α} {f : α → Input → PResult β} {i : Input}
    {r : β × Input} (h : bindP p f i = .ok r) :
    ∃ a r1, p i = .ok (a, r1) ∧ f a r1 = .ok r := by
  unfold bindP at h
  cases h1 : p i with
  | error e => rw [h1] at h; cases h
  | ok ar =>
    obtain ⟨a, r1⟩ := ar
    rw [h1] at h
    exact ⟨a, r1, rfl, h⟩

theorem option_ok {α} {d : α} {p : Parser α} {i : Input} {r : α × Input}
    (h : CxP.option d p i = .ok r) :
    p i = .ok r ∨ (p i = .error .soft ∧ r = (d, i)) := by
  unfold CxP.option at h
  cases h1 : p i with
  | error e =>
    rw [h1] at h
    cases e
    · cases h; exact Or.inr ⟨rfl, rfl⟩
    · cases h
  | ok r' => rw [h1] at h; exact Or.inl h

theorem option_err {α} {d : α} {p : Parser α} {i : Input} {e : PErr}
    (h : CxP.option d p i = .error e) : p i = .error .hard ∧ e = .hard := by
  unfold CxP.option at h
  cases h1 : p i with
  | error e' =>
    rw [h1] at h
    cases e'
    · cases h
    · cases h; exact ⟨rfl, rfl⟩
  | ok r' => rw [h1] at h; cases h

theorem sep_ok {α β γ} {p1 : Parser α} {p2 : Parser γ} {init : β} {f : β → α → β}
    {i : Input} {acc : β} {r : Input}
    (h : separated_by_val p1 p2 init f i = .ok (acc, r)) :
    (p1 i = .error .soft ∧ acc = init ∧ r = i) ∨
    ∃ a s', p1 i = .ok (a, s') ∧
      accumulate_parse (seqSnd p2 p1) f s'.length s' (f init a) = .ok (acc, r) := by
  unfold separated_by_val at h
  cases h1 : p1 i with
  | error e =>
    cases e <;> rw [h1] at h
    · cases h; exact Or.inl ⟨rfl, rfl, rfl⟩
    · cases h
  | ok ar =>
    obtain ⟨a, s'⟩ := ar
    rw [h1] at h
    exact Or.inr ⟨a, s', rfl, h⟩

theorem sep_err {α β γ} {p1 : Parser α} {p2 : Parser γ} {init : β} {f : β → α → β}
    {i : Input} {e : PErr}
    (h : separated_by_val p1 p2 init f i = .error e) :
    (p1 i = .error .hard ∧ e = .hard) ∨
    ∃ a s', p1 i = .ok (a, s') ∧
      accumulate_parse (seqSnd p2 p1) f s'.length s' (f init a) = .error e := by
  unfold separated_by_val at h
  cases h1 : p1 i with
  | error e' =>
    cases e' <;> rw [h1] at h
    · cases h
    · cases h; exact Or.inl ⟨rfl, rfl⟩
  | ok ar =>
    obtain ⟨a, s'⟩ := ar
    rw [h1] at h
    exact Or.inr ⟨a, s', rfl, h⟩

end CxP

namespace CxP

theorem accumulate_parse_nil {α β} (p : Parser α) (f : β → α → β) (fuel : Nat) (init : β) :
    accumulate_parse p f fuel [] init = .ok (init, []) := by
  cases fuel <;> rfl

theorem accumulate_parse_zero {α β} (p : Parser α) (f : β → α → β) (s : Input) (init : β) :
    accumulate_parse p f 0 s init = .ok (init, s) := by
  cases s <;> rfl

theorem accumulate_parse_cons {α β} (p : Parser α) (f : β → α → β) (fuel : Nat)
    (c : Nat) (cs : Input) (init : β) :
    accumulate_parse p f (fuel + 1) (c :: cs) init =
      match p (c :: cs) with
      | .error .hard => .error .hard
      | .error .soft => .ok (init, c :: cs)
      | .ok (a, s') => accumulate_parse p f fuel s' (f init a) := rfl

theorem accumulate_elems {α β} (p : Parser α) (f : β → α → β) :
    ∀ (fuel : Nat) (s : Input) (init acc : β) (r : Input),
      accumulate_parse p f fuel s init = .ok (acc, r) →
      ∃ xs : List α, acc = xs.foldl f init ∧
        ∀ a ∈ xs, ∃ s1 r1, p s1 = .ok (a, r1) := by
  intro fuel
  induction fuel with
  | zero =>
    intro s init acc r h
    rw [accumulate_parse_zero] at h
    cases h
    exact ⟨[], rfl, by simp⟩
  | succ fuel ih =>
    intro s init acc r h
    cases s with
    | nil =>
      rw [accumulate_parse_nil] at h
      cases h
      exact ⟨[], rfl, by simp⟩
    | cons c cs =>
      rw [accumulate_parse_cons] at h
      cases hp : p (c :: cs) with
      | error e =>
        cases e <;> rw [hp] at h
        · cases h
          exact ⟨[], rfl, by simp⟩
        · cases h
      | ok ar =>
        obtain ⟨a, s'⟩ := ar
        rw [hp] at h
        obtain ⟨xs, hacc, hmem⟩ := ih s' (f init a) acc r h
        refine ⟨a :: xs, by simpa using hacc, ?_⟩
        intro b hb
        rcases List.mem_cons.mp hb with hb | hb
        · exact ⟨c :: cs, s', hb ▸ hp⟩
        · exact hmem b hb

theorem sep_elems {α β γ} {p1 : Parser α} {p2 : Parser γ} {init : β} {f : β → α → β}
    {i : Input} {acc : β} {r : Input}
    (h : separated_by_val p1 p2 init f i = .ok (acc, r)) :
    ∃ xs : List α, acc = xs.foldl f init ∧
      ∀ a ∈ xs, ∃ s1 r1, p1 s1 = .ok (a, r1) := by
  rcases sep_ok h with ⟨_, hacc, _⟩ | ⟨a, s', ha, hacc⟩
  · exact ⟨[], by simp [hacc], by simp⟩
  · obtain ⟨xs, hfold, hmem⟩ := accumulate_elems _ f _ s' (f init a) acc r hacc
    refine ⟨a :: xs, by simpa using hfold, ?_⟩
    intro b hb
    rcases List.mem_cons.mp hb with hb | hb
    · exact ⟨i, s', hb ▸ ha⟩
    · obtain ⟨s1, r1, hb'⟩ := hmem b hb
      obtain ⟨x, r0, b', hsep, hp1, hval⟩ := combine_ok hb'
      exact ⟨r0, r1, by rw [hp1, hval]⟩

end CxP

namespace JSONM

open CxP

theorem foldl_sizes (xs : List Sizes) : ∀ init : Sizes,
    xs.foldl Sizes.add init =
      ⟨init.num_objects + (xs.map Sizes.num_objects).sum,
       init.string_size + (xs.map Sizes.string_size).sum⟩ := by
  induction xs with
  | nil => intro init; simp
  | cons x xs ih =>
    intro init
    simp only [List.foldl_cons, List.map_cons, List.sum_cons, ih]
    simp [Sizes.add]
    constructor <;> omega

theorem sizesKeyValueP_shape {val : Parser Sizes} {s : Input} {m : Sizes} {r : Input}
    (h : sizesKeyValueP val s = .ok (m, r)) :
    ∃ len vsz, m = Sizes.mk (vsz.num_objects + 1) (vsz.string_size + len) ∧
      (∃ s2 r2, val s2 = .ok (vsz, r2)) ∧
      (∃ s3 r3, stringSizeP s3 = .ok (len, r3)) := by
  unfold sizesKeyValueP at h
  obtain ⟨len, sv, hkey, hf⟩ := bindP_ok h
  obtain ⟨vsz, hval, hm⟩ := fmap_ok hf
  unfold seqFst at hkey
  obtain ⟨a1, r1, b1, hk1, hcolon, hlen1⟩ := combine_ok hkey
  obtain ⟨a2, r2, b2, hk2, hws2, hlen2⟩ := combine_ok hk1
  unfold seqSnd at hk2
  obtain ⟨a3, r3, b3, hws3, hssp, hlen3⟩ := combine_ok hk2
  refine ⟨len, vsz, hm, ⟨sv, r, hval⟩, ⟨r3, r2, ?_⟩⟩
  rw [hssp]
  congr 1
  simp [hlen1, hlen2, hlen3]

theorem object_sizing_decomp (fuel : Nat) (s : Input) (sz : Sizes) (rest : Input)
    (h : sizesObjectP (sizesValueP fuel) s = .ok (sz, rest)) :
    ∃ members : List Sizes,
      sz.num_objects = 1 + (members.map Sizes.num_objects).sum ∧
      sz.string_size = (members.map Sizes.string_size).sum ∧
      ∀ m ∈ members, ∃ len vsz,
        m = Sizes.mk (vsz.num_objects + 1) (vsz.string_size + len) ∧
        (∃ s2 r2, sizesValueP fuel s2 = .ok (vsz, r2)) ∧
        (∃ s3 r3, stringSizeP s3 = .ok (len, r3)) := by
  unfold sizesObjectP at h
  unfold seqFst at h
  obtain ⟨a1, r1, b1, h1, hclose, hsz1⟩ := combine_ok h
  obtain ⟨a2, r2, b2, h2, hws, hsz2⟩ := combine_ok h1
  unfold seqSnd at h2
  obtain ⟨a3, r3, b3, hbrace, hsep, hsz3⟩ := combine_ok h2
  obtain ⟨xs, hfold, hmem⟩ := sep_elems hsep
  refine ⟨xs, ?_, ?_, ?_⟩
  · have : sz = xs.foldl Sizes.add ⟨1, 0⟩ := by
      rw [hsz1, hsz2, hsz3, hfold]
    rw [this, foldl_sizes]
  · have : sz = xs.foldl Sizes.add ⟨1, 0⟩ := by
      rw [hsz1, hsz2, hsz3, hfold]
    rw [this, foldl_sizes]
    simp
  · intro m hm
    obtain ⟨s1, r1', hkv⟩ := hmem m hm
    exact sizesKeyValueP_shape hkv

/-- C3 (amended): an object accepted by the sizing pass contributes one
node for itself plus, per member, one key node and the member value's full
node count (which is 1 exactly when the value is a scalar or string, so
`1 + 2×member_count` holds only then); its string contribution is the sum
of decoded key byte lengths and the member values' string byte counts. -/
theorem C3_object_sizing_amended (fuel : Nat) (s : Input) (sz : Sizes) (rest : Input)
    (h : sizesObjectP (sizesValueP fuel) s = .ok (sz, rest)) :
    ∃ members : List Sizes,
      sz.num_objects = 1 + (members.map Sizes.num_objects).sum ∧
      sz.string_size = (members.map Sizes.string_size).sum ∧
      ∀ m ∈ members, ∃ len vsz,
        m = Sizes.mk (vsz.num_objects + 1) (vsz.string_size + len) ∧
        (∃ s2 r2, sizesValueP fuel s2 = .ok (vsz, r2)) ∧
        (∃ s3 r3, stringSizeP s3 = .ok (len, r3)) :=
  object_sizing_decomp fuel s sz rest h

/-- Witness for C3 (amended) on the one-member object `{"a":1}`. -/
theorem C3_witness :
    sizesObjectP (sizesValueP 2) (str2bytes "\x7b\"a\":1\x7d") = .ok (⟨3, 1⟩, []) ∧
    ∃ members : List Sizes,
      (Sizes.mk 3 1).num_objects = 1 + (members.map Sizes.num_objects).sum ∧
      (Sizes.mk 3 1).string_size = (members.map Sizes.string_size).sum ∧
      ∀ m ∈ members, ∃ len vsz,
        m = Sizes.mk (vsz.num_objects + 1) (vsz.string_size + len) ∧
        (∃ s2 r2, sizesValueP 2 s2 = .ok (vsz, r2)) ∧
        (∃ s3 r3, stringSizeP s3 = .ok (len, r3)) :=
  ⟨by decide, C3_object_sizing_amended 2 (str2bytes "\x7b\"a\":1\x7d") ⟨3, 1⟩ [] (by decide)⟩

end JSONM

namespace JSONM

open CxP

theorem liftP_eq {α} (p : Parser α) (i : Input) (st : BuildSt) :
    liftP p i st = (p i, st) := rfl

theorem write_v (st : BuildSt) (i : Nat) (nd : value) (j : Nat) :
    (st.write i nd).v j = if j = i then nd else st.v j := by
  simp [BuildSt.write, Function.update_apply]

theorem write_s (st : BuildSt) (i : Nat) (nd : value) :
    (st.write i nd).s = st.s := rfl

theorem append_v (st : BuildSt) (bytes : List Nat) (j : Nat) :
    (st.append bytes).v j = st.v j := rfl

theorem combineS_ok {α β γ} {p1 : SParser α} {p2 : SParser β} {f : α → β → γ}
    {i : Input} {st : BuildSt} {c : γ} {r : Input} {st' : BuildSt}
    (h : combineS p1 p2 f i st = (.ok (c, r), st')) :
    ∃ a r1 stA b, p1 i st = (.ok (a, r1), stA) ∧ p2 r1 stA = (.ok (b, r), st') ∧
      c = f a b := by
  unfold combineS at h
  cases h1 : p1 i st with
  | mk res stA =>
    cases res with
    | error e => rw [h1] at h; cases h
    | ok ar =>
      obtain ⟨a, r1⟩ := ar
      rw [h1] at h
      dsimp only at h
      cases h2 : p2 r1 stA with
      | mk res2 stB =>
        cases res2 with
        | error e => rw [h2] at h; cases h
        | ok br =>
          obtain ⟨b, r2⟩ := br
          rw [h2] at h
          cases h
          exact ⟨a, r1, stA, b, rfl, h2, rfl⟩

theorem combineS_err {α β γ} {p1 : SParser α} {p2 : SParser β} {f : α → β → γ}
    {i : Input} {st : BuildSt} {e : PErr} {st' : BuildSt}
    (h : combineS p1 p2 f i st = (.error e, st')) :
    p1 i st = (.error e, st') ∨
    ∃ a r1 stA, p1 i st = (.ok (a, r1), stA) ∧ p2 r1 stA = (.error e, st') := by
  unfold combineS at h
  cases h1 : p1 i st with
  | mk res stA =>
    cases res with
    | error e' =>
      rw [h1] at h
      cases h
      exact Or.inl rfl
    | ok ar =>
      obtain ⟨a, r1⟩ := ar
      rw [h1] at h
      dsimp only at h
      cases h2 : p2 r1 stA with
      | mk res2 stB =>
        cases res2 with
        | error e' => rw [h2] at h; cases h; exact Or.inr ⟨a, r1, stA, rfl, h2⟩
        | ok br => obtain ⟨b, r2⟩ := br; rw [h2] at h; cases h

theorem altS_ok {α} {p1 p2 : SParser α} {i : Input} {st : BuildSt}
    {r : α × Input} {st' : BuildSt}
    (h : altS p1 p2 i st = (.ok r, st')) :
    p1 i st = (.ok r, st') ∨
    ∃ st1, p1 i st = (.error .soft, st1) ∧ p2 i st1 = (.ok r, st') := by
  unfold altS at h
  cases h1 : p1 i st with
  | mk res st1 =>
    cases res with
    | error e =>
      cases e <;> rw [h1] at h
      · exact Or.inr ⟨st1, rfl, h⟩
      · cases h
    | ok r' => rw [h1] at h; cases h; exact Or.inl rfl

theorem fmapEff_ok {α β} {f : α → BuildSt → β × BuildSt} {p : SParser α}
    {i : Input} {st : BuildSt} {b : β} {r : Input} {st' : BuildSt}
    (h : fmapEff f p i st = (.ok (b, r), st')) :
    ∃ a stA, p i st = (.ok (a, r), stA) ∧ f a stA = (b, st') := by
  unfold fmapEff at h
  cases h1 : p i st with
  | mk res stA =>
    cases res with
    | error e => rw [h1] at h; cases h
    | ok ar =>
      obtain ⟨a, r1⟩ := ar
      rw [h1] at h
      dsimp only at h
      cases h2 : f a stA with
      | mk b' stB =>
        rw [h2] at h
        cases h
        exact ⟨a, stA, rfl, by rw [h2]⟩

theorem fmapEff_err {α β} {f : α → BuildSt → β × BuildSt} {p : SParser α}
    {i : Input} {st : BuildSt} {e : PErr} {st' : BuildSt}
    (h : fmapEff f p i st = (.error e, st')) : p i st = (.error e, st') := by
  unfold fmapEff at h
  cases h1 : p i st with
  | mk res stA =>
    cases res with
    | error e' => rw [h1] at h; cases h; exact rfl
    | ok ar =>
      obtain ⟨a, r1⟩ := ar
      rw [h1] at h
      dsimp only at h
      cases h2 : f a stA with
      | mk b' stB => rw [h2] at h; cases h

theorem bindS_ok {α β} {p : SParser α} {f : α → Input → BuildSt → PResult β × BuildSt}
    {i : Input} {st : BuildSt} {r : β × Input} {st' : BuildSt}
    (h : bindS p f i st = (.ok r, st')) :
    ∃ a r1 stA, p i st = (.ok (a, r1), stA) ∧ f a r1 stA = (.ok r, st') := by
  unfold bindS at h
  cases h1 : p i st with
  | mk res stA =>
    cases res with
    | error e => rw [h1] at h; cases h
    | ok ar =>
      obtain ⟨a, r1⟩ := ar
      rw [h1] at h
      exact ⟨a, r1, stA, rfl, h⟩

theorem sepS_ok {α β γ} {p1 : SParser α} {p2 : SParser γ} {init : β}
    {f : β → α → BuildSt → β × BuildSt} {i : Input} {st : BuildSt}
    {acc : β} {r : Input} {st' : BuildSt}
    (h : separated_by_valS p1 p2 init f i st = (.ok (acc, r), st')) :
    (p1 i st = (.error .soft, st') ∧ acc = init ∧ r = i) ∨
    ∃ a s' stA b stB, p1 i st = (.ok (a, s'), stA) ∧ f init a stA = (b, stB) ∧
      accumulateS (seqSndS p2 p1) f s'.length s' b stB = (.ok (acc, r), st') := by
  unfold separated_by_valS at h
  cases h1 : p1 i st with
  | mk res stA =>
    cases res with
    | error e =>
      cases e <;> rw [h1] at h
      · cases h
        exact Or.inl ⟨rfl, rfl, rfl⟩
      · cases h
    | ok ar =>
      obtain ⟨a, s'⟩ := ar
      rw [h1] at h
      dsimp only at h
      cases h2 : f init a stA with
      | mk b stB =>
        rw [h2] at h
        exact Or.inr ⟨a, s', stA, b, stB, rfl, h2, h⟩

theorem accumulateS_nil {α β} (p : SParser α) (f : β → α → BuildSt → β × BuildSt)
    (fuel : Nat) (init : β) (st : BuildSt) :
    accumulateS p f fuel [] init st = ((.ok (init, []) : Except PErr (β × Input)), st) := by
  cases fuel <;> rfl

theorem accumulateS_zero {α β} (p : SParser α) (f : β → α → BuildSt → β × BuildSt)
    (s : Input) (init : β) (st : BuildSt) :
    accumulateS p f 0 s init st = ((.ok (init, s) : Except PErr (β × Input)), st) := by
  cases s <;> rfl

theorem accumulateS_cons {α β} (p : SParser α) (f : β → α → BuildSt → β × BuildSt)
    (fuel : Nat) (c : Nat) (cs : Input) (init : β) (st : BuildSt) :
    accumulateS p f (fuel + 1) (c :: cs) init st =
      match p (c :: cs) st with
      | (.error .hard, st') => (.error .hard, st')
      | (.error .soft, st') => (.ok (init, c :: cs), st')
      | (.ok (a, s'), st') =>
        match f init a st' with
        | (b, st'') => accumulateS p f fuel s' b st'' := rfl

end JSONM

namespace JSONM

open CxP

theorem accumulateS_vpres {α β} {p : SParser α} {f : β → α → BuildSt → β × BuildSt}
    (hp : VPresS p) (hf : ∀ b a st, ((f b a st).2).v = st.v) :
    ∀ (fuel : Nat) (s : Input) (init : β) (st : BuildSt),
      ((accumulateS p f fuel s init st).2).v = st.v := by
  intro fuel
  induction fuel with
  | zero =>
    intro s init st
    cases s <;> rfl
  | succ fuel ih =>
    intro s init st
    cases s with
    | nil => rfl
    | cons c cs =>
      rw [accumulateS_cons]
      cases h1 : p (c :: cs) st with
      | mk res stA =>
        cases res with
        | error e =>
          have hv : stA.v = st.v := by
            have := hp (c :: cs) st
            rw [h1] at this
            exact this
          cases e <;> simpa using hv
        | ok ar =>
          obtain ⟨a, s'⟩ := ar
          have hv : stA.v = st.v := by
            have := hp (c :: cs) st
            rw [h1] at this
            exact this
          cases h2 : f init a stA with
          | mk b stB =>
            have hv2 : stB.v = stA.v := by
              have := hf init a stA
              rw [h2] at this
              exact this
            dsimp only
            rw [h2]
            rw [ih s' b stB, hv2, hv]

theorem liftP_vpres {α} (p : Parser α) : VPresS (liftP p) := fun _ _ => rfl

theorem combineS_vpres {α β γ} {p1 : SParser α} {p2 : SParser β} {f : α → β → γ}
    (h1 : VPresS p1) (h2 : VPresS p2) : VPresS (combineS p1 p2 f) := by
  intro i st
  unfold combineS
  cases hA : p1 i st with
  | mk res stA =>
    have hvA : stA.v = st.v := by
      have := h1 i st
      rw [hA] at this
      exact this
    cases res with
    | error e => exact hvA
    | ok ar =>
      obtain ⟨a, r1⟩ := ar
      dsimp only
      cases hB : p2 r1 stA with
      | mk res2 stB =>
        have hvB : stB.v = stA.v := by
          have := h2 r1 stA
          rw [hB] at this
          exact this
        cases res2 with
        | error e => exact hvB.trans hvA
        | ok br =>
          obtain ⟨b, r2⟩ := br
          exact hvB.trans hvA

theorem seqSndS_vpres {α β} {p1 : SParser α} {p2 : SParser β}
    (h1 : VPresS p1) (h2 : VPresS p2) : VPresS (seqSndS p1 p2) :=
  combineS_vpres h1 h2

theorem seqFstS_vpres {α β} {p1 : SParser α} {p2 : SParser β}
    (h1 : VPresS p1) (h2 : VPresS p2) : VPresS (seqFstS p1 p2) :=
  combineS_vpres h1 h2

theorem manyS_vpres {α β} {p : SParser α} {init : β}
    {f : β → α → BuildSt → β × BuildSt}
    (hp : VPresS p) (hf : ∀ b a st, ((f b a st).2).v = st.v) :
    VPresS (manyS p init f) := by
  intro i st
  exact accumulateS_vpres hp hf i.length i init st

theorem bindS_vpres {α β} {p : SParser α}
    {f : α → Input → BuildSt → PResult β × BuildSt}
    (hp : VPresS p) (hf : ∀ a r1 st, ((f a r1 st).2).v = st.v) :
    VPresS (bindS p f) := by
  intro i st
  unfold bindS
  cases hA : p i st with
  | mk res stA =>
    have hvA : stA.v = st.v := by
      have := hp i st
      rw [hA] at this
      exact this
    cases res with
    | error e => exact hvA
    | ok ar =>
      obtain ⟨a, r1⟩ := ar
      dsimp only
      exact (hf a r1 stA).trans hvA

theorem buildStringP_vpres : VPresS buildStringP := by
  unfold buildStringP
  exact seqFstS_vpres
    (seqSndS_vpres (liftP_vpres _) (manyS_vpres (liftP_vpres _) (fun b a st => rfl)))
    (liftP_vpres _)

theorem buildKeyValueExtentP_vpres (ext : Parser (List Nat)) :
    VPresS (buildKeyValueExtentP ext) := by
  unfold buildKeyValueExtentP
  exact bindS_vpres
    (seqFstS_vpres
      (seqFstS_vpres (seqSndS_vpres (liftP_vpres _) buildStringP_vpres) (liftP_vpres _))
      (liftP_vpres _))
    (fun a r1 st => rfl)

end JSONM

namespace JSONM

open CxP

theorem seqSndS_liftP {α β} (p : Parser α) (q : Parser β) (i : Input) (st : BuildSt) :
    seqSndS (liftP p) (liftP q) i st = (seqSnd p q i, st) := by
  unfold seqSndS combineS liftP seqSnd combine
  cases h1 : p i with
  | error e => rfl
  | ok ar =>
    obtain ⟨a, r1⟩ := ar
    dsimp only
    cases h2 : q r1 with
    | error e => rfl
    | ok br => rfl

theorem readUnparsed_cases (st : BuildSt) (i : Nat) :
    (st.v i = .Unparsed (readUnparsed st i).1 ∧ (readUnparsed st i).2 = st) ∨
    ((∀ sp, st.v i ≠ .Unparsed sp) ∧ (readUnparsed st i).1 = [] ∧
      (readUnparsed st i).2 = st.write i (.Unparsed [])) := by
  unfold readUnparsed
  cases hv : st.v i with
  | Unparsed sp => exact Or.inl ⟨rfl, rfl⟩
  | String ev => exact Or.inr ⟨(fun sp h => by cases h), rfl, rfl⟩
  | Number d => exact Or.inr ⟨(fun sp h => by cases h), rfl, rfl⟩
  | Array ev => exact Or.inr ⟨(fun sp h => by cases h), rfl, rfl⟩
  | Object ev => exact Or.inr ⟨(fun sp h => by cases h), rfl, rfl⟩
  | Boolean b => exact Or.inr ⟨(fun sp h => by cases h), rfl, rfl⟩
  | Null => exact Or.inr ⟨(fun sp h => by cases h), rfl, rfl⟩

theorem acc1_array_frame {ext : Parser (List Nat)} {sepP : Parser Nat} :
    ∀ (fuel : Nat) (s : Input) (ctr : Nat) (st : BuildSt) (k : Nat) (r : Input)
      (st' : BuildSt),
      accumulateS (seqSndS (liftP sepP) (liftP ext))
        (fun i extent st => (i + 1, st.write i (.Unparsed extent)))
        fuel s ctr st = (.ok (k, r), st') →
      ctr ≤ k ∧ st'.s = st.s ∧ ∀ j, (j < ctr ∨ k ≤ j) → st'.v j = st.v j := by
  intro fuel
  induction fuel with
  | zero =>
    intro s ctr st k r st' h
    rw [accumulateS_zero] at h
    cases s <;> cases h <;> exact ⟨Nat.le_refl _, rfl, fun j _ => rfl⟩
  | succ fuel ih =>
    intro s ctr st k r st' h
    cases s with
    | nil =>
      rw [accumulateS_nil] at h
      cases h
      exact ⟨Nat.le_refl _, rfl, fun j _ => rfl⟩
    | cons c cs =>
      rw [accumulateS_cons] at h
      rw [seqSndS_liftP] at h
      cases hp : seqSnd sepP ext (c :: cs) with
      | error e =>
        cases e <;> rw [hp] at h
        · cases h
          exact ⟨Nat.le_refl _, rfl, fun j _ => rfl⟩
        · cases h
      | ok ar =>
        obtain ⟨sp, s'⟩ := ar
        rw [hp] at h
        dsimp only at h
        obtain ⟨h1, h2, h3⟩ := ih s' (ctr + 1) (st.write ctr (.Unparsed sp)) k r st' h
        refine ⟨by omega, h2.trans (write_s st ctr _), ?_⟩
        intro j hj
        have hj' : j < ctr + 1 ∨ k ≤ j := by omega
        rw [h3 j hj', write_v]
        rw [if_neg (by omega)]

theorem stage1_array_frame {ext : Parser (List Nat)} {sepP : Parser Nat}
    {max : Nat} {i : Input} {st : BuildSt} {k : Nat} {rest : Input} {st' : BuildSt}
    (h : separated_by_valS (liftP ext) (liftP sepP) max
        (fun i extent st => (i + 1, st.write i (.Unparsed extent))) i st =
        (.ok (k, rest), st')) :
    max ≤ k ∧ st'.s = st.s ∧ ∀ j, (j < max ∨ k ≤ j) → st'.v j = st.v j := by
  rcases sepS_ok h with ⟨hfail, hacc, hr⟩ | ⟨sp, s', stA, b, stB, h1, h2, h3⟩
  · have h0 : ((ext i : PResult (List Nat)), st) = (.error .soft, st') :=
      (liftP_eq ext i st).symm.trans hfail
    injection h0 with h0a h0b
    subst h0b
    subst hacc
    exact ⟨Nat.le_refl _, rfl, fun j _ => rfl⟩
  · have h0 : ((ext i : PResult (List Nat)), st) = (.ok (sp, s'), stA) :=
      (liftP_eq ext i st).symm.trans h1
    injection h0 with h0a h0b
    subst h0b
    cases h2
    obtain ⟨hk, hs, hv⟩ := acc1_array_frame s'.length s' (max + 1)
      (st.write max (.Unparsed sp)) k rest st' h3
    refine ⟨by omega, hs.trans (write_s st max _), ?_⟩
    intro j hj
    have hj' : j < max + 1 ∨ k ≤ j := by omega
    rw [hv j hj', write_v]
    rw [if_neg (by omega)]

end JSONM

namespace JSONM

open CxP

theorem acc1_object_frame {ext : Parser (List Nat)} {sepP : Parser Nat} :
    ∀ (fuel : Nat) (s : Input) (ctr : Nat) (st : BuildSt) (k : Nat) (r : Input)
      (st' : BuildSt),
      accumulateS (seqSndS (liftP sepP) (buildKeyValueExtentP ext))
        (fun i kve st =>
          (i + 2, (st.write i (.String kve.key)).write (i + 1) (.Unparsed kve.val)))
        fuel s ctr st = (.ok (k, r), st') →
      ctr ≤ k ∧ (k - ctr) % 2 = 0 ∧
      (∀ j, (j < ctr ∨ k ≤ j) → st'.v j = st.v j) ∧
      (∀ j sp, st'.v j = .Unparsed sp →
        st.v j = .Unparsed sp ∨ (ctr ≤ j ∧ j < k ∧ (j - ctr) % 2 = 1)) := by
  intro fuel
  induction fuel with
  | zero =>
    intro s ctr st k r st' h
    rw [accumulateS_zero] at h
    cases h
    exact ⟨Nat.le_refl _, by omega, fun j _ => rfl, fun j sp hu => Or.inl hu⟩
  | succ fuel ih =>
    intro s ctr st k r st' h
    cases s with
    | nil =>
      rw [accumulateS_nil] at h
      cases h
      exact ⟨Nat.le_refl _, by omega, fun j _ => rfl, fun j sp hu => Or.inl hu⟩
    | cons c cs =>
      rw [accumulateS_cons] at h
      cases hp : seqSndS (liftP sepP) (buildKeyValueExtentP ext) (c :: cs) st with
      | mk res stA =>
        have hvA : stA.v = st.v := by
          have := seqSndS_vpres (liftP_vpres sepP) (buildKeyValueExtentP_vpres ext)
            (c :: cs) st
          rw [hp] at this
          exact this
        cases res with
        | error e =>
          cases e <;> rw [hp] at h
          · cases h
            exact ⟨Nat.le_refl _, by omega,
              fun j _ => congrFun hvA j,
              fun j sp hu => Or.inl (by rw [← congrFun hvA j]; exact hu)⟩
          · cases h
        | ok ar =>
          obtain ⟨kve, s'⟩ := ar
          rw [hp] at h
          dsimp only at h
          obtain ⟨h1, h2, h3, h4⟩ := ih s' (ctr + 2)
            ((stA.write ctr (.String kve.key)).write (ctr + 1) (.Unparsed kve.val))
            k r st' h
          refine ⟨by omega, by omega, ?_, ?_⟩
          · intro j hj
            have hj' : j < ctr + 2 ∨ k ≤ j := by omega
            rw [h3 j hj', write_v, write_v]
            rw [if_neg (by omega), if_neg (by omega)]
            exact congrFun hvA j
          · intro j sp hu
            rcases h4 j sp hu with hB | ⟨hle, hlt, hodd⟩
            · rw [write_v] at hB
              by_cases hj1 : j = ctr + 1
              · exact Or.inr ⟨by omega, by omega, by omega⟩
              · rw [if_neg hj1, write_v] at hB
                by_cases hj0 : j = ctr
                · rw [if_pos hj0] at hB
                  cases hB
                · rw [if_neg hj0] at hB
                  exact Or.inl (by rw [← congrFun hvA j]; exact hB)
            · exact Or.inr ⟨by omega, by omega, by omega⟩

theorem stage1_object_frame {ext : Parser (List Nat)} {sepP : Parser Nat}
    {max : Nat} {i : Input} {st : BuildSt} {k : Nat} {rest : Input} {st' : BuildSt}
    (h : separated_by_valS (buildKeyValueExtentP ext) (liftP sepP) max
        (fun i kve st =>
          (i + 2, (st.write i (.String kve.key)).write (i + 1) (.Unparsed kve.val)))
        i st = (.ok (k, rest), st')) :
    max ≤ k ∧ (k - max) % 2 = 0 ∧
    (∀ j, (j < max ∨ k ≤ j) → st'.v j = st.v j) ∧
    (∀ j sp, st'.v j = .Unparsed sp →
      st.v j = .Unparsed sp ∨ (max ≤ j ∧ j < k ∧ (j - max) % 2 = 1)) := by
  rcases sepS_ok h with ⟨hfail, hacc, hr⟩ | ⟨kve, s', stA, b, stB, h1, h2, h3⟩
  · have hvA : st'.v = st.v := by
      have := buildKeyValueExtentP_vpres ext i st
      rw [hfail] at this
      exact this
    subst hacc
    exact ⟨Nat.le_refl _, by omega, fun j _ => congrFun hvA j,
      fun j sp hu => Or.inl (by rw [← congrFun hvA j]; exact hu)⟩
  · have hvA : stA.v = st.v := by
      have := buildKeyValueExtentP_vpres ext i st
      rw [h1] at this
      exact this
    cases h2
    obtain ⟨hk, hmod, hframe, hunp⟩ := acc1_object_frame s'.length s' (max + 2)
      ((stA.write max (.String kve.key)).write (max + 1) (.Unparsed kve.val))
      k rest st' h3
    refine ⟨by omega, by omega, ?_, ?_⟩
    · intro j hj
      have hj' : j < max + 2 ∨ k ≤ j := by omega
      rw [hframe j hj', write_v, write_v]
      rw [if_neg (by omega), if_neg (by omega)]
      exact congrFun hvA j
    · intro j sp hu
      rcases hunp j sp hu with hB | ⟨hle, hlt, hodd⟩
      · rw [write_v] at hB
        by_cases hj1 : j = max + 1
        · exact Or.inr ⟨by omega, by omega, by omega⟩
        · rw [if_neg hj1, write_v] at hB
          by_cases hj0 : j = max
          · rw [if_pos hj0] at hB
            cases hB
          · rw [if_neg hj0] at hB
            exact Or.inl (by rw [← congrFun hvA j]; exact hB)
      · exact Or.inr ⟨by omega, by omega, by omega⟩

end JSONM

namespace JSONM

open CxP

theorem buildArrayLoop_succ (val : Nat → Nat → SParser Nat) (n i m : Nat) (st : BuildSt) :
    buildArrayLoop val (n + 1) i m st =
      match readUnparsed st i with
      | (sp, st₁) =>
        match val i m sp st₁ with
        | (.error e, st₂) => (.error e, st₂)
        | (.ok (m', _), st₂) => buildArrayLoop val n (i + 1) m' st₂ := rfl

theorem buildObjectLoop_succ (val : Nat → Nat → SParser Nat) (n i m : Nat) (st : BuildSt) :
    buildObjectLoop val (n + 1) i m st =
      match readUnparsed st (i + 1) with
      | (sp, st₁) =>
        match val (i + 1) m sp st₁ with
        | (.error e, st₂) => (.error e, st₂)
        | (.ok (m', _), st₂) => buildObjectLoop val n (i + 2) m' st₂ := rfl

/-- The stage-two array loop finalises every reserved index it visits: an
`Unparsed` node surviving the loop was already present (same span) before
it and lies outside the visited range. -/
theorem loopA_unparsed {val : Nat → Nat → SParser Nat}
    (Hval : ∀ idx mx sp st mr r st', val idx mx sp st = (.ok (mr, r), st') →
      (∀ j sp', st'.v j = .Unparsed sp' → st.v j = .Unparsed sp') ∧
      (∀ sp', st'.v idx ≠ .Unparsed sp')) :
    ∀ (n lo m : Nat) (st : BuildSt) (mr : Nat) (r : Input) (st' : BuildSt),
      buildArrayLoop val n lo m st = (.ok (mr, r), st') →
      ∀ j sp, st'.v j = .Unparsed sp →
        st.v j = .Unparsed sp ∧ ¬(lo ≤ j ∧ j < lo + n) := by
  intro n
  induction n with
  | zero =>
    intro lo m st mr r st' h j sp hu
    cases h
    exact ⟨hu, by omega⟩
  | succ n ih =>
    intro lo m st mr r st' h j sp hu
    rw [buildArrayLoop_succ] at h
    cases hrd : readUnparsed st lo with
    | mk sp₀ st₁ =>
      rw [hrd] at h
      dsimp only at h
      cases hval : val lo m sp₀ st₁ with
      | mk res st₂ =>
        cases res with
        | error e => rw [hval] at h; cases h
        | ok mr' =>
          obtain ⟨m', r'⟩ := mr'
          rw [hval] at h
          obtain ⟨hst, hrange⟩ := ih (lo + 1) m' st₂ mr r st' h j sp hu
          obtain ⟨hstab, hidx⟩ := Hval lo m sp₀ st₁ m' r' st₂ hval
          have hj : j ≠ lo := by
            intro hj
            exact hidx sp (hj ▸ hst)
          have h1 : st₁.v j = .Unparsed sp := hstab j sp hst
          have h0 : st.v j = .Unparsed sp := by
            rcases readUnparsed_cases st lo with ⟨hup, hid⟩ | ⟨hnup, hsp, hwr⟩
            · rw [hrd] at hid
              rw [← hid]
              exact h1
            · rw [hrd] at hwr
              dsimp only at hwr
              rw [hwr, write_v, if_neg hj] at h1
              exact h1
          exact ⟨h0, by omega⟩

/-- The stage-two object loop finalises every odd (value) slot it visits. -/
theorem loopO_unparsed {val : Nat → Nat → SParser Nat}
    (Hval : ∀ idx mx sp st mr r st', val idx mx sp st = (.ok (mr, r), st') →
      (∀ j sp', st'.v j = .Unparsed sp' → st.v j = .Unparsed sp') ∧
      (∀ sp', st'.v idx ≠ .Unparsed sp')) :
    ∀ (n lo m : Nat) (st : BuildSt) (mr : Nat) (r : Input) (st' : BuildSt),
      buildObjectLoop val n lo m st = (.ok (mr, r), st') →
      ∀ j sp, st'.v j = .Unparsed sp →
        st.v j = .Unparsed sp ∧
        ¬(lo ≤ j ∧ j < lo + 2 * n ∧ (j - lo) % 2 = 1) := by
  intro n
  induction n with
  | zero =>
    intro lo m st mr r st' h j sp hu
    cases h
    exact ⟨hu, by omega⟩
  | succ n ih =>
    intro lo m st mr r st' h j sp hu
    rw [buildObjectLoop_succ] at h
    cases hrd : readUnparsed st (lo + 1) with
    | mk sp₀ st₁ =>
      rw [hrd] at h
      dsimp only at h
      cases hval : val (lo + 1) m sp₀ st₁ with
      | mk res st₂ =>
        cases res with
        | error e => rw [hval] at h; cases h
        | ok mr' =>
          obtain ⟨m', r'⟩ := mr'
          rw [hval] at h
          obtain ⟨hst, hrange⟩ := ih (lo + 2) m' st₂ mr r st' h j sp hu
          obtain ⟨hstab, hidx⟩ := Hval (lo + 1) m sp₀ st₁ m' r' st₂ hval
          have hj : j ≠ lo + 1 := by
            intro hj
            exact hidx sp (hj ▸ hst)
          have h1 : st₁.v j = .Unparsed sp := hstab j sp hst
          have h0 : st.v j = .Unparsed sp := by
            rcases readUnparsed_cases st (lo + 1) with ⟨hup, hid⟩ | ⟨hnup, hsp, hwr⟩
            · rw [hrd] at hid
              rw [← hid]
              exact h1
            · rw [hrd] at hwr
              dsimp only at hwr
              rw [hwr, write_v, if_neg hj] at h1
              exact h1
          refine ⟨h0, ?_⟩
          intro ⟨hle, hlt, hodd⟩
          rcases Nat.lt_or_ge j (lo + 2) with hj2 | hj2
          · exact hj (by omega)
          · exact hrange ⟨by omega, by omega, by omega⟩

end JSONM

namespace JSONM

open CxP

theorem liftP_ok {α} {p : Parser α} {i : Input} {st : BuildSt} {a : α} {r : Input}
    {st' : BuildSt} (h : liftP p i st = (.ok (a, r), st')) :
    p i = .ok (a, r) ∧ st' = st := by
  unfold liftP at h
  injection h with h1 h2
  exact ⟨h1, h2.symm⟩

theorem liftP_err {α} {p : Parser α} {i : Input} {st : BuildSt} {e : PErr}
    {st' : BuildSt} (h : liftP p i st = (.error e, st')) :
    p i = .error e ∧ st' = st := by
  unfold liftP at h
  injection h with h1 h2
  exact ⟨h1, h2.symm⟩

theorem fmapEff_liftP_ok {α β} {g : α → BuildSt → β × BuildSt} {p : Parser α}
    {i : Input} {st : BuildSt} {b : β} {r : Input} {st' : BuildSt}
    (h : fmapEff g (liftP p) i st = (.ok (b, r), st')) :
    ∃ a, p i = .ok (a, r) ∧ g a st = (b, st') := by
  obtain ⟨a, stA, h1, h2⟩ := fmapEff_ok h
  obtain ⟨hp, hst⟩ := liftP_ok h1
  exact ⟨a, hp, hst ▸ h2⟩

theorem fmapEff_liftP_err {α β} {g : α → BuildSt → β × BuildSt} {p : Parser α}
    {i : Input} {st : BuildSt} {e : PErr} {st' : BuildSt}
    (h : fmapEff g (liftP p) i st = (.error e, st')) :
    p i = .error e ∧ st' = st := by
  exact liftP_err (fmapEff_err h)

/-- A successful array build never leaves a new `Unparsed` node and
finalises its own index (given the same for the value parser it runs). -/
theorem buildArrayP_unparsed {fuel idx max : Nat} {i : Input} {st : BuildSt}
    {m : Nat} {r : Input} {st' : BuildSt}
    (Hval : ∀ (idx mx : Nat) (sp : Input) (st : BuildSt) (mr : Nat) (r : Input)
      (st' : BuildSt), buildValueP fuel idx mx sp st = (.ok (mr, r), st') →
      (∀ j sp', st'.v j = .Unparsed sp' → st.v j = .Unparsed sp') ∧
      (∀ sp', st'.v idx ≠ .Unparsed sp'))
    (h : buildArrayP (buildValueP fuel) (extentValueP fuel) idx max i st =
      (.ok (m, r), st')) :
    (∀ j sp, st'.v j = .Unparsed sp → st.v j = .Unparsed sp) ∧
    (∀ sp, st'.v idx ≠ .Unparsed sp) := by
  unfold buildArrayP at h
  cases hs1 : (seqFstS (seqFstS
          (separated_by_valS (liftP (extentValueP fuel))
            (liftP (seqSnd skip_whitespace (make_char_p (ch ','))))
            max
            (fun i extent st => (i + 1, st.write i (.Unparsed extent))))
          (liftP skip_whitespace))
          (liftP (make_char_p (ch ']')))) i st with
  | mk res1 stA =>
    rw [hs1] at h
    cases res1 with
    | error e => cases h
    | ok kr =>
      obtain ⟨k, rest⟩ := kr
      dsimp only at h
      -- decompose the stage-one composite
      obtain ⟨a1, r1, stB, b1, hAB, hclose, hk1⟩ := combineS_ok hs1
      obtain ⟨hcl, hstB⟩ := liftP_ok hclose
      obtain ⟨a2, r2, stC, b2, hsep, hws, hk2⟩ := combineS_ok hAB
      obtain ⟨hw, hstC⟩ := liftP_ok hws
      subst hstB
      subst hstC
      obtain ⟨hmaxk, hsS, hframe⟩ := stage1_array_frame hsep
      have hkval : k = a2 := by rw [hk1, hk2]
      subst hkval
      -- loop
      cases hloop : buildArrayLoop (buildValueP fuel) (k - max) max k
          (stA.write idx (.Array ⟨max, k - max⟩)) with
      | mk res2 stD =>
        rw [hloop] at h
        cases res2 with
        | error e => cases h
        | ok mr' =>
          obtain ⟨m', r'⟩ := mr'
          cases h
          have hL := loopA_unparsed Hval (k - max) max k
            (stA.write idx (.Array ⟨max, k - max⟩)) _ _ _ hloop
          constructor
          · intro j sp hu
            obtain ⟨h2, hrange⟩ := hL j sp hu
            rw [write_v] at h2
            by_cases hji : j = idx
            · rw [if_pos hji] at h2
              cases h2
            · rw [if_neg hji] at h2
              have : st'.v j = st.v j → True := fun _ => trivial
              have hout : j < max ∨ k ≤ j := by omega
              rw [hframe j hout] at h2
              exact h2
          · intro sp hu
            obtain ⟨h2, hrange⟩ := hL idx sp hu
            rw [write_v, if_pos rfl] at h2
            cases h2

/-- A successful object build never leaves a new `Unparsed` node and
finalises its own index (given the same for the value parser it runs). -/
theorem buildObjectP_unparsed {fuel idx max : Nat} {i : Input} {st : BuildSt}
    {m : Nat} {r : Input} {st' : BuildSt}
    (Hval : ∀ (idx mx : Nat) (sp : Input) (st : BuildSt) (mr : Nat) (r : Input)
      (st' : BuildSt), buildValueP fuel idx mx sp st = (.ok (mr, r), st') →
      (∀ j sp', st'.v j = .Unparsed sp' → st.v j = .Unparsed sp') ∧
      (∀ sp', st'.v idx ≠ .Unparsed sp'))
    (h : buildObjectP (buildValueP fuel) (extentValueP fuel) idx max i st =
      (.ok (m, r), st')) :
    (∀ j sp, st'.v j = .Unparsed sp → st.v j = .Unparsed sp) ∧
    (∀ sp, st'.v idx ≠ .Unparsed sp) := by
  unfold buildObjectP at h
  cases hs1 : (seqFstS (seqFstS
          (separated_by_valS (buildKeyValueExtentP (extentValueP fuel))
            (liftP (seqSnd skip_whitespace (make_char_p (ch ','))))
            max
            (fun i kve st =>
              (i + 2, (st.write i (.String kve.key)).write (i + 1) (.Unparsed kve.val))))
          (liftP skip_whitespace))
          (liftP (make_char_p (ch '}')))) i st with
  | mk res1 stA =>
    rw [hs1] at h
    cases res1 with
    | error e => cases h
    | ok kr =>
      obtain ⟨k, rest⟩ := kr
      dsimp only at h
      obtain ⟨a1, r1, stB, b1, hAB, hclose, hk1⟩ := combineS_ok hs1
      obtain ⟨hcl, hstB⟩ := liftP_ok hclose
      obtain ⟨a2, r2, stC, b2, hsep, hws, hk2⟩ := combineS_ok hAB
      obtain ⟨hw, hstC⟩ := liftP_ok hws
      subst hstB
      subst hstC
      obtain ⟨hmaxk, hmod, hframe, hunp⟩ := stage1_object_frame hsep
      have hkval : k = a2 := by rw [hk1, hk2]
      subst hkval
      cases hloop : buildObjectLoop (buildValueP fuel) ((k - max) / 2) max k
          (stA.write idx (.Object ⟨max, k - max⟩)) with
      | mk res2 stD =>
        rw [hloop] at h
        cases res2 with
        | error e => cases h
        | ok mr' =>
          obtain ⟨m', r'⟩ := mr'
          cases h
          have hL := loopO_unparsed Hval ((k - max) / 2) max k
            (stA.write idx (.Object ⟨max, k - max⟩)) _ _ _ hloop
          constructor
          · intro j sp hu
            obtain ⟨h2, hrange⟩ := hL j sp hu
            rw [write_v] at h2
            by_cases hji : j = idx
            · rw [if_pos hji] at h2
              cases h2
            · rw [if_neg hji] at h2
              rcases hunp j sp h2 with hA | ⟨hle, hlt, hodd⟩
              · exact hA
              · exfalso
                exact hrange ⟨hle, by omega, hodd⟩
          · intro sp hu
            obtain ⟨h2, hrange⟩ := hL idx sp hu
            rw [write_v, if_pos rfl] at h2
            cases h2

end JSONM

namespace JSONM

open CxP

theorem buildValueP_succ (fuel idx max : Nat) :
    buildValueP (fuel + 1) idx max =
      seqSndS (liftP skip_whitespace)
        (altS (fmapEff (fun _ st => (max, st.write idx (.Boolean true)))
                (liftP (make_string_p (str2bytes "true"))))
        (altS (fmapEff (fun _ st => (max, st.write idx (.Boolean false)))
                (liftP (make_string_p (str2bytes "false"))))
        (altS (fmapEff (fun _ st => (max, st.write idx .Null))
                (liftP (make_string_p (str2bytes "null"))))
        (altS (fmapEff (fun d st => (max, st.write idx (.Number d)))
                (liftP numberP))
        (altS (fmapEff (fun ev st => (max, st.write idx (.String ev)))
                buildStringP)
        (altS (seqSndS (liftP (make_char_p (ch '[')))
                (buildArrayP (buildValueP fuel) (extentValueP fuel) idx max))
              (seqSndS (liftP (make_char_p (ch '{')))
                (buildObjectP (buildValueP fuel) (extentValueP fuel) idx max)))))))) := rfl

/-- A successful run of the build-pass value parser introduces no new
`Unparsed` node anywhere in the arena and leaves a non-`Unparsed` node at
its own index. -/
theorem buildValueP_unparsed : ∀ (fuel idx max : Nat) (i : Input) (st : BuildSt)
    (m : Nat) (r : Input) (st' : BuildSt),
    buildValueP fuel idx max i st = (.ok (m, r), st') →
    (∀ j sp, st'.v j = .Unparsed sp → st.v j = .Unparsed sp) ∧
    (∀ sp, st'.v idx ≠ .Unparsed sp) := by
  intro fuel
  induction fuel with
  | zero =>
    intro idx max i st m r st' h
    rw [show buildValueP 0 idx max = liftP failP from rfl] at h
    unfold liftP failP at h
    injection h with h1 h2
    cases h1
  | succ fuel ih =>
    intro idx max i st m r st' h
    rw [buildValueP_succ] at h
    obtain ⟨u, r1, stA, b, hws, halt, hm⟩ := combineS_ok h
    obtain ⟨hw, hstA⟩ := liftP_ok hws
    rw [hstA] at halt
    clear hws hstA h
    -- peel the alternation chain; every failing scalar alternative leaves
    -- the state untouched
    rcases altS_ok halt with h1 | ⟨st1, he1, h1⟩
    · obtain ⟨a, hp, hg⟩ := fmapEff_liftP_ok h1
      injection hg with hgb hgst
      rw [← hgst]
      refine ⟨?_, ?_⟩
      · intro j sp hu
        rw [write_v] at hu
        by_cases hji : j = idx
        · rw [if_pos hji] at hu; cases hu
        · rw [if_neg hji] at hu; exact hu
      · intro sp
        rw [write_v, if_pos rfl]
        intro hu; cases hu
    · obtain ⟨hp1, hst1⟩ := fmapEff_liftP_err he1
      rw [hst1] at h1
      rcases altS_ok h1 with h2 | ⟨st2, he2, h2⟩
      · obtain ⟨a, hp, hg⟩ := fmapEff_liftP_ok h2
        injection hg with hgb hgst
        rw [← hgst]
        refine ⟨?_, ?_⟩
        · intro j sp hu
          rw [write_v] at hu
          by_cases hji : j = idx
          · rw [if_pos hji] at hu; cases hu
          · rw [if_neg hji] at hu; exact hu
        · intro sp
          rw [write_v, if_pos rfl]
          intro hu; cases hu
      · obtain ⟨hp2, hst2⟩ := fmapEff_liftP_err he2
        rw [hst2] at h2
        rcases altS_ok h2 with h3 | ⟨st3, he3, h3⟩
        · obtain ⟨a, hp, hg⟩ := fmapEff_liftP_ok h3
          injection hg with hgb hgst
          rw [← hgst]
          refine ⟨?_, ?_⟩
          · intro j sp hu
            rw [write_v] at hu
            by_cases hji : j = idx
            · rw [if_pos hji] at hu; cases hu
            · rw [if_neg hji] at hu; exact hu
          · intro sp
            rw [write_v, if_pos rfl]
            intro hu; cases hu
        · obtain ⟨hp3, hst3⟩ := fmapEff_liftP_err he3
          rw [hst3] at h3
          rcases altS_ok h3 with h4 | ⟨st4, he4, h4⟩
          · obtain ⟨a, hp, hg⟩ := fmapEff_liftP_ok h4
            injection hg with hgb hgst
            rw [← hgst]
            refine ⟨?_, ?_⟩
            · intro j sp hu
              rw [write_v] at hu
              by_cases hji : j = idx
              · rw [if_pos hji] at hu; cases hu
              · rw [if_neg hji] at hu; exact hu
            · intro sp
              rw [write_v, if_pos rfl]
              intro hu; cases hu
          · obtain ⟨hp4, hst4⟩ := fmapEff_liftP_err he4
            rw [hst4] at h4
            rcases altS_ok h4 with h5 | ⟨st5, he5, h5⟩
            · obtain ⟨ev, stS, hstr, hg⟩ := fmapEff_ok h5
              injection hg with hgb hgst
              rw [← hgst]
              have hvS : stS.v = st.v := by
                have h0 := buildStringP_vpres r1 st
                rw [hstr] at h0
                exact h0
              refine ⟨?_, ?_⟩
              · intro j sp hu
                rw [write_v] at hu
                by_cases hji : j = idx
                · rw [if_pos hji] at hu; cases hu
                · rw [if_neg hji] at hu
                  rw [← congrFun hvS j]
                  exact hu
              · intro sp
                rw [write_v, if_pos rfl]
                intro hu; cases hu
            · have hvS5 : st5.v = st.v := by
                have h0 := buildStringP_vpres r1 st
                rw [fmapEff_err he5] at h0
                exact h0
              rcases altS_ok h5 with h6 | ⟨st6, he6, h6⟩
              · obtain ⟨c, r2, stB, b2, hbr, harr, hm2⟩ := combineS_ok h6
                obtain ⟨hc, hstB⟩ := liftP_ok hbr
                rw [hstB] at harr
                obtain ⟨hP1, hP2⟩ := buildArrayP_unparsed ih harr
                refine ⟨?_, hP2⟩
                intro j sp hu
                rw [← congrFun hvS5 j]
                exact hP1 j sp hu
              · -- the array branch failed; the object branch matched '{'
                -- at the head, so the array branch's '[' failed right away
                -- and left the state unchanged
                obtain ⟨c, r2, stB, b2, hbr, hobj, hm2⟩ := combineS_ok h6
                obtain ⟨hc, hstB⟩ := liftP_ok hbr
                rw [hstB] at hobj
                have hv6 : st6 = st5 := by
                  have hbrfail : make_char_p (ch '[') r1 = .error .soft := by
                    cases hi : r1 with
                    | nil => rfl
                    | cons x xs =>
                      have hx : x = ch '{' := by
                        rw [hi] at hc
                        simp only [make_char_p] at hc
                        by_cases hx : x = ch '{'
                        · exact hx
                        · rw [if_neg hx] at hc; cases hc
                      simp only [make_char_p]
                      rw [if_neg (by rw [hx]; decide)]
                  unfold seqSndS combineS at he6
                  rw [show liftP (make_char_p (ch '[')) r1 st5 =
                      ((.error .soft : PResult Nat), st5) from by
                    unfold liftP; rw [hbrfail]] at he6
                  injection he6 with hea heb
                  exact heb.symm
                rw [hv6] at hobj
                obtain ⟨hP1, hP2⟩ := buildObjectP_unparsed ih hobj
                refine ⟨?_, hP2⟩
                intro j sp hu
                rw [← congrFun hvS5 j]
                exact hP1 j sp hu

end JSONM

namespace JSONM

open CxP

/-- Counterexample to C8 as stated: on the malformed input `[1,]` the tree
builder's run completes (returning the soft no-value failure), but the
`Unparsed` placeholder written during stage one of the array parse remains
at arena index 1 — a completed *failing* run can leave `Unparsed` nodes. -/
theorem C8_counterexample :
    (construct 3 (str2bytes "[1,]")).2.v 1 = .Unparsed (str2bytes "1") ∧
    (construct 3 (str2bytes "[1,]")).1 = .error .soft := by
  refine ⟨by decide, by decide⟩

/-- C8 (amended): after any *successful* run of the tree builder on the
freshly default-initialised storage, no node of the resulting arena
carries the Unparsed tag — every placeholder written during stage one of
the two-stage array/object parse has been finalized. -/
theorem C8_no_unparsed_after_success (fuel : Nat) (s : Input) (m : Nat) (r : Input)
    (st' : BuildSt) (h : construct fuel s = (.ok (m, r), st')) :
    ∀ j sp, st'.v j ≠ .Unparsed sp := by
  intro j sp hu
  obtain ⟨hP1, _⟩ := buildValueP_unparsed fuel 0 1 s initSt m r st' h
  have h0 := hP1 j sp hu
  simp [initSt] at h0

/-- Witness for C8 (amended): the successful build of `[1]` leaves no
`Unparsed` node at index 1, where stage one had written the placeholder. -/
theorem C8_witness :
    (construct 3 (str2bytes "[1]")).2.v 1 ≠ .Unparsed (str2bytes "1") :=
  C8_no_unparsed_after_success 3 (str2bytes "[1]") 2 []
    (construct 3 (str2bytes "[1]")).2
    (Prod.ext (by decide) rfl) 1 (str2bytes "1")

end JSONM

namespace CxP

theorem suff_drop {s r : Input} (h : r <:+ s) : ∃ c, c ≤ s.length ∧ r = s.drop c := by
  obtain ⟨t, ht⟩ := h
  refine ⟨t.length, ?_, ?_⟩
  · rw [← ht]
    simp
  · rw [← ht]
    simp

theorem suff_fmap {α β} {f : α → β} {p : Parser α} (hp : SuffP p) : SuffP (fmap f p) := by
  intro s x r h
  obtain ⟨a, ha, _⟩ := fmap_ok h
  exact hp s a r ha

theorem suff_alt {α} {p1 p2 : Parser α} (h1 : SuffP p1) (h2 : SuffP p2) :
    SuffP (alt p1 p2) := by
  intro s x r h
  rcases alt_ok h with h' | ⟨_, h'⟩
  · exact h1 s x r h'
  · exact h2 s x r h'

theorem suff_combine {α β γ} {p1 : Parser α} {p2 : Parser β} {f : α → β → γ}
    (h1 : SuffP p1) (h2 : SuffP p2) : SuffP (combine p1 p2 f) := by
  intro s x r h
  obtain ⟨a, r1, b, ha, hb, _⟩ := combine_ok h
  exact (h2 r1 b r hb).trans (h1 s a r1 ha)

theorem suff_option {α} {d : α} {p : Parser α} (hp : SuffP p) :
    SuffP (CxP.option d p) := by
  intro s x r h
  rcases option_ok h with h' | ⟨_, h'⟩
  · exact hp s x r h'
  · cases h'
    exact List.suffix_refl s

theorem suff_accumulate {α β} {p : Parser α} {f : β → α → β} (hp : SuffP p) :
    ∀ (fuel : Nat) (s : Input) (init acc : β) (r : Input),
      accumulate_parse p f fuel s init = .ok (acc, r) → r <:+ s := by
  intro fuel
  induction fuel with
  | zero =>
    intro s init acc r h
    rw [accumulate_parse_zero] at h
    cases h
    exact List.suffix_refl s
  | succ fuel ih =>
    intro s init acc r h
    cases s with
    | nil =>
      rw [accumulate_parse_nil] at h
      cases h
      exact List.suffix_refl []
    | cons c cs =>
      rw [accumulate_parse_cons] at h
      cases hp' : p (c :: cs) with
      | error e =>
        cases e <;> rw [hp'] at h
        · cases h
          exact List.suffix_refl _
        · cases h
      | ok ar =>
        obtain ⟨a, s'⟩ := ar
        rw [hp'] at h
        exact (ih s' (f init a) acc r h).trans (hp _ a s' hp')

theorem suff_many {α β} {p : Parser α} {init : β} {f : β → α → β} (hp : SuffP p) :
    SuffP (many p init f) :=
  fun s x r h => suff_accumulate hp s.length s init x r h

theorem suff_many1 {α β} {p : Parser α} {init : β} {f : β → α → β} (hp : SuffP p) :
    SuffP (many1 p init f) := by
  intro s x r h
  unfold many1 at h
  cases hp' : p s with
  | error e => rw [hp'] at h; cases h
  | ok ar =>
    obtain ⟨a, s'⟩ := ar
    rw [hp'] at h
    exact (suff_accumulate hp s'.length s' (f init a) x r h).trans (hp s a s' hp')

theorem suff_sep {α β γ} {p1 : Parser α} {p2 : Parser γ} {init : β} {f : β → α → β}
    (h1 : SuffP p1) (h2 : SuffP p2) : SuffP (separated_by_val p1 p2 init f) := by
  intro s x r h
  rcases sep_ok h with ⟨_, _, hr⟩ | ⟨a, s', ha, hacc⟩
  · cases hr
    exact List.suffix_refl s
  · exact (suff_accumulate (suff_combine h2 h1) s'.length s' (f init a) x r hacc).trans
      (h1 s a s' ha)

theorem suff_accumulate_n {α β} {p : Parser α} {f : β → α → β} (hp : SuffP p) :
    ∀ (n : Nat) (s : Input) (init acc : β) (r : Input),
      accumulate_n_parse p f n s init = .ok (acc, r) → r <:+ s := by
  intro n
  induction n with
  | zero =>
    intro s init acc r h
    cases h
    exact List.suffix_refl s
  | succ n ih =>
    intro s init acc r h
    rw [accumulate_n_parse] at h
    cases hp' : p s with
    | error e =>
      cases e <;> rw [hp'] at h
      · cases h
        exact List.suffix_refl s
      · cases h
    | ok ar =>
      obtain ⟨a, s'⟩ := ar
      rw [hp'] at h
      exact (ih s' (f init a) acc r h).trans (hp s a s' hp')

theorem suff_exactly_n {α β} {p : Parser α} {n : Nat} {init : β} {f : β → α → β}
    (hp : SuffP p) : SuffP (exactly_n p n init f) :=
  fun s x r h => suff_accumulate_n hp n s init x r h

theorem suff_char (c : Nat) : SuffP (make_char_p c) := by
  intro s x r h
  cases s with
  | nil => simp [make_char_p] at h
  | cons y ys =>
    by_cases hy : y = c
    · simp [make_char_p, hy] at h
      exact h.2 ▸ List.suffix_cons y ys
    · simp [make_char_p, hy] at h

theorem suff_one_of (cs : List Nat) : SuffP (one_of cs) := by
  intro s x r h
  cases s with
  | nil => simp [one_of] at h
  | cons y ys =>
    by_cases hy : y ∈ cs
    · simp [one_of, hy] at h
      exact h.2 ▸ List.suffix_cons y ys
    · simp [one_of, hy] at h

theorem suff_none_of (cs : List Nat) : SuffP (none_of cs) := by
  intro s x r h
  cases s with
  | nil => simp [none_of] at h
  | cons y ys =>
    by_cases hy : y ∈ cs
    · simp [none_of, hy] at h
    · simp [none_of, hy] at h
      exact h.2 ▸ List.suffix_cons y ys

theorem suff_string (str : List Nat) : SuffP (make_string_p str) := by
  intro s x r h
  simp only [make_string_p] at h
  cases hm : matchLit str s with
  | none => simp [hm] at h
  | some rst =>
    simp [hm] at h
    exact h.2 ▸ matchLit_suffix str s rst hm


end CxP

namespace CxP

theorem suff_failHard {α} : SuffP (failHardP : Parser α) := by
  intro s x r h
  cases h

theorem suff_ws : SuffP skip_whitespace :=
  suff_many (suff_alt (suff_char _) (suff_alt (suff_char _)
    (suff_alt (suff_char _) (suff_char _))))

theorem suff_int0 : SuffP int0P := suff_many1 (suff_one_of _)

theorem suff_int1 : SuffP int1P := by
  intro s x r h
  obtain ⟨a, r1, ha, hf⟩ := bindP_ok h
  exact (suff_many (suff_one_of _) r1 x r hf).trans (suff_one_of _ s a r1 ha)

end CxP

namespace JSONM

open CxP

theorem suff_negP : SuffP negP := suff_option (suff_char _)

theorem suff_integralP : SuffP integralP :=
  suff_combine suff_negP (suff_alt (suff_fmap (suff_char _)) suff_int1)

theorem suff_fracP : SuffP fracP := suff_combine (suff_char _) suff_int0

theorem suff_mantissaP : SuffP mantissaP :=
  suff_combine suff_integralP (suff_option suff_fracP)

theorem suff_exponentP : SuffP exponentP := by
  intro s x r h
  obtain ⟨a, r1, ha, hf⟩ := bindP_ok h
  obtain ⟨j, hj, _⟩ := fmap_ok hf
  exact (suff_int0 r1 j r hj).trans
    ((suff_combine (suff_alt (suff_char _) (suff_char _))
      (suff_alt (suff_char _) suff_negP)) s a r1 ha)

theorem suff_numberP : SuffP numberP :=
  suff_combine suff_mantissaP (suff_option suff_exponentP)

theorem suff_specialCharP : SuffP specialCharP :=
  suff_alt (suff_char _) (suff_alt (suff_char _) (suff_alt (suff_char _)
    (suff_alt (suff_char _) (suff_alt (suff_char _) (suff_alt (suff_char _)
      (suff_alt (suff_char _) (suff_char _)))))))

theorem suff_escapedCharP : SuffP escapedCharP :=
  suff_fmap (suff_combine (suff_char _) suff_specialCharP)

theorem suff_unicodePointCountP : SuffP unicodePointCountP :=
  suff_fmap (suff_combine (suff_char _)
    (suff_combine (suff_char _) (suff_exactly_n (suff_one_of _))))

theorem suff_unicodePointP : SuffP unicodePointP :=
  suff_fmap (suff_combine (suff_char _)
    (suff_combine (suff_char _) (suff_exactly_n (suff_one_of _))))

theorem suff_stringCharCountP : SuffP stringCharCountP :=
  suff_alt (suff_fmap (suff_alt suff_escapedCharP (suff_none_of _)))
    suff_unicodePointCountP

theorem suff_stringCharP : SuffP stringCharP :=
  suff_alt (suff_fmap (suff_alt suff_escapedCharP (suff_none_of _)))
    suff_unicodePointP

theorem suff_stringSizeP : SuffP stringSizeP :=
  suff_combine (suff_combine (suff_char _) (suff_many suff_stringCharCountP))
    (suff_char _)

theorem suff_sizesScalarP : SuffP sizesScalarP :=
  suff_alt (suff_fmap (suff_alt (suff_string _) (suff_alt (suff_string _) (suff_string _))))
    (suff_alt (suff_fmap suff_numberP) (suff_fmap suff_stringSizeP))

theorem suff_sizesKeyValueP {val : Parser Sizes} (hval : SuffP val) :
    SuffP (sizesKeyValueP val) := by
  intro s x r h
  unfold sizesKeyValueP at h
  obtain ⟨len, sv, hkey, hf⟩ := bindP_ok h
  obtain ⟨vsz, hv, _⟩ := fmap_ok hf
  refine (hval sv vsz r hv).trans ?_
  exact (suff_combine (suff_combine (suff_combine suff_ws suff_stringSizeP) suff_ws)
    (suff_char _)) s len sv hkey

theorem suff_sizesArrayP {val : Parser Sizes} (hval : SuffP val) :
    SuffP (sizesArrayP val) :=
  suff_combine (suff_combine
    (suff_combine (suff_char _) (suff_sep hval (suff_combine suff_ws (suff_char _))))
    suff_ws)
    (suff_alt (suff_char _) suff_failHard)

theorem suff_sizesObjectP {val : Parser Sizes} (hval : SuffP val) :
    SuffP (sizesObjectP val) :=
  suff_combine (suff_combine
    (suff_combine (suff_char _)
      (suff_sep (suff_sizesKeyValueP hval) (suff_combine suff_ws (suff_char _))))
    suff_ws)
    (suff_alt (suff_char _) suff_failHard)

theorem suff_sizesValueP : ∀ fuel, SuffP (sizesValueP fuel) := by
  intro fuel
  induction fuel with
  | zero => intro s x r h; cases h
  | succ fuel ih =>
    exact suff_combine suff_ws
      (suff_alt suff_sizesScalarP
        (suff_alt (suff_sizesArrayP ih) (suff_sizesObjectP ih)))

theorem suff_extentScalarP : SuffP extentScalarP :=
  suff_alt (suff_fmap (suff_alt (suff_string _) (suff_alt (suff_string _) (suff_string _))))
    (suff_alt (suff_fmap suff_numberP) (suff_fmap suff_stringSizeP))

theorem suff_extentKeyValueP {val : Parser (List Nat)} (hval : SuffP val) :
    SuffP (extentKeyValueP val) :=
  suff_combine (suff_combine (suff_combine (suff_combine suff_ws suff_stringSizeP)
    suff_ws) (suff_char _)) hval

theorem suff_extentArrayP {val : Parser (List Nat)} (hval : SuffP val) :
    SuffP (extentArrayP val) :=
  suff_combine (suff_combine
    (suff_combine (suff_char _) (suff_sep hval (suff_combine suff_ws (suff_char _))))
    suff_ws)
    (suff_char _)

theorem suff_extentObjectP {val : Parser (List Nat)} (hval : SuffP val) :
    SuffP (extentObjectP val) :=
  suff_combine (suff_combine
    (suff_combine (suff_char _)
      (suff_sep (suff_extentKeyValueP hval) (suff_combine suff_ws (suff_char _))))
    suff_ws)
    (suff_char _)

theorem suff_extentValueP : ∀ fuel, SuffP (extentValueP fuel) := by
  intro fuel
  induction fuel with
  | zero => intro s x r h; cases h
  | succ fuel ih =>
    intro s x r h
    unfold extentValueP at h
    cases hin : (seqSnd skip_whitespace
            (alt extentScalarP
              (alt (fmap (fun _ => ()) (extentArrayP (extentValueP fuel)))
                   (fmap (fun _ => ()) (extentObjectP (extentValueP fuel)))))) s with
    | error e => rw [hin] at h; cases h
    | ok ur =>
      obtain ⟨u, rest⟩ := ur
      rw [hin] at h
      cases h
      exact suff_combine suff_ws
        (suff_alt suff_extentScalarP
          (suff_alt (suff_fmap (suff_extentArrayP ih))
            (suff_fmap (suff_extentObjectP ih)))) s u r hin

end JSONM

namespace CxP

theorem char_err {c : Nat} {s : Input} {e : PErr}
    (h : make_char_p c s = .error e) : e = .soft := by
  cases s with
  | nil => cases h; rfl
  | cons y ys =>
    by_cases hy : y = c
    · simp [make_char_p, hy] at h
    · simp [make_char_p, hy] at h
      exact h.symm

theorem acc_err_hard {α β} {p : Parser α} {f : β → α → β} :
    ∀ {fuel : Nat} {s : Input} {init : β} {e : PErr},
      accumulate_parse p f fuel s init = .error e → e = .hard := by
  intro fuel
  induction fuel with
  | zero =>
    intro s init e h
    rw [accumulate_parse_zero] at h
    cases h
  | succ fuel ih =>
    intro s init e h
    cases s with
    | nil => rw [accumulate_parse_nil] at h; cases h
    | cons c cs =>
      rw [accumulate_parse_cons] at h
      cases hp : p (c :: cs) with
      | error e' =>
        cases e' <;> rw [hp] at h
        · cases h
        · cases h; rfl
      | ok ar =>
        obtain ⟨a, s'⟩ := ar
        rw [hp] at h
        exact ih h

theorem many_err_hard {α β} {p : Parser α} {init : β} {f : β → α → β}
    {s : Input} {e : PErr} (h : many p init f s = .error e) : e = .hard :=
  acc_err_hard h

theorem sep_err_hard {α β γ} {p1 : Parser α} {p2 : Parser γ} {init : β}
    {f : β → α → β} {s : Input} {e : PErr}
    (h : separated_by_val p1 p2 init f s = .error e) : e = .hard := by
  rcases sep_err h with ⟨hp, he⟩ | ⟨a, s', hp, hacc⟩
  · exact he
  · exact acc_err_hard hacc

end CxP

namespace CxP

theorem consumes_char (c : Nat) : ConsumesP (make_char_p c) := by
  intro s x r h
  cases s with
  | nil => simp [make_char_p] at h
  | cons y ys =>
    by_cases hy : y = c
    · simp [make_char_p, hy] at h
      rw [← h.2]
      simp
    · simp [make_char_p, hy] at h

theorem consumes_one_of (cs : List Nat) : ConsumesP (one_of cs) := by
  intro s x r h
  cases s with
  | nil => simp [one_of] at h
  | cons y ys =>
    by_cases hy : y ∈ cs
    · simp [one_of, hy] at h
      rw [← h.2]
      simp
    · simp [one_of, hy] at h

theorem consumes_none_of (cs : List Nat) : ConsumesP (none_of cs) := by
  intro s x r h
  cases s with
  | nil => simp [none_of] at h
  | cons y ys =>
    by_cases hy : y ∈ cs
    · simp [none_of, hy] at h
    · simp [none_of, hy] at h
      rw [← h.2]
      simp

theorem consumes_fmap {α β} {g : α → β} {p : Parser α} (hp : ConsumesP p) :
    ConsumesP (fmap g p) := by
  intro s x r h
  obtain ⟨a, ha, _⟩ := fmap_ok h
  exact hp s a r ha

theorem consumes_alt {α} {p1 p2 : Parser α} (h1 : ConsumesP p1) (h2 : ConsumesP p2) :
    ConsumesP (alt p1 p2) := by
  intro s x r h
  rcases alt_ok h with h' | ⟨_, h'⟩
  · exact h1 s x r h'
  · exact h2 s x r h'

theorem suffix_length_le {s r : Input} (h : r <:+ s) : r.length ≤ s.length :=
  List.IsSuffix.length_le h

theorem consumes_combine_left {α β γ} {p1 : Parser α} {p2 : Parser β} {f : α → β → γ}
    (h1 : ConsumesP p1) (h2 : SuffP p2) : ConsumesP (combine p1 p2 f) := by
  intro s x r h
  obtain ⟨a, r1, b, ha, hb, _⟩ := combine_ok h
  have := suffix_length_le (h2 r1 b r hb)
  have := h1 s a r1 ha
  omega

theorem consumes_combine_right {α β γ} {p1 : Parser α} {p2 : Parser β} {f : α → β → γ}
    (h1 : SuffP p1) (h2 : ConsumesP p2) : ConsumesP (combine p1 p2 f) := by
  intro s x r h
  obtain ⟨a, r1, b, ha, hb, _⟩ := combine_ok h
  have := suffix_length_le (h1 s a r1 ha)
  have := h2 r1 b r hb
  omega

theorem acc_fuel_eq {α β} {p : Parser α} {f : β → α → β} (hp : ConsumesP p) :
    ∀ (F1 : Nat) (s : Input) (F2 : Nat) (init : β),
      s.length ≤ F1 → s.length ≤ F2 →
      accumulate_parse p f F1 s init = accumulate_parse p f F2 s init := by
  intro F1
  induction F1 with
  | zero =>
    intro s F2 init hs1 hs2
    have : s = [] := by
      cases s with
      | nil => rfl
      | cons c cs => simp at hs1
    subst this
    rw [accumulate_parse_nil, accumulate_parse_nil]
  | succ F1 ih =>
    intro s F2 init hs1 hs2
    cases s with
    | nil => rw [accumulate_parse_nil, accumulate_parse_nil]
    | cons c cs =>
      cases F2 with
      | zero => simp at hs2
      | succ F2 =>
        rw [accumulate_parse_cons, accumulate_parse_cons]
        cases hp' : p (c :: cs) with
        | error e => cases e <;> rfl
        | ok ar =>
          obtain ⟨a, s'⟩ := ar
          have hlt := hp (c :: cs) a s' hp'
          simp at hlt hs1 hs2
          exact ih s' F2 (f init a) (by omega) (by omega)

end CxP

namespace CxP

theorem append_cancel_right {a r b : List Nat} (h : a ++ b = r ++ b) : a = r := by
  have hl : a.length = r.length := by
    have := congrArg List.length h
    simp at this
    omega
  calc a = (a ++ b).take a.length := by rw [List.take_left]
    _ = (r ++ b).take r.length := by rw [h, hl]
    _ = r := by rw [List.take_left]

theorem suffix_split {s' a b : List Nat} (h : s' <:+ a ++ b) (hl : b.length ≤ s'.length) :
    ∃ m, s' = m ++ b ∧ m <:+ a := by
  obtain ⟨t, ht⟩ := h
  refine ⟨s'.take (s'.length - b.length), ?_, ?_⟩
  · have h1 : t.length + s'.length = a.length + b.length := by
      have := congrArg List.length ht
      simp at this
      omega
    have h2 : s'.drop (s'.length - b.length) = b := by
      have h3 := List.drop_drop (s'.length - b.length) t.length (t ++ s')
      rw [List.drop_left] at h3
      rw [h3, ht, show t.length + (s'.length - b.length) = a.length from by omega]
      simp
    calc s' = s'.take (s'.length - b.length) ++ s'.drop (s'.length - b.length) := by simp
      _ = s'.take (s'.length - b.length) ++ b := by rw [h2]
  · refine ⟨t, ?_⟩
    have h1 : t.length + s'.length = a.length + b.length := by
      have := congrArg List.length ht
      simp at this
      omega
    have h2 : t ++ s'.take (s'.length - b.length) =
        (t ++ s').take (t.length + (s'.length - b.length)) := by
      rw [List.take_append_eq_append_take]
      congr 1
      · rw [List.take_of_length_le (by omega)]
      · congr 1
        omega
    rw [h2, ht, show t.length + (s'.length - b.length) = a.length from by omega]
    simp

theorem ploc_char (c : Nat) : PLocP (make_char_p c) := by
  intro a b x r h
  cases a with
  | nil =>
    exfalso
    cases b with
    | nil => simp [make_char_p] at h
    | cons y t =>
      by_cases hy : y = c
      · simp [make_char_p, hy] at h
        have := congrArg List.length h.2
        simp at this
        omega
      · simp [make_char_p, hy] at h
  | cons y a' =>
    by_cases hy : y = c
    · rw [show (y :: a') ++ b = y :: (a' ++ b) from rfl] at h
      simp [make_char_p, hy] at h ⊢
      refine ⟨?_, ?_⟩ <;> simp [h.1, h.2]
    · rw [show (y :: a') ++ b = y :: (a' ++ b) from rfl] at h
      simp [make_char_p, hy] at h

theorem ploc_one_of (cs : List Nat) : PLocP (one_of cs) := by
  intro a b x r h
  cases a with
  | nil =>
    exfalso
    cases b with
    | nil => simp [one_of] at h
    | cons y t =>
      by_cases hy : y ∈ cs
      · simp [one_of, hy] at h
        have := congrArg List.length h.2
        simp at this
        omega
      · simp [one_of, hy] at h
  | cons y a' =>
    by_cases hy : y ∈ cs
    · rw [show (y :: a') ++ b = y :: (a' ++ b) from rfl] at h
      simp [one_of, hy] at h ⊢
      refine ⟨?_, ?_⟩ <;> simp [h.1, h.2]
    · rw [show (y :: a') ++ b = y :: (a' ++ b) from rfl] at h
      simp [one_of, hy] at h

theorem ploc_none_of (cs : List Nat) : PLocP (none_of cs) := by
  intro a b x r h
  cases a with
  | nil =>
    exfalso
    cases b with
    | nil => simp [none_of] at h
    | cons y t =>
      by_cases hy : y ∈ cs
      · simp [none_of, hy] at h
      · simp [none_of, hy] at h
        have := congrArg List.length h.2
        simp at this
        omega
  | cons y a' =>
    by_cases hy : y ∈ cs
    · rw [show (y :: a') ++ b = y :: (a' ++ b) from rfl] at h
      simp [none_of, hy] at h
    · rw [show (y :: a') ++ b = y :: (a' ++ b) from rfl] at h
      simp [none_of, hy] at h ⊢
      refine ⟨?_, ?_⟩ <;> simp [h.1, h.2]

theorem matchLit_append {str : List Nat} :
    ∀ {s rest : Input}, matchLit str s = some rest →
      ∀ b, matchLit str (s ++ b) = some (rest ++ b) := by
  induction str with
  | nil =>
    intro s rest h b
    simp [matchLit] at h
    simp [matchLit, h]
  | cons c cs ih =>
    intro s rest h b
    cases s with
    | nil => simp [matchLit] at h
    | cons y ys =>
      by_cases hy : y = c
      · simp [matchLit, hy] at h ⊢
        exact ih h b
      · simp [matchLit, hy] at h

theorem matchLit_loc {str : List Nat} :
    ∀ {a b r : Input}, matchLit str (a ++ b) = some (r ++ b) →
      matchLit str a = some r := by
  induction str with
  | nil =>
    intro a b r h
    simp [matchLit] at h
    simp [matchLit, h]
  | cons c cs ih =>
    intro a b r h
    cases a with
    | nil =>
      exfalso
      cases b with
      | nil => simp [matchLit] at h
      | cons y ys =>
        by_cases hy : y = c
        · subst hy
          simp [matchLit] at h
          have := suffix_length_le (matchLit_suffix cs ys (r ++ (y :: ys)) h)
          simp at this
          omega
        · simp [matchLit, hy] at h
    | cons y a' =>
      by_cases hy : y = c
      · rw [show (y :: a') ++ b = y :: (a' ++ b) from rfl] at h
        simp [matchLit, hy] at h ⊢
        exact ih h
      · rw [show (y :: a') ++ b = y :: (a' ++ b) from rfl] at h
        simp [matchLit, hy] at h

theorem ploc_string (str : List Nat) : PLocP (make_string_p str) := by
  intro a b x r h
  simp only [make_string_p] at h ⊢
  cases hm : matchLit str (a ++ b) with
  | none => rw [hm] at h; cases h
  | some rst =>
    rw [hm] at h
    cases h
    rw [matchLit_loc hm]

end CxP

namespace CxP

theorem option_ok_intro1 {α} {d : α} {p : Parser α} {i : Input} {r : α × Input}
    (h : p i = .ok r) : CxP.option d p i = .ok r := by
  unfold CxP.option; rw [h]

theorem option_ok_intro2 {α} {d : α} {p : Parser α} {i : Input}
    (h : p i = .error .soft) : CxP.option d p i = .ok (d, i) := by
  unfold CxP.option; rw [h]

theorem ploc_fmap {α β} {g : α → β} {p : Parser α} (hp : PLocP p) :
    PLocP (fmap g p) := by
  intro a b x r h
  obtain ⟨y, hy, hx⟩ := fmap_ok h
  rw [hx]
  exact fmap_ok_intro (hp a b y r hy)

theorem ploc_alt {α} {p1 p2 : Parser α} (hp1 : PLocP p1) (hs1 : SLocP p1)
    (hp2 : PLocP p2) : PLocP (alt p1 p2) := by
  intro a b x r h
  rcases alt_ok h with h' | ⟨hsoft, h'⟩
  · exact alt_ok_intro1 (hp1 a b x r h')
  · exact alt_ok_intro2 (hs1 a b hsoft) (hp2 a b x r h')

theorem ploc_combine {α β γ} {p1 : Parser α} {p2 : Parser β} {f : α → β → γ}
    (hsf1 : SuffP p1) (hsf2 : SuffP p2) (hp1 : PLocP p1) (hp2 : PLocP p2) :
    PLocP (combine p1 p2 f) := by
  intro a b x r h
  obtain ⟨x1, r1, x2, h1, h2, hx⟩ := combine_ok h
  have hr1 : (r ++ b) <:+ r1 := hsf2 r1 x2 (r ++ b) h2
  have hr1s : r1 <:+ (a ++ b) := hsf1 (a ++ b) x1 r1 h1
  have hlen : b.length ≤ r1.length := by
    have := suffix_length_le hr1
    simp at this
    omega
  obtain ⟨m, hm, hma⟩ := suffix_split hr1s hlen
  rw [hm] at h1 h2
  have hp1a := hp1 a b x1 m h1
  have hp2a := hp2 m b x2 r h2
  rw [hx]
  exact combine_ok_intro hp1a hp2a

theorem ploc_option {α} {d : α} {p : Parser α} (hp : PLocP p) (hs : SLocP p) :
    PLocP (CxP.option d p) := by
  intro a b x r h
  rcases option_ok h with h' | ⟨hsoft, hdr⟩
  · exact option_ok_intro1 (hp a b x r h')
  · injection hdr with hx hr
    have hra : r = a := append_cancel_right hr
    rw [hx, hra]
    exact option_ok_intro2 (hs a b hsoft)

theorem acc_nostep {α β} {p : Parser α} {f : β → α → β}
    (hc : ConsumesP p) (hsf : SuffP p) :
    ∀ {F : Nat} {s : Input} {init acc : β},
      accumulate_parse p f F s init = .ok (acc, s) → acc = init := by
  intro F s init acc h
  cases F with
  | zero =>
    rw [accumulate_parse_zero] at h
    cases h
    rfl
  | succ F =>
    cases s with
    | nil =>
      rw [accumulate_parse_nil] at h
      cases h
      rfl
    | cons c cs =>
      rw [accumulate_parse_cons] at h
      cases hp' : p (c :: cs) with
      | error e =>
        cases e <;> rw [hp'] at h
        · cases h
          rfl
        · cases h
      | ok ar =>
        obtain ⟨x, s'⟩ := ar
        rw [hp'] at h
        exfalso
        have h1 := suff_accumulate hsf F s' (f init x) acc (c :: cs) h
        have h2 := suffix_length_le h1
        have h3 := hc (c :: cs) x s' hp'
        omega

theorem acc_ploc {α β} {p : Parser α} {f : β → α → β}
    (hc : ConsumesP p) (hsf : SuffP p) (hp : PLocP p) (hs : SLocP p) :
    ∀ (F : Nat) (a b : Input) (init acc : β) (r : Input),
      (a ++ b).length ≤ F →
      accumulate_parse p f F (a ++ b) init = .ok (acc, r ++ b) →
      accumulate_parse p f a.length a init = .ok (acc, r) := by
  intro F
  induction F with
  | zero =>
    intro a b init acc r hF h
    have ha : a = [] := by
      cases a with
      | nil => rfl
      | cons c cs => simp at hF
    have hb : b = [] := by
      cases b with
      | nil => rfl
      | cons c cs => rw [ha] at hF; simp at hF
    subst ha
    subst hb
    simp only [List.append_nil] at h
    rw [accumulate_parse_nil] at h
    injection h with h'
    injection h' with h1 h2
    have h2' : r = [] := by simpa using h2.symm
    rw [accumulate_parse_nil, h1, h2']
  | succ F ih =>
    intro a b init acc r hF h
    cases a with
    | nil =>
      have h1 := suff_accumulate hsf (F + 1) ([] ++ b) init acc (r ++ b) h
      have h2 := suffix_length_le h1
      simp at h2
      have hr : r = [] := by
        cases r with
        | nil => rfl
        | cons c cs => simp at h2
      subst hr
      simp at h
      have := acc_nostep hc hsf h
      rw [accumulate_parse_nil, this]
    | cons c a' =>
      rw [show (c :: a') ++ b = c :: (a' ++ b) from rfl, accumulate_parse_cons] at h
      cases hp' : p (c :: (a' ++ b)) with
      | error e =>
        cases e <;> rw [hp'] at h
        · injection h with h'
          injection h' with h1 h2
          have hra : r = c :: a' := append_cancel_right h2.symm
          subst hra
          subst h1
          have hsoft : p (c :: a') = .error .soft :=
            hs (c :: a') b (by simpa using hp')
          rw [show (c :: a').length = a'.length + 1 from by simp, accumulate_parse_cons]
          rw [hsoft]
        · cases h
      | ok ar =>
        obtain ⟨x, s'⟩ := ar
        rw [hp'] at h
        have hs' : s' <:+ (c :: (a' ++ b)) := hsf _ x s' hp'
        have hrs' : (r ++ b) <:+ s' := suff_accumulate hsf F s' (f init x) acc _ h
        have hlen : b.length ≤ s'.length := by
          have := suffix_length_le hrs'
          simp at this
          omega
        have hs'' : s' <:+ ((c :: a') ++ b) := by simpa using hs'
        obtain ⟨m, hm, hma⟩ := suffix_split hs'' hlen
        rw [hm] at hp' h
        have hploc : p (c :: a') = .ok (x, m) := by
          have := hp (c :: a') b x m (by simpa using hp')
          exact this
        have hrec := ih m b (f init x) acc r (by
          have hcc := hc _ x (m ++ b) hp'
          simp at hF hcc ⊢
          omega) h
        rw [show (c :: a').length = a'.length + 1 from by simp, accumulate_parse_cons]
        rw [hploc]
        have hcons := hc (c :: a') x m hploc
        show accumulate_parse p f a'.length m (f init x) = Except.ok (acc, r)
        rw [acc_fuel_eq hc a'.length m m.length (f init x) (by simp at hcons; omega)
          (Nat.le_refl _)]
        exact hrec

end CxP

namespace CxP

theorem bindP_err {α β} {p : Parser α} {f : α → Input → PResult β} {i : Input}
    {e : PErr} (h : bindP p f i = .error e) :
    p i = .error e ∨ ∃ a r1, p i = .ok (a, r1) ∧ f a r1 = .error e := by
  unfold bindP at h
  cases h1 : p i with
  | error e' => rw [h1] at h; cases h; exact Or.inl rfl
  | ok ar =>
    obtain ⟨a, r1⟩ := ar
    rw [h1] at h
    exact Or.inr ⟨a, r1, rfl, h⟩

theorem bindP_err_intro1 {α β} {p : Parser α} {f : α → Input → PResult β} {i : Input}
    {e : PErr} (h : p i = .error e) : bindP p f i = .error e := by
  unfold bindP; rw [h]

theorem bindP_ok_intro {α β} {p : Parser α} {f : α → Input → PResult β} {i : Input}
    {a : α} {r1 : Input} {r : β × Input}
    (h1 : p i = .ok (a, r1)) (h2 : f a r1 = .ok r) : bindP p f i = .ok r := by
  unfold bindP; rw [h1]; exact h2

theorem option_never_soft {α} (d : α) (p : Parser α) : NeverSoftP (CxP.option d p) := by
  intro s h
  have := option_err h
  cases this.2

theorem many_never_soft {α β} (p : Parser α) (init : β) (f : β → α → β) :
    NeverSoftP (many p init f) := by
  intro s h
  have := acc_err_hard h
  cases this

theorem sep_never_soft {α β γ} (p1 : Parser α) (p2 : Parser γ) (init : β)
    (f : β → α → β) : NeverSoftP (separated_by_val p1 p2 init f) := by
  intro s h
  have := sep_err_hard h
  cases this

theorem altFailHard_never_soft {α} (p : Parser α) : NeverSoftP (alt p failHardP) := by
  intro s h
  rcases alt_err h with ⟨_, he⟩ | ⟨_, h2⟩
  · cases he
  · cases h2

theorem acc_n_err_hard {α β} {p : Parser α} {f : β → α → β} :
    ∀ {n : Nat} {s : Input} {init : β} {e : PErr},
      accumulate_n_parse p f n s init = .error e → e = .hard := by
  intro n
  induction n with
  | zero =>
    intro s init e h
    cases h
  | succ n ih =>
    intro s init e h
    unfold accumulate_n_parse at h
    cases hp : p s with
    | error e' =>
      cases e' <;> rw [hp] at h
      · cases h
      · cases h; rfl
    | ok ar =>
      obtain ⟨a, s'⟩ := ar
      rw [hp] at h
      exact ih h

theorem exactly_n_never_soft {α β} (p : Parser α) (n : Nat) (init : β)
    (f : β → α → β) : NeverSoftP (exactly_n p n init f) := by
  intro s h
  have := acc_n_err_hard h
  cases this

theorem sloc_char (c : Nat) : SLocP (make_char_p c) := by
  intro a b h
  cases a with
  | nil => rfl
  | cons y a' =>
    rw [show (y :: a') ++ b = y :: (a' ++ b) from rfl] at h
    by_cases hy : y = c
    · simp [make_char_p, hy] at h
    · simp [make_char_p, hy]

theorem sloc_one_of (cs : List Nat) : SLocP (one_of cs) := by
  intro a b h
  cases a with
  | nil => rfl
  | cons y a' =>
    rw [show (y :: a') ++ b = y :: (a' ++ b) from rfl] at h
    by_cases hy : y ∈ cs
    · simp [one_of, hy] at h
    · simp [one_of, hy]

theorem sloc_none_of (cs : List Nat) : SLocP (none_of cs) := by
  intro a b h
  cases a with
  | nil => rfl
  | cons y a' =>
    rw [show (y :: a') ++ b = y :: (a' ++ b) from rfl] at h
    by_cases hy : y ∈ cs
    · simp [none_of, hy]
    · simp [none_of, hy] at h

theorem sloc_string (str : List Nat) : SLocP (make_string_p str) := by
  intro a b h
  unfold make_string_p at h ⊢
  cases hm : matchLit str a with
  | none => rfl
  | some rest =>
    have := matchLit_append hm b
    rw [this] at h
    cases h

theorem sloc_fmap {α β} {g : α → β} {p : Parser α} (hp : SLocP p) :
    SLocP (fmap g p) := by
  intro a b h
  have h' : p (a ++ b) = .error .soft := fmap_err.mp h
  exact fmap_err.mpr (hp a b h')

theorem sloc_alt {α} {p1 p2 : Parser α} (h1 : SLocP p1) (h2 : SLocP p2) :
    SLocP (alt p1 p2) := by
  intro a b h
  rcases alt_err h with ⟨_, he⟩ | ⟨hs1, hs2⟩
  · cases he
  · exact alt_err_intro (h1 a b hs1) (h2 a b hs2)

theorem sloc_combine_left {α β γ} {p1 : Parser α} {p2 : Parser β} {f : α → β → γ}
    (h1 : SLocP p1) (h2 : NeverSoftP p2) : SLocP (combine p1 p2 f) := by
  intro a b h
  rcases combine_err h with hs | ⟨x, r1, _, hs2⟩
  · exact combine_err_intro1 (h1 a b hs)
  · exact absurd hs2 (h2 r1)

theorem sloc_combine_char {β γ} {c : Nat} {p2 : Parser β} {f : Nat → β → γ}
    (h2 : SLocP p2) : SLocP (combine (make_char_p c) p2 f) := by
  intro a b h
  cases a with
  | nil =>
    exact combine_err_intro1 (show make_char_p c [] = .error .soft from rfl)
  | cons y a' =>
    rcases combine_err h with hs | ⟨x, r1, hok, hs2⟩
    · exact combine_err_intro1 (sloc_char c _ b hs)
    · rw [show (y :: a') ++ b = y :: (a' ++ b) from rfl] at hok
      by_cases hy : y = c
      · simp [make_char_p, hy] at hok
        obtain ⟨hx, hr1⟩ := hok
        rw [← hr1] at hs2
        have hsoft := h2 a' b hs2
        exact combine_err_intro2
          (show make_char_p c (y :: a') = .ok (c, a') by simp [make_char_p, hy]) hsoft
      · simp [make_char_p, hy] at hok

end CxP

namespace JSONM

open CxP

/-- The whitespace test applied by `skip_whitespace`. -/
def isWSb (c : Nat) : Bool := c == 32 || c == 9 || c == 10 || c == 13

theorem ws_elem_true {c : Nat} (cs : Input) (h : isWSb c = true) :
    (alt (make_char_p (ch ' '))
      (alt (make_char_p (ch '\t'))
      (alt (make_char_p (ch '\n')) (make_char_p (ch '\r'))))) (c :: cs) =
      .ok (c, cs) := by
  have e1 : ch ' ' = 32 := rfl
  have e2 : ch '\t' = 9 := rfl
  have e3 : ch '\n' = 10 := rfl
  have e4 : ch '\r' = 13 := rfl
  simp [isWSb] at h
  rcases h with ((h | h) | h) | h <;> subst h <;>
    simp [alt, make_char_p, e1, e2, e3, e4]

theorem ws_elem_false {c : Nat} (cs : Input) (h : isWSb c = false) :
    (alt (make_char_p (ch ' '))
      (alt (make_char_p (ch '\t'))
      (alt (make_char_p (ch '\n')) (make_char_p (ch '\r'))))) (c :: cs) =
      .error .soft := by
  have e1 : ch ' ' = 32 := rfl
  have e2 : ch '\t' = 9 := rfl
  have e3 : ch '\n' = 10 := rfl
  have e4 : ch '\r' = 13 := rfl
  simp [isWSb] at h
  obtain ⟨⟨⟨h1, h2⟩, h3⟩, h4⟩ := h
  simp [alt, make_char_p, e1, e2, e3, e4, h1, h2, h3, h4]

theorem ws_acc :
    ∀ (F : Nat) (s : Input), s.length ≤ F →
      accumulate_parse
        (alt (make_char_p (ch ' '))
          (alt (make_char_p (ch '\t'))
          (alt (make_char_p (ch '\n')) (make_char_p (ch '\r')))))
        (fun (m : Unit) _ => m) F s () =
        .ok ((), s.dropWhile isWSb) := by
  intro F
  induction F with
  | zero =>
    intro s hs
    have : s = [] := by
      cases s with
      | nil => rfl
      | cons c cs => simp at hs
    subst this
    rfl
  | succ F ih =>
    intro s hs
    cases s with
    | nil => rfl
    | cons c cs =>
      rw [accumulate_parse_cons]
      cases hwc : isWSb c with
      | true =>
        rw [ws_elem_true cs hwc]
        dsimp only
        have := ih cs (by simp at hs; omega)
        rw [this]
        simp [List.dropWhile, hwc]
      | false =>
        rw [ws_elem_false cs hwc]
        simp [List.dropWhile, hwc]

theorem ws_eq (s : Input) :
    skip_whitespace s = .ok ((), s.dropWhile isWSb) := by
  unfold skip_whitespace many
  exact ws_acc s.length s (Nat.le_refl _)

end JSONM

namespace JSONM

open CxP

theorem sloc_ws_seq {α} {X : Parser α} (hX : SLocP X) (hnil : X [] = .error .soft) :
    SLocP (seqSnd skip_whitespace X) := by
  intro a b h
  unfold seqSnd at h ⊢
  rcases combine_err h with hws | ⟨u, r1, hok, hs⟩
  · rw [ws_eq] at hws; cases hws
  · rw [ws_eq] at hok
    injection hok with hok'
    injection hok' with _ hr1
    rw [← hr1, List.dropWhile_append] at hs
    by_cases he : (a.dropWhile isWSb).isEmpty
    · rw [if_pos he] at hs
      have hde : a.dropWhile isWSb = [] := by simpa using he
      exact combine_err_intro2
        (show skip_whitespace a = .ok ((), []) by rw [ws_eq, hde]) hnil
    · rw [if_neg he] at hs
      have hs' := hX (a.dropWhile isWSb) b hs
      exact combine_err_intro2 (by rw [ws_eq]) hs'

theorem ploc_ws_seq {α} {X : Parser α} (hX : PLocP X) (hsfX : SuffP X)
    (hcX : ConsumesP X) : PLocP (seqSnd skip_whitespace X) := by
  intro a b x r h
  unfold seqSnd at h ⊢
  obtain ⟨u, r1, x2, h1, h2, hx⟩ := combine_ok h
  rw [ws_eq] at h1
  injection h1 with h1'
  injection h1' with _ hr1
  rw [← hr1, List.dropWhile_append] at h2
  by_cases he : (a.dropWhile isWSb).isEmpty
  · rw [if_pos he] at h2
    exfalso
    have hsuf := suffix_length_le (hsfX _ _ _ h2)
    have hcc := hcX _ _ _ h2
    have hdb : (b.dropWhile isWSb).length ≤ b.length :=
      suffix_length_le (List.dropWhile_suffix isWSb)
    simp at hsuf hcc
    omega
  · rw [if_neg he] at h2
    have h2' := hX (a.dropWhile isWSb) b x2 r h2
    rw [hx]
    exact combine_ok_intro (by rw [ws_eq]) h2'

theorem many1_err_soft {α β} {p : Parser α} {init : β} {f : β → α → β} {s : Input}
    (h : many1 p init f s = .error .soft) : p s = .error .soft := by
  unfold many1 at h
  cases hp : p s with
  | error e =>
    rw [hp] at h
    dsimp only at h
    injection h with he
    rw [he]
  | ok ar =>
    obtain ⟨a, s'⟩ := ar
    rw [hp] at h
    have := acc_err_hard h
    cases this

theorem sloc_int0P : SLocP int0P := by
  intro a b h
  unfold int0P at h ⊢
  have h1 := many1_err_soft h
  have h2 := sloc_one_of digitsChars a b h1
  unfold many1
  rw [h2]

theorem sloc_int1P : SLocP int1P := by
  intro a b h
  unfold int1P at h ⊢
  rcases bindP_err h with h' | ⟨x, r1, h1, h2⟩
  · exact bindP_err_intro1 (sloc_one_of digits1Chars a b h')
  · exfalso
    exact many_never_soft _ _ _ r1 h2

theorem integral_soft_elim {i : Input} (h : integralP i = .error .soft) :
    ∃ sgn r1, negP i = .ok (sgn, r1) ∧
      (alt (fmap (fun _ => (0 : Nat)) (make_char_p (ch '0'))) int1P) r1 =
        .error .soft := by
  rcases combine_err h with h' | ⟨sgn, r1, h1, h2⟩
  · exact absurd h' (option_never_soft _ _ _)
  · exact ⟨sgn, r1, h1, h2⟩

theorem number_soft_elim {i : Input} (h : numberP i = .error .soft) :
    integralP i = .error .soft := by
  have hm : mantissaP i = .error .soft := by
    rcases combine_err h with h' | ⟨x, r1, _, h2⟩
    · exact h'
    · exact absurd h2 (option_never_soft _ _ _)
  rcases combine_err hm with h' | ⟨x, r1, _, h2⟩
  · exact h'
  · exact absurd h2 (option_never_soft _ _ _)

theorem number_soft_intro {i : Input} (h : integralP i = .error .soft) :
    numberP i = .error .soft :=
  combine_err_intro1 (combine_err_intro1 h)

theorem sloc_numALT :
    SLocP (alt (fmap (fun _ => (0 : Nat)) (make_char_p (ch '0'))) int1P) :=
  sloc_alt (sloc_fmap (sloc_char _)) sloc_int1P

theorem sloc_numberP : SLocP numberP := by
  intro a b h
  obtain ⟨sgn, r1, hneg, halt⟩ := integral_soft_elim (number_soft_elim h)
  cases a with
  | nil => rfl
  | cons c a2 =>
    by_cases hc : c = ch '-'
    · have hneg' : negP ((c :: a2) ++ b) = .ok (ch '-', a2 ++ b) := by
        simp [negP, CxP.option, make_char_p, hc]
      rw [hneg'] at hneg
      injection hneg with hneg2
      injection hneg2 with _ hr1
      rw [← hr1] at halt
      have halt' := sloc_numALT a2 b halt
      exact number_soft_intro (combine_err_intro2
        (show negP (c :: a2) = .ok (ch '-', a2) by
          simp [negP, CxP.option, make_char_p, hc]) halt')
    · have hneg' : negP ((c :: a2) ++ b) = .ok (ch '+', (c :: a2) ++ b) := by
        simp [negP, CxP.option, make_char_p, hc]
      rw [hneg'] at hneg
      injection hneg with hneg2
      injection hneg2 with _ hr1
      rw [← hr1] at halt
      have halt' := sloc_numALT (c :: a2) b halt
      exact number_soft_intro (combine_err_intro2
        (show negP (c :: a2) = .ok (ch '+', c :: a2) by
          simp [negP, CxP.option, make_char_p, hc]) halt')

end JSONM

namespace CxP

/-- Full extension: a success is unaffected by appending further input. -/
def ExtP (p : Parser α) : Prop :=
  ∀ a b x m, p a = .ok (x, m) → p (a ++ b) = .ok (x, m ++ b)

theorem ext_char (c : Nat) : ExtP (make_char_p c) := by
  intro a b x m h
  cases a with
  | nil => cases h
  | cons y ys =>
    by_cases hy : y = c
    · simp [make_char_p, hy] at h ⊢
      exact ⟨h.1, by rw [h.2]⟩
    · simp [make_char_p, hy] at h

theorem ext_one_of (cs : List Nat) : ExtP (one_of cs) := by
  intro a b x m h
  cases a with
  | nil => cases h
  | cons y ys =>
    by_cases hy : y ∈ cs
    · simp [one_of, hy] at h ⊢
      exact ⟨h.1, by rw [h.2]⟩
    · simp [one_of, hy] at h

theorem ext_none_of (cs : List Nat) : ExtP (none_of cs) := by
  intro a b x m h
  cases a with
  | nil => cases h
  | cons y ys =>
    by_cases hy : y ∈ cs
    · simp [none_of, hy] at h
    · simp [none_of, hy] at h ⊢
      exact ⟨h.1, by rw [h.2]⟩

theorem ext_string (str : List Nat) : ExtP (make_string_p str) := by
  intro a b x m h
  unfold make_string_p at h ⊢
  cases hm : matchLit str a with
  | none => rw [hm] at h; cases h
  | some rest =>
    rw [hm] at h
    injection h with h'
    injection h' with hx hr
    rw [matchLit_append hm b, ← hx, ← hr]

theorem ext_fmap {α β} {g : α → β} {p : Parser α} (hp : ExtP p) : ExtP (fmap g p) := by
  intro a b x m h
  obtain ⟨y, hy, hx⟩ := fmap_ok h
  rw [hx]
  exact fmap_ok_intro (hp a b y m hy)

theorem ext_combine {α β γ} {p1 : Parser α} {p2 : Parser β} {f : α → β → γ}
    (h1 : ExtP p1) (h2 : ExtP p2) : ExtP (combine p1 p2 f) := by
  intro a b x m h
  obtain ⟨x1, r1, x2, hx1, hx2, hx⟩ := combine_ok h
  rw [hx]
  exact combine_ok_intro (h1 a b x1 r1 hx1) (h2 r1 b x2 m hx2)

theorem acc_stop {α β} {p : Parser α} {f : β → α → β} (hc : ConsumesP p) :
    ∀ {F : Nat} {s : Input} {init acc : β} {r : Input},
      s.length ≤ F →
      accumulate_parse p f F s init = .ok (acc, r) →
      r = [] ∨ p r = .error .soft := by
  intro F
  induction F with
  | zero =>
    intro s init acc r hF h
    have : s = [] := by
      cases s with
      | nil => rfl
      | cons c cs => simp at hF
    subst this
    rw [accumulate_parse_nil] at h
    injection h with h'
    injection h' with _ h2
    exact Or.inl h2.symm
  | succ F ih =>
    intro s init acc r hF h
    cases s with
    | nil =>
      rw [accumulate_parse_nil] at h
      injection h with h'
      injection h' with _ h2
      exact Or.inl h2.symm
    | cons c cs =>
      rw [accumulate_parse_cons] at h
      cases hp : p (c :: cs) with
      | error e =>
        cases e <;> rw [hp] at h
        · injection h with h'
          injection h' with _ h2
          rw [h2] at hp
          exact Or.inr hp
        · cases h
      | ok ar =>
        obtain ⟨x, s'⟩ := ar
        rw [hp] at h
        have hlt := hc (c :: cs) x s' hp
        refine ih ?_ h
        simp at hF hlt
        omega

end CxP

namespace CxP

theorem one_of_err {cs : List Nat} {s : Input} {e : PErr}
    (h : one_of cs s = .error e) : e = .soft := by
  cases s with
  | nil => cases h; rfl
  | cons y ys =>
    by_cases hy : y ∈ cs
    · simp [one_of, hy] at h
    · simp [one_of, hy] at h
      exact h.symm

theorem none_of_err {cs : List Nat} {s : Input} {e : PErr}
    (h : none_of cs s = .error e) : e = .soft := by
  cases s with
  | nil => cases h; rfl
  | cons y ys =>
    by_cases hy : y ∈ cs
    · simp [none_of, hy] at h
      exact h.symm
    · simp [none_of, hy] at h

theorem string_err {str : List Nat} {s : Input} {e : PErr}
    (h : make_string_p str s = .error e) : e = .soft := by
  unfold make_string_p at h
  cases hm : matchLit str s with
  | none => rw [hm] at h; cases h; rfl
  | some rest => rw [hm] at h; cases h

theorem never_hard_char (c : Nat) : NeverHardP (make_char_p c) := by
  intro s h
  cases char_err h

theorem never_hard_one_of (cs : List Nat) : NeverHardP (one_of cs) := by
  intro s h
  cases one_of_err h

theorem never_hard_none_of (cs : List Nat) : NeverHardP (none_of cs) := by
  intro s h
  cases none_of_err h

theorem never_hard_string (str : List Nat) : NeverHardP (make_string_p str) := by
  intro s h
  cases string_err h

theorem never_hard_fmap {α β} {g : α → β} {p : Parser α} (hp : NeverHardP p) :
    NeverHardP (fmap g p) := by
  intro s h
  exact hp s (fmap_err.mp h)

theorem never_hard_alt {α} {p1 p2 : Parser α} (h1 : NeverHardP p1)
    (h2 : NeverHardP p2) : NeverHardP (alt p1 p2) := by
  intro s h
  rcases alt_err h with ⟨hh, _⟩ | ⟨_, hh⟩
  · exact h1 s hh
  · exact h2 s hh

theorem never_hard_combine {α β γ} {p1 : Parser α} {p2 : Parser β} {f : α → β → γ}
    (h1 : NeverHardP p1) (h2 : NeverHardP p2) : NeverHardP (combine p1 p2 f) := by
  intro s h
  rcases combine_err h with hh | ⟨x, r1, _, hh⟩
  · exact h1 s hh
  · exact h2 r1 hh

theorem never_hard_exactly_n {α β} {p : Parser α} (hp : NeverHardP p) :
    ∀ (n : Nat) (init : β) (f : β → α → β), NeverHardP (exactly_n p n init f) := by
  intro n
  induction n with
  | zero =>
    intro init f s h
    cases h
  | succ n ih =>
    intro init f s h
    unfold exactly_n accumulate_n_parse at h
    cases hps : p s with
    | error e =>
      cases e <;> rw [hps] at h
      · cases h
      · exact hp s hps
    | ok ar =>
      obtain ⟨x, s'⟩ := ar
      rw [hps] at h
      exact ih (f init x) f s' h

theorem acc_total {α β} {p : Parser α} {f : β → α → β} (hnh : NeverHardP p) :
    ∀ (F : Nat) (s : Input) (init : β),
      ∃ acc r, accumulate_parse p f F s init = .ok (acc, r) := by
  intro F
  induction F with
  | zero =>
    intro s init
    exact ⟨init, s, accumulate_parse_zero p f s init⟩
  | succ F ih =>
    intro s init
    cases s with
    | nil => exact ⟨init, [], accumulate_parse_nil p f (F + 1) init⟩
    | cons c cs =>
      rw [accumulate_parse_cons]
      cases hps : p (c :: cs) with
      | error e =>
        cases e
        · exact ⟨init, c :: cs, rfl⟩
        · exact absurd hps (hnh (c :: cs))
      | ok ar =>
        obtain ⟨x, s'⟩ := ar
        exact ih s' (f init x)

theorem many_total {α β} {p : Parser α} {init : β} {f : β → α → β}
    (hnh : NeverHardP p) (s : Input) :
    ∃ acc r, many p init f s = .ok (acc, r) :=
  acc_total hnh s.length s init

end CxP

namespace CxP

/-- Soft failures on nonempty input extend to longer inputs. -/
def SExtP (p : Parser α) : Prop :=
  ∀ s b, s ≠ [] → p s = .error .soft → p (s ++ b) = .error .soft

theorem qext_of_ext {α} {p : Parser α} (h : ExtP p) : QExtP p := by
  intro a b x m hok _
  exact h a b x m hok

theorem qext_combine_extleft {α β γ} {p1 : Parser α} {p2 : Parser β} {f : α → β → γ}
    (h1 : ExtP p1) (h2 : QExtP p2) : QExtP (combine p1 p2 f) := by
  intro a b x m h hm
  obtain ⟨x1, r1, x2, hx1, hx2, hx⟩ := combine_ok h
  rw [hx]
  exact combine_ok_intro (h1 a b x1 r1 hx1) (h2 r1 b x2 m hx2 hm)

theorem qext_fmap {α β} {g : α → β} {p : Parser α} (hp : QExtP p) : QExtP (fmap g p) := by
  intro a b x m h hm
  obtain ⟨y, hy, hx⟩ := fmap_ok h
  rw [hx]
  exact fmap_ok_intro (hp a b y m hy hm)

theorem qext_acc_n {α β} {p : Parser α} {f : β → α → β} (hsf : SuffP p)
    (hext : ExtP p) (hse : SExtP p) :
    ∀ {n : Nat} {a : Input} {init acc : β} {m : Input},
      accumulate_n_parse p f n a init = .ok (acc, m) → m ≠ [] →
      ∀ b, accumulate_n_parse p f n (a ++ b) init = .ok (acc, m ++ b) := by
  intro n
  induction n with
  | zero =>
    intro a init acc m h hm b
    unfold accumulate_n_parse at h ⊢
    injection h with h'
    injection h' with h1 h2
    rw [h1, h2]
  | succ n ih =>
    intro a init acc m h hm b
    unfold accumulate_n_parse at h ⊢
    cases hps : p a with
    | error e =>
      cases e <;> rw [hps] at h
      · injection h with h'
        injection h' with h1 h2
        have hane : a ≠ [] := by rw [h2]; exact hm
        rw [hse a b hane hps, h1, h2]
      · cases h
    | ok ar =>
      obtain ⟨x, s'⟩ := ar
      rw [hps] at h
      rw [hext a b x s' hps]
      exact ih h hm b

theorem acc_para {α β} {p : Parser α} {f : β → α → β} (hsf : SuffP p)
    (hc : ConsumesP p) (hq : QExtP p) :
    ∀ {F : Nat} {F2 : Nat} {a : Input} {init acc : β} {r : Input} {b : Input},
      (a ++ b).length ≤ F2 →
      accumulate_parse p f F a init = .ok (acc, r) → r ≠ [] →
      (∀ b', p (r ++ b') = .error .soft) →
      accumulate_parse p f F2 (a ++ b) init = .ok (acc, r ++ b) := by
  intro F
  induction F with
  | zero =>
    intro F2 a init acc r b hF2 h hr hstop
    rw [accumulate_parse_zero] at h
    injection h with h'
    injection h' with h1 h2
    subst h1
    subst h2
    cases a with
    | nil => exact absurd rfl hr
    | cons c cs =>
      cases F2 with
      | zero => simp at hF2
      | succ F2 =>
        rw [show (c :: cs) ++ b = c :: (cs ++ b) from rfl, accumulate_parse_cons]
        have := hstop b
        rw [show (c :: cs) ++ b = c :: (cs ++ b) from rfl] at this
        rw [this]
  | succ F ih =>
    intro F2 a init acc r b hF2 h hr hstop
    cases a with
    | nil =>
      rw [accumulate_parse_nil] at h
      injection h with h'
      injection h' with _ h2
      exact absurd h2.symm hr
    | cons c cs =>
      rw [accumulate_parse_cons] at h
      cases F2 with
      | zero => simp at hF2
      | succ F2 =>
        rw [show (c :: cs) ++ b = c :: (cs ++ b) from rfl, accumulate_parse_cons]
        cases hps : p (c :: cs) with
        | error e =>
          cases e <;> rw [hps] at h
          · cases h
            have hstb := hstop b
            rw [show (c :: cs) ++ b = c :: (cs ++ b) from rfl] at hstb
            rw [hstb]
            rfl
          · cases h
        | ok ar =>
          obtain ⟨x, s'⟩ := ar
          rw [hps] at h
          dsimp only at h
          have hs' : s' ≠ [] := by
            intro hnil
            rw [hnil] at h
            rw [accumulate_parse_nil] at h
            injection h with h'
            injection h' with _ h2
            exact absurd h2.symm hr
          have hq' := hq (c :: cs) b x s' hps hs'
          rw [show (c :: cs) ++ b = c :: (cs ++ b) from rfl] at hq'
          rw [hq']
          refine ih ?_ h hr hstop
          have h1 := hc (c :: cs) x s' hps
          simp at hF2 h1 ⊢
          omega

end CxP

namespace CxP

theorem char_ok {c : Nat} {s : Input} {x : Nat} {r : Input}
    (h : make_char_p c s = .ok (x, r)) : s = c :: r ∧ x = c := by
  cases s with
  | nil => cases h
  | cons y ys =>
    by_cases hy : y = c
    · simp [make_char_p, hy] at h
      exact ⟨by rw [hy, h.2], h.1.symm⟩
    · simp [make_char_p, hy] at h

theorem se_char (c : Nat) : SExtP (make_char_p c) := by
  intro s b hs h
  cases s with
  | nil => exact absurd rfl hs
  | cons y ys =>
    by_cases hy : y = c
    · simp [make_char_p, hy] at h
    · simp [make_char_p, hy]

theorem se_one_of (cs : List Nat) : SExtP (one_of cs) := by
  intro s b hs h
  cases s with
  | nil => exact absurd rfl hs
  | cons y ys =>
    by_cases hy : y ∈ cs
    · simp [one_of, hy] at h
    · simp [one_of, hy]

theorem se_none_of (cs : List Nat) : SExtP (none_of cs) := by
  intro s b hs h
  cases s with
  | nil => exact absurd rfl hs
  | cons y ys =>
    by_cases hy : y ∈ cs
    · simp [none_of, hy]
    · simp [none_of, hy] at h

theorem se_fmap {α β} {g : α → β} {p : Parser α} (hp : SExtP p) : SExtP (fmap g p) := by
  intro s b hs h
  exact fmap_err.mpr (hp s b hs (fmap_err.mp h))

theorem se_alt {α} {p1 p2 : Parser α} (h1 : SExtP p1) (h2 : SExtP p2) :
    SExtP (alt p1 p2) := by
  intro s b hs h
  rcases alt_err h with ⟨_, he⟩ | ⟨ha, hb⟩
  · cases he
  · exact alt_err_intro (h1 s b hs ha) (h2 s b hs hb)

theorem ext_alt {α} {p1 p2 : Parser α} (h1 : ExtP p1) (hs1 : SExtP p1)
    (h2 : ExtP p2) (hc2 : ConsumesP p2) : ExtP (alt p1 p2) := by
  intro a b x m h
  rcases alt_ok h with h' | ⟨hsoft, h'⟩
  · exact alt_ok_intro1 (h1 a b x m h')
  · have hane : a ≠ [] := by
      intro hnil
      rw [hnil] at h'
      have := hc2 [] x m h'
      simp at this
    exact alt_ok_intro2 (hs1 a b hane hsoft) (h2 a b x m h')

theorem sloc_of_never_soft {α} {p : Parser α} (h : NeverSoftP p) : SLocP p := by
  intro a b hsoft
  exact absurd hsoft (h (a ++ b))

theorem acc_n_ploc {α β} {p : Parser α} {f : β → α → β}
    (hsf : SuffP p) (hp : PLocP p) (hs : SLocP p) :
    ∀ {n : Nat} {a b : Input} {init acc : β} {r : Input},
      accumulate_n_parse p f n (a ++ b) init = .ok (acc, r ++ b) →
      accumulate_n_parse p f n a init = .ok (acc, r) := by
  intro n
  induction n with
  | zero =>
    intro a b init acc r h
    unfold accumulate_n_parse at h ⊢
    injection h with h'
    injection h' with h1 h2
    rw [h1, append_cancel_right h2]
  | succ n ih =>
    intro a b init acc r h
    unfold accumulate_n_parse at h ⊢
    cases hps : p (a ++ b) with
    | error e =>
      cases e <;> rw [hps] at h
      · injection h with h'
        injection h' with h1 h2
        rw [hs a b hps, h1, append_cancel_right h2]
      · cases h
    | ok ar =>
      obtain ⟨x, s'⟩ := ar
      rw [hps] at h
      dsimp only at h
      have hrs' := suff_accumulate_n hsf n s' (f init x) acc (r ++ b) h
      have hlen : b.length ≤ s'.length := by
        have := suffix_length_le hrs'
        simp at this
        omega
      have hss : s' <:+ (a ++ b) := hsf _ x s' hps
      obtain ⟨m, hm, hma⟩ := suffix_split hss hlen
      rw [hm] at hps h
      rw [hp a b x m hps]
      dsimp only
      exact ih h

end CxP

namespace JSONM

open CxP

theorem sccp_quote (xs : Input) : stringCharCountP (ch '"' :: xs) = .error .soft := rfl

theorem b1_bslash_u (xs : Input) :
    fmap (fun _ => (1 : Nat)) (alt escapedCharP (none_of [ch '\\', ch '"']))
      (ch '\\' :: ch 'u' :: xs) = .error .soft := rfl

theorem never_hard_specialCharP : NeverHardP specialCharP :=
  never_hard_alt (never_hard_char _)
    (never_hard_alt (never_hard_char _)
    (never_hard_alt (never_hard_char _)
    (never_hard_alt (never_hard_char _)
    (never_hard_alt (never_hard_char _)
    (never_hard_alt (never_hard_char _)
    (never_hard_alt (never_hard_char _) (never_hard_char _)))))))

theorem never_hard_escapedCharP : NeverHardP escapedCharP :=
  never_hard_fmap (never_hard_combine (never_hard_char _) never_hard_specialCharP)

theorem never_hard_unicodePointCountP : NeverHardP unicodePointCountP :=
  never_hard_fmap (never_hard_combine (never_hard_char _)
    (never_hard_combine (never_hard_char _)
      (never_hard_exactly_n (never_hard_one_of _) 4 0 hexStep)))

theorem never_hard_sccp : NeverHardP stringCharCountP :=
  never_hard_alt
    (never_hard_fmap (never_hard_alt never_hard_escapedCharP (never_hard_none_of _)))
    never_hard_unicodePointCountP

theorem consumes_escapedCharP : ConsumesP escapedCharP :=
  consumes_fmap (consumes_combine_left (consumes_char _) suff_specialCharP)

theorem consumes_unicodePointCountP : ConsumesP unicodePointCountP :=
  consumes_fmap (consumes_combine_left (consumes_char _)
    (suff_combine (suff_char _) (suff_exactly_n (suff_one_of _))))

theorem consumes_sccp : ConsumesP stringCharCountP :=
  consumes_alt
    (consumes_fmap (consumes_alt consumes_escapedCharP (consumes_none_of _)))
    consumes_unicodePointCountP

theorem sloc_specialCharP : SLocP specialCharP :=
  sloc_alt (sloc_char _)
    (sloc_alt (sloc_char _)
    (sloc_alt (sloc_char _)
    (sloc_alt (sloc_char _)
    (sloc_alt (sloc_char _)
    (sloc_alt (sloc_char _)
    (sloc_alt (sloc_char _) (sloc_char _)))))))

theorem sloc_escapedCharP : SLocP escapedCharP := by
  intro a b h
  have h' : (combine (make_char_p (ch '\\')) specialCharP (fun _ y => y)) (a ++ b) =
      .error .soft := fmap_err.mp h
  exact fmap_err.mpr (sloc_combine_char sloc_specialCharP a b h')

theorem ext_specialCharP : ExtP specialCharP := by
  refine ext_alt (ext_char _) (se_char _) ?_ (consumes_alt (consumes_char _)
    (consumes_alt (consumes_char _) (consumes_alt (consumes_char _)
    (consumes_alt (consumes_char _) (consumes_alt (consumes_char _)
    (consumes_alt (consumes_char _) (consumes_char _)))))))
  refine ext_alt (ext_char _) (se_char _) ?_ (consumes_alt (consumes_char _)
    (consumes_alt (consumes_char _) (consumes_alt (consumes_char _)
    (consumes_alt (consumes_char _) (consumes_alt (consumes_char _)
    (consumes_char _))))))
  refine ext_alt (ext_char _) (se_char _) ?_ (consumes_alt (consumes_char _)
    (consumes_alt (consumes_char _) (consumes_alt (consumes_char _)
    (consumes_alt (consumes_char _) (consumes_char _)))))
  refine ext_alt (ext_char _) (se_char _) ?_ (consumes_alt (consumes_char _)
    (consumes_alt (consumes_char _) (consumes_alt (consumes_char _)
    (consumes_char _))))
  refine ext_alt (ext_char _) (se_char _) ?_ (consumes_alt (consumes_char _)
    (consumes_alt (consumes_char _) (consumes_char _)))
  refine ext_alt (ext_char _) (se_char _) ?_ (consumes_alt (consumes_char _)
    (consumes_char _))
  exact ext_alt (ext_char _) (se_char _) (ext_char _) (consumes_char _)

theorem ext_escapedCharP : ExtP escapedCharP :=
  ext_fmap (ext_combine (ext_char _) ext_specialCharP)

theorem ext_b1 : ExtP (alt escapedCharP (none_of [ch '\\', ch '"'])) := by
  intro a b x m h
  rcases alt_ok h with h' | ⟨hsoft, h'⟩
  · exact alt_ok_intro1 (ext_escapedCharP a b x m h')
  · refine alt_ok_intro2 ?_ (ext_none_of _ a b x m h')
    cases a with
    | nil => cases h'
    | cons c ys =>
      by_cases hc : c ∈ [ch '\\', ch '"']
      · simp [none_of, hc] at h'
      · have hc92 : ¬ c = ch '\\' := by
          intro he
          exact hc (by rw [he]; exact List.mem_cons_self _ _)
        exact fmap_err.mpr (combine_err_intro1
          (show make_char_p (ch '\\') (c :: (ys ++ b)) = .error .soft by
            simp [make_char_p, hc92]))

theorem qext_unicodePointCountP : QExtP unicodePointCountP :=
  qext_fmap (qext_combine_extleft (ext_char _)
    (qext_combine_extleft (ext_char _)
      (fun a b x m h hm => qext_acc_n (suff_one_of _) (ext_one_of _) (se_one_of _) h hm b)))

theorem qext_sccp : QExtP stringCharCountP := by
  intro a b x m h hm
  rcases alt_ok h with h' | ⟨hsoft, h'⟩
  · exact alt_ok_intro1 (ext_fmap ext_b1 a b x m h')
  · refine alt_ok_intro2 ?_ (qext_unicodePointCountP a b x m h' hm)
    obtain ⟨y, hy, _⟩ := fmap_ok h'
    obtain ⟨x1, r1, x2, h1, h2, _⟩ := combine_ok hy
    obtain ⟨ha, _⟩ := char_ok h1
    obtain ⟨x3, r3, x4, h3, h4, _⟩ := combine_ok h2
    obtain ⟨hr1, _⟩ := char_ok h3
    rw [ha, hr1]
    exact b1_bslash_u (r3 ++ b)

end JSONM

namespace JSONM

open CxP

theorem ploc_specialCharP : PLocP specialCharP :=
  ploc_alt (ploc_char _) (sloc_char _)
    (ploc_alt (ploc_char _) (sloc_char _)
    (ploc_alt (ploc_char _) (sloc_char _)
    (ploc_alt (ploc_char _) (sloc_char _)
    (ploc_alt (ploc_char _) (sloc_char _)
    (ploc_alt (ploc_char _) (sloc_char _)
    (ploc_alt (ploc_char _) (sloc_char _) (ploc_char _)))))))

theorem ploc_escapedCharP : PLocP escapedCharP :=
  ploc_fmap (ploc_combine (suff_char _) suff_specialCharP (ploc_char _)
    ploc_specialCharP)

theorem ploc_exactly_n_hex :
    PLocP (exactly_n (one_of hexChars) 4 0 hexStep) := by
  intro a b x r h
  exact acc_n_ploc (suff_one_of _) (ploc_one_of _) (sloc_one_of _) h

theorem ploc_unicodePointCountP : PLocP unicodePointCountP :=
  ploc_fmap (ploc_combine (suff_char _)
    (suff_combine (suff_char _) (suff_exactly_n (suff_one_of _)))
    (ploc_char _)
    (ploc_combine (suff_char _) (suff_exactly_n (suff_one_of _)) (ploc_char _)
      ploc_exactly_n_hex))

theorem sloc_b1 :
    SLocP (fmap (fun _ => (1 : Nat)) (alt escapedCharP (none_of [ch '\\', ch '"']))) :=
  sloc_fmap (sloc_alt sloc_escapedCharP (sloc_none_of _))

theorem ploc_sccp : PLocP stringCharCountP :=
  ploc_alt (ploc_fmap (ploc_alt ploc_escapedCharP sloc_escapedCharP (ploc_none_of _)))
    sloc_b1 ploc_unicodePointCountP

theorem sloc_unicodePointCountP : SLocP unicodePointCountP := by
  intro a b h
  have h' := fmap_err.mp h
  refine fmap_err.mpr ?_
  refine sloc_combine_char ?_ a b h'
  intro a2 b2 h2
  exact sloc_combine_char
    (sloc_of_never_soft (exactly_n_never_soft (one_of hexChars) 4 0 hexStep)) a2 b2 h2

theorem sloc_sccp : SLocP stringCharCountP :=
  sloc_alt sloc_b1 sloc_unicodePointCountP

theorem ploc_many_sccp (init : Nat) (f : Nat → Nat → Nat) :
    PLocP (many stringCharCountP init f) := by
  intro a b x r h
  unfold many at h ⊢
  exact acc_ploc consumes_sccp suff_stringCharCountP ploc_sccp sloc_sccp
    (a ++ b).length a b init x r (Nat.le_refl _) h

end JSONM

namespace JSONM

open CxP

theorem ploc_stringSizeP : PLocP stringSizeP := by
  unfold stringSizeP seqFst seqSnd
  exact ploc_combine (suff_combine (suff_char _) (suff_many suff_stringCharCountP))
    (suff_char _)
    (ploc_combine (suff_char _) (suff_many suff_stringCharCountP) (ploc_char _)
      (ploc_many_sccp 0 (fun a b => a + b)))
    (ploc_char _)

theorem sloc_stringSizeP : SLocP stringSizeP := by
  intro a b h
  cases a with
  | nil => rfl
  | cons c a2 =>
    unfold stringSizeP seqFst seqSnd at h ⊢
    rcases combine_err h with hin | ⟨n, r2, hin, hcl⟩
    · exact combine_err_intro1
        (sloc_combine_char (sloc_of_never_soft (many_never_soft _ _ _)) _ b hin)
    · obtain ⟨q, r0, nv, hch, hmany, hn⟩ := combine_ok hin
      obtain ⟨hshape, hq⟩ := char_ok hch
      rw [show (c :: a2) ++ b = c :: (a2 ++ b) from rfl] at hshape
      injection hshape with hc hr0
      subst hc
      rw [← hr0] at hmany
      obtain ⟨n', r2'', hmany2⟩ := many_total never_hard_sccp a2
      have hstop2 : r2'' = [] ∨ stringCharCountP r2'' = .error .soft := by
        unfold many at hmany2
        exact acc_stop consumes_sccp (Nat.le_refl _) hmany2
      have hchA : make_char_p (ch '"') (ch '"' :: a2) = .ok (ch '"', a2) := by
        simp [make_char_p]
      cases hr2 : r2'' with
      | nil =>
        rw [hr2] at hmany2
        exact combine_err_intro2 (combine_ok_intro hchA hmany2)
          (show make_char_p (ch '"') [] = .error .soft from rfl)
      | cons d t =>
        by_cases hd : d = ch '"'
        · exfalso
          rw [hr2] at hmany2 hstop2
          have hstopall : ∀ b', stringCharCountP ((d :: t) ++ b') = .error .soft := by
            intro b'
            rw [hd]
            exact sccp_quote (t ++ b')
          have hpara : accumulate_parse stringCharCountP (fun a b => a + b)
              (a2 ++ b).length (a2 ++ b) 0 = .ok (n', (d :: t) ++ b) := by
            unfold many at hmany2
            exact acc_para suff_stringCharCountP consumes_sccp qext_sccp
              (Nat.le_refl _) hmany2 (by simp) hstopall
          unfold many at hmany
          rw [hmany] at hpara
          injection hpara with hpara'
          injection hpara' with _ hreq
          rw [hreq, hd] at hcl
          simp [make_char_p] at hcl
        · rw [hr2] at hmany2
          refine combine_err_intro2 (combine_ok_intro hchA hmany2) ?_
          simp [make_char_p, hd]

end JSONM

namespace JSONM

open CxP

theorem ws_never_soft : NeverSoftP skip_whitespace := by
  intro s h
  rw [ws_eq] at h
  cases h

theorem ws_never_hard : NeverHardP skip_whitespace := by
  intro s h
  rw [ws_eq] at h
  cases h

theorem ploc_ws : PLocP skip_whitespace := by
  intro a b x r h
  rw [ws_eq] at h ⊢
  rw [List.dropWhile_append] at h
  injection h with h'
  injection h' with _ h2
  by_cases he : (a.dropWhile isWSb).isEmpty
  · rw [if_pos he] at h2
    have hde : a.dropWhile isWSb = [] := by simpa using he
    have hsuf : b.dropWhile isWSb <:+ b := List.dropWhile_suffix isWSb
    have hlen := suffix_length_le hsuf
    have hlen2 := congrArg List.length h2
    simp at hlen2
    have hr : r = [] := by
      cases r with
      | nil => rfl
      | cons c cs => simp at hlen2; omega
    rw [hde, hr]
  · rw [if_neg he] at h2
    rw [append_cancel_right h2]

theorem qext_ws : QExtP skip_whitespace := by
  intro a b x m h hm
  rw [ws_eq] at h ⊢
  injection h with h'
  injection h' with h1 h2
  rw [List.dropWhile_append]
  have hne : ¬ (a.dropWhile isWSb).isEmpty := by
    rw [h2]
    cases m with
    | nil => exact absurd rfl hm
    | cons c cs => simp
  rw [if_neg hne, h2]

end JSONM

namespace CxP

theorem qext_combine {α β γ} {p1 : Parser α} {p2 : Parser β} {f : α → β → γ}
    (hsf2 : SuffP p2) (h1 : QExtP p1) (h2 : QExtP p2) : QExtP (combine p1 p2 f) := by
  intro a b x m h hm
  obtain ⟨x1, r1, x2, hx1, hx2, hx⟩ := combine_ok h
  have hr1 : r1 ≠ [] := by
    intro hnil
    rw [hnil] at hx2
    have := suffix_length_le (hsf2 [] x2 m hx2)
    simp at this
    exact hm (by cases m with
      | nil => rfl
      | cons c cs => simp at this)
  rw [hx]
  exact combine_ok_intro (h1 a b x1 r1 hx1 hr1) (h2 r1 b x2 m hx2 hm)

theorem consumes_string_nonempty {c : Nat} {cs : List Nat} :
    ConsumesP (make_string_p (c :: cs)) := by
  intro s x r h
  unfold make_string_p at h
  cases hm : matchLit (c :: cs) s with
  | none => rw [hm] at h; cases h
  | some rest =>
    rw [hm] at h
    injection h with h'
    injection h' with _ h2
    cases s with
    | nil => simp [matchLit] at hm
    | cons y ys =>
      by_cases hy : y = c
      · simp [matchLit, hy] at hm
        have hsub : rest <:+ ys := matchLit_suffix cs ys rest hm
        have := suffix_length_le hsub
        rw [← h2]
        simp
        omega
      · simp [matchLit, hy] at hm

theorem never_hard_many {α β} {p : Parser α} {init : β} {f : β → α → β}
    (hnh : NeverHardP p) : NeverHardP (many p init f) := by
  intro s h
  obtain ⟨acc, r, hok⟩ := many_total hnh s
  rw [hok] at h
  cases h

end CxP

namespace JSONM

open CxP

theorem never_hard_stringSizeP : NeverHardP stringSizeP :=
  never_hard_combine
    (never_hard_combine (never_hard_char _) (never_hard_many never_hard_sccp))
    (never_hard_char _)

theorem consumes_stringSizeP : ConsumesP stringSizeP :=
  consumes_combine_left
    (consumes_combine_left (consumes_char _) (suff_many suff_stringCharCountP))
    (suff_char _)

theorem ext_stringSizeP : ExtP stringSizeP := by
  intro a b x m h
  obtain ⟨n1, r1, q2, hin, hcl, hx⟩ := combine_ok h
  obtain ⟨q1, r0, nv, hch, hmany, hn⟩ := combine_ok hin
  obtain ⟨ha, hq1⟩ := char_ok hch
  obtain ⟨hr1, hq2'⟩ := char_ok hcl
  have hstopall : ∀ b', stringCharCountP (r1 ++ b') = .error .soft := by
    intro b'
    rw [hr1]
    exact sccp_quote (m ++ b')
  have hane : a = ch '"' :: r0 := ha
  have hpara : accumulate_parse stringCharCountP (fun a b => a + b)
      (r0 ++ b).length (r0 ++ b) 0 = .ok (nv, r1 ++ b) := by
    unfold many at hmany
    exact acc_para suff_stringCharCountP consumes_sccp qext_sccp
      (Nat.le_refl _) hmany (by rw [hr1]; simp) hstopall
  rw [hane, hx, hn]
  have hchb : make_char_p (ch '"') (ch '"' :: (r0 ++ b)) = .ok (ch '"', r0 ++ b) := by
    simp [make_char_p]
  have hmanyb : many stringCharCountP 0 (fun a b => a + b) (r0 ++ b) =
      .ok (nv, r1 ++ b) := by
    unfold many
    exact hpara
  have hclb : make_char_p (ch '"') (r1 ++ b) = .ok (ch '"', m ++ b) := by
    rw [hr1]
    simp [make_char_p]
  exact combine_ok_intro (combine_ok_intro hchb hmanyb) hclb

end JSONM

namespace CxP

theorem sloc_combine_gen {α β γ} {p1 : Parser α} {p2 : Parser β} {f : α → β → γ}
    (hsf1 : SuffP p1) (hs1 : SLocP p1) (hp1 : PLocP p1) (hq1 : QExtP p1)
    (hnh1 : NeverHardP p1) (hs2 : SLocP p2) (hnil2 : p2 [] = .error .soft) :
    SLocP (combine p1 p2 f) := by
  intro a b h
  rcases combine_err h with hs | ⟨x, r1, hok, hsoft⟩
  · exact combine_err_intro1 (hs1 a b hs)
  · by_cases hlen : b.length ≤ r1.length
    · obtain ⟨m, hm, _⟩ := suffix_split (hsf1 _ _ _ hok) hlen
      rw [hm] at hok hsoft
      exact combine_err_intro2 (hp1 a b x m hok) (hs2 m b hsoft)
    · cases hpa : p1 a with
      | error e =>
        cases e
        · exact combine_err_intro1 hpa
        · exact absurd hpa (hnh1 a)
      | ok yr =>
        obtain ⟨y, m⟩ := yr
        cases hmn : m with
        | nil =>
          rw [hmn] at hpa
          exact combine_err_intro2 hpa hnil2
        | cons d t =>
          exfalso
          rw [hmn] at hpa
          have hext := hq1 a b y (d :: t) hpa (by simp)
          rw [hok] at hext
          injection hext with hext'
          injection hext' with _ h2
          rw [h2] at hlen
          simp at hlen
          omega

theorem sloc_bindP_gen {α β} {p : Parser α} {k : α → Input → PResult β}
    (hsf1 : SuffP p) (hs1 : SLocP p) (hp1 : PLocP p) (hq1 : QExtP p)
    (hnh1 : NeverHardP p) (hs2 : ∀ x, SLocP (fun sv => k x sv))
    (hnil2 : ∀ x, k x [] = .error .soft) :
    SLocP (bindP p k) := by
  intro a b h
  rcases bindP_err h with hs | ⟨x, r1, hok, hsoft⟩
  · exact bindP_err_intro1 (hs1 a b hs)
  · by_cases hlen : b.length ≤ r1.length
    · obtain ⟨m, hm, _⟩ := suffix_split (hsf1 _ _ _ hok) hlen
      rw [hm] at hok hsoft
      have := hs2 x m b hsoft
      unfold bindP
      rw [hp1 a b x m hok]
      exact this
    · cases hpa : p a with
      | error e =>
        cases e
        · exact bindP_err_intro1 hpa
        · exact absurd hpa (hnh1 a)
      | ok yr =>
        obtain ⟨y, m⟩ := yr
        cases hmn : m with
        | nil =>
          rw [hmn] at hpa
          unfold bindP
          rw [hpa]
          exact hnil2 y
        | cons d t =>
          exfalso
          rw [hmn] at hpa
          have hext := hq1 a b y (d :: t) hpa (by simp)
          rw [hok] at hext
          injection hext with hext'
          injection hext' with _ h2
          rw [h2] at hlen
          simp at hlen
          omega

theorem ploc_bindP {α β} {p : Parser α} {k : α → Input → PResult β}
    (hsf1 : SuffP p) (hsf2 : ∀ x, SuffP (fun sv => k x sv))
    (hp1 : PLocP p) (hp2 : ∀ x, PLocP (fun sv => k x sv)) :
    PLocP (bindP p k) := by
  intro a b x r h
  obtain ⟨y, r1, h1, h2⟩ := bindP_ok h
  have hlen : b.length ≤ r1.length := by
    have := suffix_length_le (hsf2 y r1 x (r ++ b) h2)
    simp at this
    omega
  obtain ⟨m, hm, _⟩ := suffix_split (hsf1 _ _ _ h1) hlen
  rw [hm] at h1 h2
  exact bindP_ok_intro (hp1 a b y m h1) (hp2 y m b x r h2)

theorem ploc_sep {α β γ} {p1 : Parser α} {p2 : Parser γ} {init : β} {f : β → α → β}
    (hsf1 : SuffP p1) (hs1 : SLocP p1) (hp1 : PLocP p1)
    (hsfe : SuffP (seqSnd p2 p1)) (hce : ConsumesP (seqSnd p2 p1))
    (hpe : PLocP (seqSnd p2 p1)) (hse : SLocP (seqSnd p2 p1)) :
    PLocP (separated_by_val p1 p2 init f) := by
  intro a b x r h
  unfold separated_by_val at h ⊢
  cases hpa : p1 (a ++ b) with
  | error e =>
    cases e <;> rw [hpa] at h
    · injection h with h'
      injection h' with h1 h2
      rw [hs1 a b hpa, h1, append_cancel_right h2]
    · cases h
  | ok ar =>
    obtain ⟨y, s1⟩ := ar
    rw [hpa] at h
    dsimp only at h
    have hrs := suff_accumulate hsfe s1.length s1 (f init y) x (r ++ b) h
    have hlen : b.length ≤ s1.length := by
      have := suffix_length_le hrs
      simp at this
      omega
    obtain ⟨m, hm, hma⟩ := suffix_split (hsf1 _ _ _ hpa) hlen
    rw [hm] at hpa h
    rw [hp1 a b y m hpa]
    dsimp only
    exact acc_ploc hce hsfe hpe hse (m ++ b).length m b (f init y) x r
      (Nat.le_refl _) h

end CxP

namespace CxP

theorem alt_never_soft_right {α} {p1 p2 : Parser α} (h2 : NeverSoftP p2) :
    NeverSoftP (alt p1 p2) := by
  intro s h
  rcases alt_err h with ⟨_, he⟩ | ⟨_, hh⟩
  · cases he
  · exact h2 s hh

theorem ploc_many {α β} {p : Parser α} {init : β} {f : β → α → β}
    (hc : ConsumesP p) (hsf : SuffP p) (hp : PLocP p) (hs : SLocP p) :
    PLocP (many p init f) := by
  intro a b x r h
  unfold many at h ⊢
  exact acc_ploc hc hsf hp hs (a ++ b).length a b init x r (Nat.le_refl _) h

theorem ploc_many1 {α β} {p : Parser α} {init : β} {f : β → α → β}
    (hc : ConsumesP p) (hsf : SuffP p) (hp : PLocP p) (hs : SLocP p) :
    PLocP (many1 p init f) := by
  intro a b x r h
  unfold many1 at h ⊢
  cases hpa : p (a ++ b) with
  | error e =>
    rw [hpa] at h
    dsimp only at h
    cases h
  | ok ar =>
    obtain ⟨y, s1⟩ := ar
    rw [hpa] at h
    dsimp only at h
    have hrs := suff_accumulate hsf s1.length s1 (f init y) x (r ++ b) h
    have hlen : b.length ≤ s1.length := by
      have := suffix_length_le hrs
      simp at this
      omega
    obtain ⟨m, hm, _⟩ := suffix_split (hsf _ _ _ hpa) hlen
    rw [hm] at hpa h
    rw [hp a b y m hpa]
    dsimp only
    exact acc_ploc hc hsf hp hs (m ++ b).length m b (f init y) x r (Nat.le_refl _) h

end CxP

namespace JSONM

open CxP

theorem ploc_int0P : PLocP int0P :=
  ploc_many1 (consumes_one_of _) (suff_one_of _) (ploc_one_of _) (sloc_one_of _)

theorem ploc_int1P : PLocP int1P :=
  ploc_bindP (suff_one_of _) (fun _ => suff_many (suff_one_of _)) (ploc_one_of _)
    (fun _ => ploc_many (consumes_one_of _) (suff_one_of _) (ploc_one_of _)
      (sloc_one_of _))

theorem ploc_negP : PLocP negP :=
  ploc_option (ploc_char _) (sloc_char _)

theorem ploc_integralP : PLocP integralP :=
  ploc_combine suff_negP (suff_alt (suff_fmap (suff_char _)) suff_int1)
    ploc_negP
    (ploc_alt (ploc_fmap (ploc_char _)) (sloc_fmap (sloc_char _)) ploc_int1P)

theorem ploc_fracP : PLocP fracP :=
  ploc_combine (suff_char _) suff_int0 (ploc_char _) ploc_int0P

theorem sloc_fracP : SLocP fracP :=
  sloc_combine_char sloc_int0P

theorem ploc_mantissaP : PLocP mantissaP :=
  ploc_combine suff_integralP (suff_option suff_fracP) ploc_integralP
    (ploc_option ploc_fracP sloc_fracP)

theorem qext_eAlt2 : QExtP (alt (make_char_p (ch '+')) negP) := by
  intro a b x m h hm
  rcases alt_ok h with h' | ⟨hsoft, h'⟩
  · obtain ⟨ha, hx⟩ := char_ok h'
    rw [ha, hx]
    exact alt_ok_intro1 (by simp [make_char_p])
  · cases a with
    | nil =>
      rcases option_ok h' with h'' | ⟨h'', hdr⟩
      · cases h''
      · injection hdr with _ h2
        rw [← h2] at hm
        exact absurd rfl hm
    | cons c a2 =>
      have hcp : ¬ c = ch '+' := by
        intro he
        rw [he] at hsoft
        simp [make_char_p] at hsoft
      refine alt_ok_intro2 (by simp [make_char_p, hcp]) ?_
      rcases option_ok h' with h'' | ⟨h'', hdr⟩
      · obtain ⟨ha, hx⟩ := char_ok h''
        injection ha with hc ha2
        rw [hx, hc]
        refine option_ok_intro1 ?_
        rw [← ha2]
        simp [make_char_p]
      · injection hdr with hx h2
        have hcm : ¬ c = ch '-' := by
          intro he
          rw [he] at h''
          simp [make_char_p] at h''
        rw [hx, h2]
        exact option_ok_intro2 (by simp [make_char_p, hcm])

theorem sloc_exp_head :
    SLocP (seqSnd (alt (make_char_p (ch 'e')) (make_char_p (ch 'E')))
      (alt (make_char_p (ch '+')) negP)) :=
  sloc_combine_left (sloc_alt (sloc_char _) (sloc_char _))
    (alt_never_soft_right (option_never_soft _ _))

theorem ploc_exp_head :
    PLocP (seqSnd (alt (make_char_p (ch 'e')) (make_char_p (ch 'E')))
      (alt (make_char_p (ch '+')) negP)) :=
  ploc_combine (suff_alt (suff_char _) (suff_char _))
    (suff_alt (suff_char _) suff_negP)
    (ploc_alt (ploc_char _) (sloc_char _) (ploc_char _))
    (ploc_alt (ploc_char _) (sloc_char _) ploc_negP)

theorem qext_exp_head :
    QExtP (seqSnd (alt (make_char_p (ch 'e')) (make_char_p (ch 'E')))
      (alt (make_char_p (ch '+')) negP)) :=
  qext_combine (suff_alt (suff_char _) suff_negP)
    (qext_of_ext (ext_alt (ext_char _) (se_char _) (ext_char _) (consumes_char _)))
    qext_eAlt2

theorem nh_exp_head :
    NeverHardP (seqSnd (alt (make_char_p (ch 'e')) (make_char_p (ch 'E')))
      (alt (make_char_p (ch '+')) negP)) :=
  never_hard_combine (never_hard_alt (never_hard_char _) (never_hard_char _))
    (never_hard_alt (never_hard_char _)
      (fun s h => by
        rcases option_err h with ⟨hh, _⟩
        exact never_hard_char _ s hh))

theorem sloc_exponentP : SLocP exponentP :=
  sloc_bindP_gen
    (suff_combine (suff_alt (suff_char _) (suff_char _))
      (suff_alt (suff_char _) suff_negP))
    sloc_exp_head ploc_exp_head qext_exp_head nh_exp_head
    (fun _ => sloc_fmap sloc_int0P)
    (fun _ => rfl)

theorem ploc_exponentP : PLocP exponentP :=
  ploc_bindP
    (suff_combine (suff_alt (suff_char _) (suff_char _))
      (suff_alt (suff_char _) suff_negP))
    (fun _ => suff_fmap suff_int0)
    ploc_exp_head
    (fun _ => ploc_fmap ploc_int0P)

theorem ploc_numberP : PLocP numberP :=
  ploc_combine suff_mantissaP (suff_option suff_exponentP) ploc_mantissaP
    (ploc_option ploc_exponentP sloc_exponentP)

end JSONM

namespace CxP

theorem consumes_bindP {α β} {p : Parser α} {k : α → Input → PResult β}
    (hc1 : ConsumesP p) (hsf2 : ∀ x, SuffP (fun sv => k x sv)) :
    ConsumesP (bindP p k) := by
  intro s x r h
  obtain ⟨y, r1, h1, h2⟩ := bindP_ok h
  have := suffix_length_le (hsf2 y r1 x r h2)
  have := hc1 s y r1 h1
  omega

theorem ploc_failHard {α} : PLocP (failHardP : Parser α) := by
  intro a b x r h
  cases h

end CxP

namespace JSONM

open CxP

theorem consumes_int1P : ConsumesP int1P :=
  consumes_bindP (consumes_one_of _) (fun _ => suff_many (suff_one_of _))

theorem consumes_integralP : ConsumesP integralP :=
  consumes_combine_right suff_negP
    (consumes_alt (consumes_fmap (consumes_char _)) consumes_int1P)

theorem consumes_numberP : ConsumesP numberP :=
  consumes_combine_left
    (consumes_combine_left consumes_integralP (suff_option suff_fracP))
    (suff_option suff_exponentP)

theorem consumes_sizesScalarP : ConsumesP sizesScalarP :=
  consumes_alt
    (consumes_fmap (consumes_alt consumes_string_nonempty
      (consumes_alt consumes_string_nonempty consumes_string_nonempty)))
    (consumes_alt (consumes_fmap consumes_numberP)
      (consumes_fmap consumes_stringSizeP))

theorem consumes_sizesArrayP {val : Parser Sizes} (hval : SuffP val) :
    ConsumesP (sizesArrayP val) :=
  consumes_combine_left
    (consumes_combine_left
      (consumes_combine_left (consumes_char _)
        (suff_sep hval (suff_combine suff_ws (suff_char _))))
      suff_ws)
    (suff_alt (suff_char _) suff_failHard)

theorem consumes_sizesKeyValueP {val : Parser Sizes} (hval : SuffP val) :
    ConsumesP (sizesKeyValueP val) :=
  consumes_bindP
    (consumes_combine_left
      (consumes_combine_left
        (consumes_combine_right suff_ws consumes_stringSizeP) suff_ws)
      (suff_char _))
    (fun _ => suff_fmap hval)

theorem consumes_sizesObjectP {val : Parser Sizes} (hval : SuffP val) :
    ConsumesP (sizesObjectP val) :=
  consumes_combine_left
    (consumes_combine_left
      (consumes_combine_left (consumes_char _)
        (suff_sep (suff_sizesKeyValueP hval) (suff_combine suff_ws (suff_char _))))
      suff_ws)
    (suff_alt (suff_char _) suff_failHard)

theorem consumes_sizesValueP : ∀ k, ConsumesP (sizesValueP k) := by
  intro k
  cases k with
  | zero =>
    intro s x r h
    cases h
  | succ k =>
    exact consumes_combine_right suff_ws
      (consumes_alt consumes_sizesScalarP
        (consumes_alt (consumes_sizesArrayP (suff_sizesValueP k))
          (consumes_sizesObjectP (suff_sizesValueP k))))

theorem sloc_sizesScalarP : SLocP sizesScalarP :=
  sloc_alt
    (sloc_fmap (sloc_alt (sloc_string _) (sloc_alt (sloc_string _) (sloc_string _))))
    (sloc_alt (sloc_fmap sloc_numberP) (sloc_fmap sloc_stringSizeP))

theorem ploc_sizesScalarP : PLocP sizesScalarP :=
  ploc_alt
    (ploc_fmap (ploc_alt (ploc_string _) (sloc_string _)
      (ploc_alt (ploc_string _) (sloc_string _) (ploc_string _))))
    (sloc_fmap (sloc_alt (sloc_string _) (sloc_alt (sloc_string _) (sloc_string _))))
    (ploc_alt (ploc_fmap ploc_numberP) (sloc_fmap sloc_numberP)
      (ploc_fmap ploc_stringSizeP))

theorem sloc_sizesArrayP {val : Parser Sizes} : SLocP (sizesArrayP val) :=
  sloc_combine_left
    (sloc_combine_left
      (sloc_combine_left (sloc_char _) (sep_never_soft _ _ _ _))
      ws_never_soft)
    (altFailHard_never_soft _)

theorem sloc_sizesObjectP {val : Parser Sizes} : SLocP (sizesObjectP val) :=
  sloc_combine_left
    (sloc_combine_left
      (sloc_combine_left (sloc_char _) (sep_never_soft _ _ _ _))
      ws_never_soft)
    (altFailHard_never_soft _)

end JSONM

namespace JSONM

open CxP

theorem sloc_kvhead_inner : SLocP (seqSnd skip_whitespace stringSizeP) :=
  sloc_ws_seq sloc_stringSizeP rfl

theorem ploc_kvhead_inner : PLocP (seqSnd skip_whitespace stringSizeP) :=
  ploc_ws_seq ploc_stringSizeP suff_stringSizeP consumes_stringSizeP

theorem qext_kvhead_inner : QExtP (seqSnd skip_whitespace stringSizeP) :=
  qext_combine suff_stringSizeP qext_ws (qext_of_ext ext_stringSizeP)

theorem suff_kvhead2 :
    SuffP (seqFst (seqSnd skip_whitespace stringSizeP) skip_whitespace) :=
  suff_combine (suff_combine suff_ws suff_stringSizeP) suff_ws

theorem sloc_kvhead2 :
    SLocP (seqFst (seqSnd skip_whitespace stringSizeP) skip_whitespace) :=
  sloc_combine_left sloc_kvhead_inner ws_never_soft

theorem ploc_kvhead2 :
    PLocP (seqFst (seqSnd skip_whitespace stringSizeP) skip_whitespace) :=
  ploc_combine (suff_combine suff_ws suff_stringSizeP) suff_ws
    ploc_kvhead_inner ploc_ws

theorem qext_kvhead2 :
    QExtP (seqFst (seqSnd skip_whitespace stringSizeP) skip_whitespace) :=
  qext_combine suff_ws qext_kvhead_inner qext_ws

theorem nh_kvhead2 :
    NeverHardP (seqFst (seqSnd skip_whitespace stringSizeP) skip_whitespace) :=
  never_hard_combine (never_hard_combine ws_never_hard never_hard_stringSizeP)
    ws_never_hard

theorem suff_kvhead :
    SuffP (seqFst (seqFst (seqSnd skip_whitespace stringSizeP) skip_whitespace)
      (make_char_p (ch ':'))) :=
  suff_combine suff_kvhead2 (suff_char _)

theorem sloc_kvhead :
    SLocP (seqFst (seqFst (seqSnd skip_whitespace stringSizeP) skip_whitespace)
      (make_char_p (ch ':'))) :=
  sloc_combine_gen suff_kvhead2 sloc_kvhead2 ploc_kvhead2 qext_kvhead2 nh_kvhead2
    (sloc_char _) rfl

theorem ploc_kvhead :
    PLocP (seqFst (seqFst (seqSnd skip_whitespace stringSizeP) skip_whitespace)
      (make_char_p (ch ':'))) :=
  ploc_combine suff_kvhead2 (suff_char _) ploc_kvhead2 (ploc_char _)

theorem qext_kvhead :
    QExtP (seqFst (seqFst (seqSnd skip_whitespace stringSizeP) skip_whitespace)
      (make_char_p (ch ':'))) :=
  qext_combine (suff_char _) qext_kvhead2 (qext_of_ext (ext_char _))

theorem nh_kvhead :
    NeverHardP (seqFst (seqFst (seqSnd skip_whitespace stringSizeP) skip_whitespace)
      (make_char_p (ch ':'))) :=
  never_hard_combine nh_kvhead2 (never_hard_char _)

theorem sloc_sizesKeyValueP {val : Parser Sizes} (hvs : SLocP val)
    (hvnil : val [] = .error .soft) : SLocP (sizesKeyValueP val) :=
  sloc_bindP_gen suff_kvhead sloc_kvhead ploc_kvhead qext_kvhead nh_kvhead
    (fun _ => sloc_fmap hvs)
    (fun _ => fmap_err.mpr hvnil)

theorem ploc_sizesKeyValueP {val : Parser Sizes} (hvsf : SuffP val)
    (hvp : PLocP val) : PLocP (sizesKeyValueP val) :=
  ploc_bindP suff_kvhead (fun _ => suff_fmap hvsf) ploc_kvhead
    (fun _ => ploc_fmap hvp)

theorem sloc_sepSep : SLocP (seqSnd skip_whitespace (make_char_p (ch ','))) :=
  sloc_ws_seq (sloc_char _) rfl

theorem ploc_sepSep : PLocP (seqSnd skip_whitespace (make_char_p (ch ','))) :=
  ploc_ws_seq (ploc_char _) (suff_char _) (consumes_char _)

theorem qext_sepSep : QExtP (seqSnd skip_whitespace (make_char_p (ch ','))) :=
  qext_combine (suff_char _) qext_ws (qext_of_ext (ext_char _))

theorem nh_sepSep : NeverHardP (seqSnd skip_whitespace (make_char_p (ch ','))) :=
  never_hard_combine ws_never_hard (never_hard_char _)

theorem elem_props {val : Parser Sizes} (hvsf : SuffP val) (hvc : ConsumesP val)
    (hvp : PLocP val) (hvs : SLocP val) (hvnil : val [] = .error .soft) :
    SuffP (seqSnd (seqSnd skip_whitespace (make_char_p (ch ','))) val) ∧
    ConsumesP (seqSnd (seqSnd skip_whitespace (make_char_p (ch ','))) val) ∧
    PLocP (seqSnd (seqSnd skip_whitespace (make_char_p (ch ','))) val) ∧
    SLocP (seqSnd (seqSnd skip_whitespace (make_char_p (ch ','))) val) := by
  refine ⟨suff_combine (suff_combine suff_ws (suff_char _)) hvsf, ?_, ?_, ?_⟩
  · exact consumes_combine_left (consumes_combine_right suff_ws (consumes_char _))
      hvsf
  · exact ploc_combine (suff_combine suff_ws (suff_char _)) hvsf ploc_sepSep hvp
  · exact sloc_combine_gen (suff_combine suff_ws (suff_char _)) sloc_sepSep
      ploc_sepSep qext_sepSep nh_sepSep hvs hvnil

theorem ploc_close (c : Nat) : PLocP (alt (make_char_p c) failHardP) :=
  ploc_alt (ploc_char _) (sloc_char _) ploc_failHard

theorem ploc_sizesArrayP {val : Parser Sizes} (hvsf : SuffP val)
    (hvc : ConsumesP val) (hvp : PLocP val) (hvs : SLocP val)
    (hvnil : val [] = .error .soft) : PLocP (sizesArrayP val) := by
  obtain ⟨he1, he2, he3, he4⟩ := elem_props hvsf hvc hvp hvs hvnil
  exact ploc_combine
    (suff_combine (suff_combine (suff_char _)
      (suff_sep hvsf (suff_combine suff_ws (suff_char _)))) suff_ws)
    (suff_alt (suff_char _) suff_failHard)
    (ploc_combine (suff_combine (suff_char _)
        (suff_sep hvsf (suff_combine suff_ws (suff_char _)))) suff_ws
      (ploc_combine (suff_char _) (suff_sep hvsf (suff_combine suff_ws (suff_char _)))
        (ploc_char _)
        (ploc_sep hvsf hvs hvp he1 he2 he3 he4))
      ploc_ws)
    (ploc_close _)

theorem ploc_sizesObjectP {val : Parser Sizes} (hvsf : SuffP val)
    (hvc : ConsumesP val) (hvp : PLocP val) (hvs : SLocP val)
    (hvnil : val [] = .error .soft) : PLocP (sizesObjectP val) := by
  have hkvsf := suff_sizesKeyValueP hvsf
  have hkvc := consumes_sizesKeyValueP hvsf
  have hkvp := ploc_sizesKeyValueP hvsf hvp
  have hkvs := sloc_sizesKeyValueP hvs hvnil
  have hkvnil : sizesKeyValueP val [] = .error .soft := rfl
  obtain ⟨he1, he2, he3, he4⟩ := elem_props hkvsf hkvc hkvp hkvs hkvnil
  exact ploc_combine
    (suff_combine (suff_combine (suff_char _)
      (suff_sep hkvsf (suff_combine suff_ws (suff_char _)))) suff_ws)
    (suff_alt (suff_char _) suff_failHard)
    (ploc_combine (suff_combine (suff_char _)
        (suff_sep hkvsf (suff_combine suff_ws (suff_char _)))) suff_ws
      (ploc_combine (suff_char _)
        (suff_sep hkvsf (suff_combine suff_ws (suff_char _)))
        (ploc_char _)
        (ploc_sep hkvsf hkvs hkvp he1 he2 he3 he4))
      ploc_ws)
    (ploc_close _)

theorem sizesValueP_nil_soft (k : Nat) : sizesValueP k [] = .error .soft := by
  cases k <;> rfl

theorem sloc_sizesValueP : ∀ k, SLocP (sizesValueP k) := by
  intro k
  induction k with
  | zero =>
    intro a b h
    rfl
  | succ k ih =>
    show SLocP (seqSnd skip_whitespace _)
    refine sloc_ws_seq ?_ rfl
    exact sloc_alt sloc_sizesScalarP
      (sloc_alt sloc_sizesArrayP sloc_sizesObjectP)

theorem ploc_sizesValueP : ∀ k, PLocP (sizesValueP k) := by
  intro k
  induction k with
  | zero =>
    intro a b x r h
    cases h
  | succ k ih =>
    show PLocP (seqSnd skip_whitespace _)
    refine ploc_ws_seq ?_ ?_ ?_
    · exact ploc_alt ploc_sizesScalarP sloc_sizesScalarP
        (ploc_alt
          (ploc_sizesArrayP (suff_sizesValueP k) (consumes_sizesValueP k) ih
            (sloc_sizesValueP k) (sizesValueP_nil_soft k))
          sloc_sizesArrayP
          (ploc_sizesObjectP (suff_sizesValueP k) (consumes_sizesValueP k) ih
            (sloc_sizesValueP k) (sizesValueP_nil_soft k)))
    · exact suff_alt suff_sizesScalarP
        (suff_alt (suff_sizesArrayP (suff_sizesValueP k))
          (suff_sizesObjectP (suff_sizesValueP k)))
    · exact consumes_alt consumes_sizesScalarP
        (consumes_alt (consumes_sizesArrayP (suff_sizesValueP k))
          (consumes_sizesObjectP (suff_sizesValueP k)))

end JSONM

namespace CxP

theorem acc_rel {α α2 β β2} {e1 : Parser α} {e2 : Parser α2} {f1 : β → α → β}
    {f2 : β2 → α2 → β2}
    (hrel : ∀ s x r, e1 s = .ok (x, r) → ∃ y, e2 s = .ok (y, r))
    (hsoft : ∀ s, e1 s = .error .soft → e2 s = .error .soft) :
    ∀ {F : Nat} {s : Input} {i1 : β} (i2 : β2) {acc : β} {r : Input},
      accumulate_parse e1 f1 F s i1 = .ok (acc, r) →
      ∃ acc2, accumulate_parse e2 f2 F s i2 = .ok (acc2, r) := by
  intro F
  induction F with
  | zero =>
    intro s i1 i2 acc r h
    rw [accumulate_parse_zero] at h
    injection h with h'
    injection h' with _ h2
    rw [accumulate_parse_zero, ← h2]
    exact ⟨i2, rfl⟩
  | succ F ih =>
    intro s i1 i2 acc r h
    cases s with
    | nil =>
      rw [accumulate_parse_nil] at h
      injection h with h'
      injection h' with _ h2
      rw [accumulate_parse_nil, ← h2]
      exact ⟨i2, rfl⟩
    | cons c cs =>
      rw [accumulate_parse_cons] at h
      rw [accumulate_parse_cons]
      cases hp1 : e1 (c :: cs) with
      | error e =>
        cases e <;> rw [hp1] at h
        · injection h with h'
          injection h' with _ h2
          rw [hsoft _ hp1, ← h2]
          exact ⟨i2, rfl⟩
        · cases h
      | ok ar =>
        obtain ⟨x, s'⟩ := ar
        rw [hp1] at h
        obtain ⟨y, hy⟩ := hrel _ x s' hp1
        rw [hy]
        exact ih (f2 i2 y) h

theorem sep_rel {α α2 β β2 γ} {v1 : Parser α} {v2 : Parser α2} {sep : Parser γ}
    {i1 : β} {f1 : β → α → β} {i2 : β2} {f2 : β2 → α2 → β2}
    (hrel : ∀ s x r, v1 s = .ok (x, r) → ∃ y, v2 s = .ok (y, r))
    (hsoft : ∀ s, v1 s = .error .soft → v2 s = .error .soft) :
    ∀ {s : Input} {acc : β} {r : Input},
      separated_by_val v1 sep i1 f1 s = .ok (acc, r) →
      ∃ acc2, separated_by_val v2 sep i2 f2 s = .ok (acc2, r) := by
  intro s acc r h
  unfold separated_by_val at h ⊢
  cases hp1 : v1 s with
  | error e =>
    cases e <;> rw [hp1] at h
    · injection h with h'
      injection h' with _ h2
      rw [hsoft _ hp1, ← h2]
      exact ⟨i2, rfl⟩
    · cases h
  | ok ar =>
    obtain ⟨x, s'⟩ := ar
    rw [hp1] at h
    dsimp only at h
    obtain ⟨y, hy⟩ := hrel _ x s' hp1
    rw [hy]
    dsimp only
    have herel : ∀ s x r, seqSnd sep v1 s = .ok (x, r) →
        ∃ y, seqSnd sep v2 s = .ok (y, r) := by
      intro s x r h
      obtain ⟨x1, r1, x2, h1, h2, _⟩ := combine_ok h
      obtain ⟨y2, hy2⟩ := hrel _ x2 r h2
      exact ⟨y2, combine_ok_intro h1 hy2⟩
    have hesoft : ∀ s, seqSnd sep v1 s = .error .soft →
        seqSnd sep v2 s = .error .soft := by
      intro s h
      rcases combine_err h with h' | ⟨x, r1, h1, h2⟩
      · exact combine_err_intro1 h'
      · exact combine_err_intro2 h1 (hsoft _ h2)
    exact acc_rel herel hesoft (f2 i2 y) h

end CxP

namespace JSONM

open CxP

theorem scalar_rel {i : Input} {sz : Sizes} {r : Input}
    (h : sizesScalarP i = .ok (sz, r)) : extentScalarP i = .ok ((), r) := by
  unfold sizesScalarP at h
  unfold extentScalarP
  rcases alt_ok h with h' | ⟨hsoft, h'⟩
  · obtain ⟨y, hy, _⟩ := fmap_ok h'
    exact alt_ok_intro1 (fmap_ok_intro hy)
  · refine alt_ok_intro2 (fmap_err.mpr (fmap_err.mp hsoft)) ?_
    rcases alt_ok h' with h'' | ⟨hsoft2, h''⟩
    · obtain ⟨y, hy, _⟩ := fmap_ok h''
      exact alt_ok_intro1 (fmap_ok_intro hy)
    · refine alt_ok_intro2 (fmap_err.mpr (fmap_err.mp hsoft2)) ?_
      obtain ⟨y, hy, _⟩ := fmap_ok h''
      exact fmap_ok_intro hy

theorem scalar_soft {i : Input} (h : sizesScalarP i = .error .soft) :
    extentScalarP i = .error .soft := by
  unfold sizesScalarP at h
  unfold extentScalarP
  rcases alt_err h with ⟨_, he⟩ | ⟨h1, h2⟩
  · cases he
  · refine alt_err_intro (fmap_err.mpr (fmap_err.mp h1)) ?_
    rcases alt_err h2 with ⟨_, he⟩ | ⟨h3, h4⟩
    · cases he
    · exact alt_err_intro (fmap_err.mpr (fmap_err.mp h3))
        (fmap_err.mpr (fmap_err.mp h4))

theorem close_ok {c : Nat} {i : Input} {x : Nat} {r : Input}
    (h : alt (make_char_p c) failHardP i = .ok (x, r)) :
    make_char_p c i = .ok (x, r) := by
  rcases alt_ok h with h' | ⟨_, h'⟩
  · exact h'
  · cases h'

theorem arr_rel {v1 : Parser Sizes} {v2 : Parser (List Nat)}
    (hrel : ∀ s x r, v1 s = .ok (x, r) → ∃ y, v2 s = .ok (y, r))
    (hsoft : ∀ s, v1 s = .error .soft → v2 s = .error .soft) :
    ∀ {i : Input} {sz : Sizes} {r : Input},
      sizesArrayP v1 i = .ok (sz, r) → extentArrayP v2 i = .ok ((), r) := by
  intro i sz r h
  obtain ⟨x3, rc, xcl, h3, hcl, _⟩ := combine_ok h
  obtain ⟨x2, rw2, uw, h2, hw, _⟩ := combine_ok h3
  obtain ⟨xch, r1, xsep, hch, hsep, _⟩ := combine_ok h2
  obtain ⟨acc2, hsep2⟩ := sep_rel hrel hsoft hsep
  exact combine_ok_intro (combine_ok_intro (combine_ok_intro hch hsep2) hw)
    (close_ok hcl)

theorem arr_soft {v1 : Parser Sizes} {v2 : Parser (List Nat)}
    {i : Input} (h : sizesArrayP v1 i = .error .soft) :
    extentArrayP v2 i = .error .soft := by
  have hch : make_char_p (ch '[') i = .error .soft := by
    rcases combine_err h with h' | ⟨x, r1, _, h2⟩
    · rcases combine_err h' with h'' | ⟨x2, r2, _, h3⟩
      · rcases combine_err h'' with h''' | ⟨x3, r3, _, h4⟩
        · exact h'''
        · exact absurd h4 (sep_never_soft _ _ _ _ r3)
      · exact absurd h3 (ws_never_soft r2)
    · exact absurd h2 (altFailHard_never_soft _ r1)
  exact combine_err_intro1 (combine_err_intro1 (combine_err_intro1 hch))

theorem kv_rel {v1 : Parser Sizes} {v2 : Parser (List Nat)}
    (hrel : ∀ s x r, v1 s = .ok (x, r) → ∃ y, v2 s = .ok (y, r)) :
    ∀ {i : Input} {sz : Sizes} {r : Input},
      sizesKeyValueP v1 i = .ok (sz, r) →
      ∃ y, extentKeyValueP v2 i = .ok (y, r) := by
  intro i sz r h
  obtain ⟨len, r1, hH, hk⟩ := bindP_ok h
  obtain ⟨szv, hv, _⟩ := fmap_ok hk
  obtain ⟨x2, rA, xc, h2, hcol, _⟩ := combine_ok hH
  obtain ⟨x1, rB, uw, h1, hw2, _⟩ := combine_ok h2
  obtain ⟨u1, rC, lenv, hw1, hstr, _⟩ := combine_ok h1
  obtain ⟨y, hy⟩ := hrel _ szv r hv
  refine ⟨y, ?_⟩
  exact combine_ok_intro
    (combine_ok_intro (combine_ok_intro (combine_ok_intro hw1 hstr) hw2) hcol) hy

theorem kv_soft {v1 : Parser Sizes} {v2 : Parser (List Nat)}
    (hsoft : ∀ s, v1 s = .error .soft → v2 s = .error .soft) :
    ∀ {i : Input}, sizesKeyValueP v1 i = .error .soft →
      extentKeyValueP v2 i = .error .soft := by
  intro i h
  rcases bindP_err h with hH | ⟨len, r1, hH, hk⟩
  · rcases combine_err hH with h2 | ⟨x2, rA, h2, hcol⟩
    · rcases combine_err h2 with h1 | ⟨x1, rB, h1, hw2⟩
      · rcases combine_err h1 with hw1 | ⟨u1, rC, hw1, hstr⟩
        · exact absurd hw1 (ws_never_soft i)
        · exact combine_err_intro1 (combine_err_intro1
            (combine_err_intro1 (combine_err_intro2 hw1 hstr)))
      · exact absurd hw2 (ws_never_soft rB)
    · rcases combine_ok h2 with ⟨x1, rB, uw, h1, hw2, _⟩
      rcases combine_ok h1 with ⟨u1, rC, lenv, hw1, hstr, _⟩
      exact combine_err_intro1 (combine_err_intro2
        (combine_ok_intro (combine_ok_intro hw1 hstr) hw2) hcol)
  · have hvs := fmap_err.mp hk
    obtain ⟨x2, rA, xc, h2, hcol, _⟩ := combine_ok hH
    obtain ⟨x1, rB, uw, h1, hw2, _⟩ := combine_ok h2
    obtain ⟨u1, rC, lenv, hw1, hstr, _⟩ := combine_ok h1
    exact combine_err_intro2
      (combine_ok_intro (combine_ok_intro (combine_ok_intro hw1 hstr) hw2) hcol)
      (hsoft _ hvs)

theorem obj_rel {v1 : Parser Sizes} {v2 : Parser (List Nat)}
    (hrel : ∀ s x r, v1 s = .ok (x, r) → ∃ y, v2 s = .ok (y, r))
    (hsoft : ∀ s, v1 s = .error .soft → v2 s = .error .soft) :
    ∀ {i : Input} {sz : Sizes} {r : Input},
      sizesObjectP v1 i = .ok (sz, r) → extentObjectP v2 i = .ok ((), r) := by
  intro i sz r h
  obtain ⟨x3, rc, xcl, h3, hcl, _⟩ := combine_ok h
  obtain ⟨x2, rw2, uw, h2, hw, _⟩ := combine_ok h3
  obtain ⟨xch, r1, xsep, hch, hsep, _⟩ := combine_ok h2
  obtain ⟨acc2, hsep2⟩ := sep_rel (fun s x r h => kv_rel hrel h)
    (fun s h => kv_soft hsoft h) hsep
  exact combine_ok_intro (combine_ok_intro (combine_ok_intro hch hsep2) hw)
    (close_ok hcl)

theorem obj_soft {v1 : Parser Sizes} {v2 : Parser (List Nat)}
    {i : Input} (h : sizesObjectP v1 i = .error .soft) :
    extentObjectP v2 i = .error .soft := by
  have hch : make_char_p (ch '{') i = .error .soft := by
    rcases combine_err h with h' | ⟨x, r1, _, h2⟩
    · rcases combine_err h' with h'' | ⟨x2, r2, _, h3⟩
      · rcases combine_err h'' with h''' | ⟨x3, r3, _, h4⟩
        · exact h'''
        · exact absurd h4 (sep_never_soft _ _ _ _ r3)
      · exact absurd h3 (ws_never_soft r2)
    · exact absurd h2 (altFailHard_never_soft _ r1)
  exact combine_err_intro1 (combine_err_intro1 (combine_err_intro1 hch))

theorem extentValueP_succ (k : Nat) (sv : Input) :
    extentValueP (k + 1) sv =
      match (seqSnd skip_whitespace
            (alt extentScalarP
              (alt (fmap (fun _ => ()) (extentArrayP (extentValueP k)))
                   (fmap (fun _ => ()) (extentObjectP (extentValueP k)))))) sv with
      | .error e => .error e
      | .ok (_, rest) => .ok (sv.take (sv.length - rest.length), rest) := rfl

theorem rel_value : ∀ k,
    (∀ i sz r, sizesValueP k i = .ok (sz, r) →
      extentValueP k i = .ok (i.take (i.length - r.length), r)) ∧
    (∀ i, sizesValueP k i = .error .soft → extentValueP k i = .error .soft) := by
  intro k
  induction k with
  | zero =>
    constructor
    · intro i sz r h
      cases h
    · intro i h
      rfl
  | succ k ih =>
    obtain ⟨ihr, ihs⟩ := ih
    have hrel : ∀ s x r, sizesValueP k s = .ok (x, r) →
        ∃ y, extentValueP k s = .ok (y, r) := by
      intro s x r h
      exact ⟨_, ihr s x r h⟩
    constructor
    · intro i sz r h
      obtain ⟨u, r1, xv, hw, hxv, _⟩ := combine_ok h
      have hinner : (seqSnd skip_whitespace
          (alt extentScalarP
            (alt (fmap (fun _ => ()) (extentArrayP (extentValueP k)))
                 (fmap (fun _ => ()) (extentObjectP (extentValueP k)))))) i =
          .ok ((), r) := by
        refine combine_ok_intro hw ?_
        rcases alt_ok hxv with h' | ⟨hsoft1, h'⟩
        · exact alt_ok_intro1 (scalar_rel h')
        · refine alt_ok_intro2 (scalar_soft hsoft1) ?_
          rcases alt_ok h' with h'' | ⟨hsoft2, h''⟩
          · exact alt_ok_intro1 (fmap_ok_intro (arr_rel hrel ihs h''))
          · refine alt_ok_intro2 (fmap_err.mpr (arr_soft hsoft2)) ?_
            exact fmap_ok_intro (obj_rel hrel ihs h'')
      rw [extentValueP_succ, hinner]
    · intro i h
      have hinner : (seqSnd skip_whitespace
          (alt extentScalarP
            (alt (fmap (fun _ => ()) (extentArrayP (extentValueP k)))
                 (fmap (fun _ => ()) (extentObjectP (extentValueP k)))))) i =
          .error .soft := by
        rcases combine_err h with hw | ⟨u, r1, hw, hxv⟩
        · exact absurd hw (ws_never_soft i)
        · refine combine_err_intro2 hw ?_
          rcases alt_err hxv with ⟨_, he⟩ | ⟨h1, h2⟩
          · cases he
          · refine alt_err_intro (scalar_soft h1) ?_
            rcases alt_err h2 with ⟨_, he⟩ | ⟨h3, h4⟩
            · cases he
            · exact alt_err_intro (fmap_err.mpr (arr_soft h3))
                (fmap_err.mpr (obj_soft h4))
      rw [extentValueP_succ, hinner]

end JSONM

namespace JSONM

open CxP

theorem combineS_ok_intro {α β γ} {p1 : SParser α} {p2 : SParser β} {f : α → β → γ}
    {i : Input} {st : BuildSt} {a : α} {r1 : Input} {stA : BuildSt} {b : β}
    {r : Input} {st' : BuildSt}
    (h1 : p1 i st = (.ok (a, r1), stA)) (h2 : p2 r1 stA = (.ok (b, r), st')) :
    combineS p1 p2 f i st = (.ok (f a b, r), st') := by
  unfold combineS
  rw [h1]
  dsimp only
  rw [h2]

theorem combineS_err_intro1 {α β γ} {p1 : SParser α} {p2 : SParser β} {f : α → β → γ}
    {i : Input} {st : BuildSt} {e : PErr} {st' : BuildSt}
    (h1 : p1 i st = (.error e, st')) :
    combineS p1 p2 f i st = (.error e, st') := by
  unfold combineS
  rw [h1]

theorem combineS_err_intro2 {α β γ} {p1 : SParser α} {p2 : SParser β} {f : α → β → γ}
    {i : Input} {st : BuildSt} {a : α} {r1 : Input} {stA : BuildSt} {e : PErr}
    {st' : BuildSt}
    (h1 : p1 i st = (.ok (a, r1), stA)) (h2 : p2 r1 stA = (.error e, st')) :
    combineS p1 p2 f i st = (.error e, st') := by
  unfold combineS
  rw [h1]
  dsimp only
  rw [h2]

theorem altS_ok_intro1 {α} {p1 p2 : SParser α} {i : Input} {st : BuildSt}
    {r : α × Input} {st' : BuildSt} (h : p1 i st = (.ok r, st')) :
    altS p1 p2 i st = (.ok r, st') := by
  unfold altS
  rw [h]

theorem altS_ok_intro2 {α} {p1 p2 : SParser α} {i : Input} {st : BuildSt}
    {st1 : BuildSt} {r : α × Input} {st' : BuildSt}
    (h1 : p1 i st = (.error .soft, st1)) (h2 : p2 i st1 = (.ok r, st')) :
    altS p1 p2 i st = (.ok r, st') := by
  unfold altS
  rw [h1]
  exact h2

theorem fmapEff_ok_intro {α β} {f : α → BuildSt → β × BuildSt} {p : SParser α}
    {i : Input} {st : BuildSt} {a : α} {r : Input} {stA : BuildSt} {b : β}
    {st' : BuildSt}
    (h1 : p i st = (.ok (a, r), stA)) (h2 : f a stA = (b, st')) :
    fmapEff f p i st = (.ok (b, r), st') := by
  unfold fmapEff
  rw [h1]
  dsimp only
  rw [h2]

theorem fmapEff_err_intro {α β} {f : α → BuildSt → β × BuildSt} {p : SParser α}
    {i : Input} {st : BuildSt} {e : PErr} {st' : BuildSt}
    (h : p i st = (.error e, st')) : fmapEff f p i st = (.error e, st') := by
  unfold fmapEff
  rw [h]

theorem bindS_ok_intro {α β} {p : SParser α}
    {f : α → Input → BuildSt → PResult β × BuildSt}
    {i : Input} {st : BuildSt} {a : α} {r1 : Input} {stA : BuildSt}
    {r : β × Input} {st' : BuildSt}
    (h1 : p i st = (.ok (a, r1), stA)) (h2 : f a r1 stA = (.ok r, st')) :
    bindS p f i st = (.ok r, st') := by
  unfold bindS
  rw [h1]
  exact h2

theorem sepS_soft_intro {α β γ} {p1 : SParser α} {p2 : SParser γ} {init : β}
    {f : β → α → BuildSt → β × BuildSt} {i : Input} {st : BuildSt} {st' : BuildSt}
    (h : p1 i st = (.error .soft, st')) :
    separated_by_valS p1 p2 init f i st = (.ok (init, i), st') := by
  unfold separated_by_valS
  rw [h]

theorem sepS_ok_intro {α β γ} {p1 : SParser α} {p2 : SParser γ} {init : β}
    {f : β → α → BuildSt → β × BuildSt} {i : Input} {st : BuildSt}
    {a : α} {s' : Input} {stA : BuildSt} {b : β} {stB : BuildSt}
    {res : Except PErr (β × Input)} {st' : BuildSt}
    (h1 : p1 i st = (.ok (a, s'), stA)) (h2 : f init a stA = (b, stB))
    (h3 : accumulateS (seqSndS p2 p1) f s'.length s' b stB = (res, st')) :
    separated_by_valS p1 p2 init f i st = (res, st') := by
  unfold separated_by_valS
  rw [h1]
  dsimp only
  rw [h2]
  exact h3

end JSONM

namespace JSONM

open CxP

theorem acc_hex_le : ∀ {n : Nat} {s : Input} {init h : Nat} {r : Input},
    init ≤ 65535 →
    accumulate_n_parse (one_of hexChars) hexStep n s init = .ok (h, r) →
    h ≤ 65535 := by
  intro n
  induction n with
  | zero =>
    intro s init h r hle heq
    unfold accumulate_n_parse at heq
    injection heq with h'
    injection h' with h1 _
    rw [← h1]
    exact hle
  | succ n ih =>
    intro s init h r hle heq
    unfold accumulate_n_parse at heq
    cases hps : one_of hexChars s with
    | error e =>
      cases e <;> rw [hps] at heq
      · injection heq with h'
        injection h' with h1 _
        rw [← h1]
        exact hle
      · cases heq
    | ok ar =>
      obtain ⟨c, s'⟩ := ar
      rw [hps] at heq
      refine ih ?_ heq
      unfold hexStep
      have := Nat.mod_lt ((init <<< 4) + to_hex c) (show 0 < 65536 by norm_num)
      omega

theorem utf8_len_count {c : Nat} (hc : c ≤ 65535) :
    (to_utf8 c).length = to_utf8_count c := by
  rw [utf8_length c hc]
  unfold to_utf8_count
  by_cases h1 : c ≤ 0x7f
  · simp [h1]
  · by_cases h2 : c ≤ 0x7ff
    · simp [h1, h2]
    · have h3 : c ≤ 0xffff := hc
      simp [h1, h2, h3]

theorem count_core_le {s : Input} {h : Nat} {r : Input}
    (heq : (seqSnd (make_char_p (ch '\\'))
      (seqSnd (make_char_p (ch 'u'))
        (exactly_n (one_of hexChars) 4 0 hexStep))) s = .ok (h, r)) :
    h ≤ 65535 := by
  obtain ⟨x1, r1, x2, h1, h2, hx⟩ := combine_ok heq
  obtain ⟨x3, r3, x4, h3, h4, hx2⟩ := combine_ok h2
  rw [hx, hx2]
  exact acc_hex_le (by norm_num) h4

theorem count_to_char_ok {s : Input} {n : Nat} {r : Input}
    (h : stringCharCountP s = .ok (n, r)) :
    ∃ bytes, stringCharP s = .ok (bytes, r) ∧ bytes.length = n := by
  unfold stringCharCountP at h
  unfold stringCharP
  rcases alt_ok h with h' | ⟨hsoft, h'⟩
  · obtain ⟨c, hc, hn⟩ := fmap_ok h'
    refine ⟨[c], alt_ok_intro1 (fmap_ok_intro hc), ?_⟩
    rw [hn]
    rfl
  · obtain ⟨hcode, hc, hn⟩ := fmap_ok h'
    refine ⟨to_utf8 hcode, ?_, ?_⟩
    · refine alt_ok_intro2 ?_ (fmap_ok_intro hc)
      obtain ⟨c2, hc2⟩ : ∃ c2, (alt escapedCharP (none_of [ch '\\', ch '"'])) s =
          .error .soft := ⟨0, fmap_err.mp hsoft⟩
      exact fmap_err.mpr hc2
    · rw [hn]
      exact utf8_len_count (count_core_le hc)

theorem count_to_char_soft {s : Input}
    (h : stringCharCountP s = .error .soft) : stringCharP s = .error .soft := by
  unfold stringCharCountP at h
  unfold stringCharP
  rcases alt_err h with ⟨_, he⟩ | ⟨h1, h2⟩
  · cases he
  · exact alt_err_intro (fmap_err.mpr (fmap_err.mp h1)) (fmap_err.mpr (fmap_err.mp h2))

end JSONM

namespace JSONM

open CxP

theorem strAcc : ∀ (F : Nat) {s : Input} {acc n : Nat} {r : Input},
    accumulate_parse stringCharCountP (fun a b => a + b) F s acc = .ok (n, r) →
    ∀ (ev : ExternalView) (st : BuildSt),
      ∃ ev' bytes st',
        accumulateS (liftP stringCharP)
          (fun ev str st =>
            let offset := if ev.offset = sizetMax then st.s.length else ev.offset
            (⟨offset, ev.extent + str.length⟩, st.append str))
          F s ev st = (.ok (ev', r), st') ∧
        st'.v = st.v ∧ st'.s = st.s ++ bytes ∧ acc + bytes.length = n := by
  intro F
  induction F with
  | zero =>
    intro s acc n r h ev st
    rw [accumulate_parse_zero] at h
    injection h with h'
    injection h' with h1 h2
    refine ⟨ev, [], st, ?_, rfl, by simp, by rw [h1]; simp⟩
    rw [accumulateS_zero, h2]
  | succ F ih =>
    intro s acc n r h ev st
    cases s with
    | nil =>
      rw [accumulate_parse_nil] at h
      injection h with h'
      injection h' with h1 h2
      refine ⟨ev, [], st, ?_, rfl, by simp, by rw [h1]; simp⟩
      rw [accumulateS_nil, h2]
    | cons c cs =>
      rw [accumulate_parse_cons] at h
      rw [accumulateS_cons]
      cases hsc : stringCharCountP (c :: cs) with
      | error e =>
        cases e <;> rw [hsc] at h
        · injection h with h'
          injection h' with h1 h2
          rw [liftP_eq, count_to_char_soft hsc]
          refine ⟨ev, [], st, ?_, rfl, by simp, by rw [h1]; simp⟩
          rw [← h2]
        · cases h
      | ok ar =>
        obtain ⟨n1, s'⟩ := ar
        rw [hsc] at h
        obtain ⟨bytes1, hb1, hlen1⟩ := count_to_char_ok hsc
        rw [liftP_eq, hb1]
        dsimp only
        obtain ⟨ev', bytes', st', hacc, hv, hs, hn⟩ := ih h _ (st.append bytes1)
        refine ⟨ev', bytes1 ++ bytes', st', hacc, hv, ?_, ?_⟩
        · rw [hs]
          show (st.s ++ bytes1) ++ bytes' = st.s ++ (bytes1 ++ bytes')
          rw [List.append_assoc]
        · simp at hn ⊢
          omega

end JSONM

namespace JSONM

open CxP

theorem bstr {t : Input} {len : Nat} {r : Input}
    (h : stringSizeP t = .ok (len, r)) (st : BuildSt) :
    ∃ ev bytes st', buildStringP t st = (.ok (ev, r), st') ∧
      st'.v = st.v ∧ st'.s = st.s ++ bytes ∧ bytes.length = len := by
  obtain ⟨n1, r2, q2, hin, hcl, hx⟩ := combine_ok h
  obtain ⟨q1, t2, nv, hch, hmany, hn⟩ := combine_ok hin
  obtain ⟨hsh, hq1⟩ := char_ok hch
  obtain ⟨hr2, hq2⟩ := char_ok hcl
  unfold many at hmany
  obtain ⟨ev', bytes, st', hacc, hv, hs, hlen⟩ :=
    strAcc t2.length hmany (ExternalView.mk sizetMax 0) st
  refine ⟨ev', bytes, st', ?_, hv, hs, ?_⟩
  · have h1 : liftP (make_char_p (ch '"')) t st = (.ok (q1, t2), st) := by
      rw [liftP_eq, hch]
    have h2 : (manyS (liftP stringCharP) (ExternalView.mk sizetMax 0)
        (fun ev str st =>
          let offset := if ev.offset = sizetMax then st.s.length else ev.offset
          (⟨offset, ev.extent + str.length⟩, st.append str))) t2 st =
        (.ok (ev', r2), st') := hacc
    have h3 : liftP (make_char_p (ch '"')) r2 st' = (.ok (q2, r), st') := by
      rw [liftP_eq, hr2, hq2]
      show (make_char_p (ch '"') (ch '"' :: r), st') = (.ok (ch '"', r), st')
      simp [make_char_p]
    exact combineS_ok_intro (combineS_ok_intro h1 h2) h3
  · rw [hx, hn]
    omega

end JSONM

namespace JSONM

open CxP

theorem span_take {t t' : Input} (h : t' <:+ t) :
    t.take (t.length - t'.length) ++ t' = t := by
  obtain ⟨w, hw⟩ := h
  rw [← hw]
  have hl : (w ++ t').length - t'.length = w.length := by simp
  rw [hl, List.take_left]

theorem acc_sizes_ge {p : Parser Sizes} :
    ∀ {F : Nat} {s : Input} {init acc : Sizes} {r : Input},
      accumulate_parse p Sizes.add F s init = .ok (acc, r) →
      init.num_objects ≤ acc.num_objects := by
  intro F
  induction F with
  | zero =>
    intro s init acc r h
    rw [accumulate_parse_zero] at h
    injection h with h'
    injection h' with h1 _
    rw [h1]
  | succ F ih =>
    intro s init acc r h
    cases s with
    | nil =>
      rw [accumulate_parse_nil] at h
      injection h with h'
      injection h' with h1 _
      rw [h1]
    | cons c cs =>
      rw [accumulate_parse_cons] at h
      cases hp : p (c :: cs) with
      | error e =>
        cases e <;> rw [hp] at h
        · injection h with h'
          injection h' with h1 _
          rw [h1]
        · cases h
      | ok ar =>
        obtain ⟨x, s'⟩ := ar
        rw [hp] at h
        have := ih h
        simp [Sizes.add] at this
        omega

theorem scalar_num {i : Input} {sz : Sizes} {r : Input}
    (h : sizesScalarP i = .ok (sz, r)) : sz.num_objects = 1 := by
  unfold sizesScalarP at h
  rcases alt_ok h with h' | ⟨_, h'⟩
  · obtain ⟨y, _, hx⟩ := fmap_ok h'
    rw [hx]
  · rcases alt_ok h' with h'' | ⟨_, h''⟩
    · obtain ⟨y, _, hx⟩ := fmap_ok h''
      rw [hx]
    · obtain ⟨y, _, hx⟩ := fmap_ok h''
      rw [hx]

theorem sep_sizes_pos {p1 : Parser Sizes} {p2 : Parser γ} {i : Input} {sz : Sizes}
    {r : Input}
    (h : separated_by_val p1 p2 (Sizes.mk 1 0) Sizes.add i = .ok (sz, r)) :
    1 ≤ sz.num_objects := by
  rcases sep_ok h with ⟨_, hacc, _⟩ | ⟨a, s', _, hacc⟩
  · rw [hacc]
  · have := acc_sizes_ge hacc
    simp [Sizes.add] at this
    omega

theorem sizes_pos : ∀ {k : Nat} {i : Input} {sz : Sizes} {r : Input},
    sizesValueP k i = .ok (sz, r) → 1 ≤ sz.num_objects := by
  intro k i sz r h
  cases k with
  | zero => cases h
  | succ k =>
    obtain ⟨u, r1, xv, hw, hxv, hx⟩ := combine_ok h
    rw [show sz = xv from hx]
    rcases alt_ok hxv with h' | ⟨_, h'⟩
    · rw [scalar_num h']
    · rcases alt_ok h' with h'' | ⟨_, h''⟩
      · obtain ⟨x3, rc, xcl, h3, _, hx3⟩ := combine_ok h''
        obtain ⟨x2, rw2, uw, h2, _, hx2⟩ := combine_ok h3
        obtain ⟨xch, rr1, xsep, _, hsep, hxc⟩ := combine_ok h2
        rw [hx3, hx2, hxc]
        exact sep_sizes_pos hsep
      · obtain ⟨x3, rc, xcl, h3, _, hx3⟩ := combine_ok h''
        obtain ⟨x2, rw2, uw, h2, _, hx2⟩ := combine_ok h3
        obtain ⟨xch, rr1, xsep, _, hsep, hxc⟩ := combine_ok h2
        rw [hx3, hx2, hxc]
        exact sep_sizes_pos hsep

/-- Stage one of the array build writes one `Unparsed` span per element at
consecutive arena indices; this folds those writes. -/
def writeSpansA : Nat → List (Input × Sizes) → BuildSt → BuildSt
  | _, [], st => st
  | i, p :: rest, st => writeSpansA (i + 1) rest (st.write i (.Unparsed p.1))

theorem writeSpansA_s : ∀ (i : Nat) (L : List (Input × Sizes)) (st : BuildSt),
    (writeSpansA i L st).s = st.s := by
  intro i L
  induction L generalizing i with
  | nil => intro st; rfl
  | cons p rest ih =>
    intro st
    show (writeSpansA (i + 1) rest (st.write i (.Unparsed p.1))).s = st.s
    rw [ih (i + 1)]
    rfl

theorem writeSpansA_v_lt : ∀ (i : Nat) (L : List (Input × Sizes)) (st : BuildSt)
    (j : Nat), (j < i ∨ i + L.length ≤ j) → (writeSpansA i L st).v j = st.v j := by
  intro i L
  induction L generalizing i with
  | nil => intro st j _; rfl
  | cons p rest ih =>
    intro st j hj
    show (writeSpansA (i + 1) rest (st.write i (.Unparsed p.1))).v j = st.v j
    rw [ih (i + 1) _ j (by simp at hj; omega)]
    rw [write_v]
    have : ¬ j = i := by simp at hj; omega
    rw [if_neg this]

theorem writeSpansA_v_at : ∀ (i : Nat) (L : List (Input × Sizes)) (st : BuildSt)
    (j : Nat) (hj : j < L.length),
    (writeSpansA i L st).v (i + j) = .Unparsed (L.get ⟨j, hj⟩).1 := by
  intro i L
  induction L generalizing i with
  | nil =>
    intro st j hj
    simp at hj
  | cons p rest ih =>
    intro st j hj
    cases j with
    | zero =>
      show (writeSpansA (i + 1) rest (st.write i (.Unparsed p.1))).v (i + 0) =
        .Unparsed p.1
      rw [writeSpansA_v_lt (i + 1) rest _ (i + 0) (by omega)]
      rw [write_v, if_pos (by omega)]
    | succ j =>
      show (writeSpansA (i + 1) rest (st.write i (.Unparsed p.1))).v (i + (j + 1)) =
        _
      have := ih (i + 1) (st.write i (.Unparsed p.1)) j (by simp at hj; omega)
      rw [show i + (j + 1) = (i + 1) + j from by omega]
      rw [this]
      rfl

end JSONM

namespace JSONM

open CxP

theorem elem_rel_arr {k : Nat} {t : Input} {szel : Sizes} {s' : Input}
    (h : (seqSnd (seqSnd skip_whitespace (make_char_p (ch ',')))
      (sizesValueP k)) t = .ok (szel, s')) :
    ∃ w, (seqSnd (seqSnd skip_whitespace (make_char_p (ch ',')))
        (extentValueP k)) t = .ok (w, s') ∧
      sizesValueP k w = .ok (szel, []) := by
  obtain ⟨x1, t1, x2, h1, h2, hx⟩ := combine_ok h
  have hE := (rel_value k).1 t1 x2 s' h2
  obtain ⟨pre, hpre⟩ := suff_sizesValueP k t1 x2 s' h2
  have hw : t1.take (t1.length - s'.length) = pre := by
    rw [← hpre]
    have : (pre ++ s').length - s'.length = pre.length := by simp
    rw [this, List.take_left]
  refine ⟨t1.take (t1.length - s'.length), combine_ok_intro h1 hE, ?_⟩
  rw [hw]
  have hsz : sizesValueP k (pre ++ s') = .ok (x2, s') := by rw [hpre]; exact h2
  have := ploc_sizesValueP k pre s' x2 [] (by simpa using hsz)
  rw [hx]
  exact this

theorem elem_soft_arr {k : Nat} {t : Input}
    (h : (seqSnd (seqSnd skip_whitespace (make_char_p (ch ',')))
      (sizesValueP k)) t = .error .soft) :
    (seqSnd (seqSnd skip_whitespace (make_char_p (ch ',')))
      (extentValueP k)) t = .error .soft := by
  rcases combine_err h with h' | ⟨x, r1, h1, h2⟩
  · exact combine_err_intro1 h'
  · exact combine_err_intro2 h1 ((rel_value k).2 r1 h2)

theorem acc1A {k : Nat} : ∀ (F : Nat) {s : Input} {szacc szTot : Sizes} {r : Input}
    (i : Nat) (st : BuildSt),
    accumulate_parse (seqSnd (seqSnd skip_whitespace (make_char_p (ch ',')))
      (sizesValueP k)) Sizes.add F s szacc = .ok (szTot, r) →
    ∃ L : List (Input × Sizes),
      accumulateS
        (seqSndS (liftP (seqSnd skip_whitespace (make_char_p (ch ','))))
          (liftP (extentValueP k)))
        (fun i extent st => (i + 1, st.write i (.Unparsed extent))) F s i st =
        (.ok (i + L.length, r), writeSpansA i L st) ∧
      (∀ p ∈ L, sizesValueP k p.1 = .ok (p.2, [])) ∧
      szTot = (L.map Prod.snd).foldl Sizes.add szacc := by
  intro F
  induction F with
  | zero =>
    intro s szacc szTot r i st h
    rw [accumulate_parse_zero] at h
    injection h with h'
    injection h' with h1 h2
    refine ⟨[], ?_, ?_, ?_⟩
    · rw [accumulateS_zero, ← h2]
      rfl
    · intro p hp
      cases hp
    · rw [← h1]
      rfl
  | succ F ih =>
    intro s szacc szTot r i st h
    cases s with
    | nil =>
      rw [accumulate_parse_nil] at h
      injection h with h'
      injection h' with h1 h2
      refine ⟨[], ?_, ?_, ?_⟩
      · rw [accumulateS_nil, ← h2]
        rfl
      · intro p hp
        cases hp
      · rw [← h1]
        rfl
    | cons c cs =>
      rw [accumulate_parse_cons] at h
      rw [accumulateS_cons]
      rw [seqSndS_liftP]
      cases hel : (seqSnd (seqSnd skip_whitespace (make_char_p (ch ',')))
          (sizesValueP k)) (c :: cs) with
      | error e =>
        cases e <;> rw [hel] at h
        · injection h with h'
          injection h' with h1 h2
          rw [elem_soft_arr hel]
          refine ⟨[], ?_, ?_, ?_⟩
          · rw [← h2]
            rfl
          · intro p hp
            cases hp
          · rw [← h1]
            rfl
        · cases h
      | ok ar =>
        obtain ⟨szel, s'⟩ := ar
        rw [hel] at h
        obtain ⟨w, hw, hwsz⟩ := elem_rel_arr hel
        rw [hw]
        dsimp only
        obtain ⟨L', hacc, hprops, hfold⟩ :=
          ih (i + 1) (st.write i (.Unparsed w)) h
        refine ⟨(w, szel) :: L', ?_, ?_, ?_⟩
        · rw [hacc, show i + 1 + L'.length = i + (L'.length + 1) from by omega]
          rfl
        · intro p hp
          rcases List.mem_cons.mp hp with hp | hp
          · rw [hp]
            exact hwsz
          · exact hprops p hp
        · rw [hfold]
          rfl

end JSONM

namespace JSONM

open CxP

/-- The node count demanded by a list of sized spans. -/
def szNumSum (L : List (Input × Sizes)) : Nat :=
  (L.map (fun p => p.2.num_objects)).sum

/-- The string byte count demanded by a list of sized spans. -/
def szStrSum (L : List (Input × Sizes)) : Nat :=
  (L.map (fun p => p.2.string_size)).sum

theorem szNumSum_cons (p : Input × Sizes) (L : List (Input × Sizes)) :
    szNumSum (p :: L) = p.2.num_objects + szNumSum L := by
  simp [szNumSum]

theorem szStrSum_cons (p : Input × Sizes) (L : List (Input × Sizes)) :
    szStrSum (p :: L) = p.2.string_size + szStrSum L := by
  simp [szStrSum]

theorem szNumSum_ge {k : Nat} (L : List (Input × Sizes))
    (h : ∀ p ∈ L, sizesValueP k p.1 = .ok (p.2, [])) :
    L.length ≤ szNumSum L := by
  induction L with
  | nil => simp [szNumSum]
  | cons p L' ih =>
    rw [szNumSum_cons]
    have h1 := sizes_pos (h p (List.mem_cons_self p L'))
    have h2 := ih (fun q hq => h q (List.mem_cons_of_mem p hq))
    simp
    omega

/-- The build-pass recursion property carried through the main induction:
a sizing success forces a build success with identical residual, returning
exactly the sized node budget past `max`, writing only at `idx` and in
`[max, max + num_objects - 1)`, and appending exactly `string_size` bytes. -/
def BCprop (k : Nat) : Prop :=
  ∀ (idx max : Nat) (i : Input) (st : BuildSt) (sz : Sizes) (r : Input),
    idx < max → sizesValueP k i = .ok (sz, r) →
    ∃ st', buildValueP k idx max i st =
        (.ok (max + (sz.num_objects - 1), r), st') ∧
      (∀ j, j ≠ idx → (j < max ∨ max + (sz.num_objects - 1) ≤ j) →
        st'.v j = st.v j) ∧
      ∃ bytes, st'.s = st.s ++ bytes ∧ bytes.length = sz.string_size

theorem loopA {k : Nat} (ihBC : BCprop k) :
    ∀ (L : List (Input × Sizes)) (i m : Nat) (st : BuildSt),
      (∀ j, (hj : j < L.length) → st.v (i + j) = .Unparsed (L.get ⟨j, hj⟩).1) →
      (∀ p ∈ L, sizesValueP k p.1 = .ok (p.2, [])) →
      i + L.length ≤ m →
      ∃ st' u, buildArrayLoop (buildValueP k) L.length i m st =
          (.ok (m + (szNumSum L - L.length), u), st') ∧
        (∀ j, j < i ∨ (i + L.length ≤ j ∧ j < m) ∨
            m + (szNumSum L - L.length) ≤ j →
          st'.v j = st.v j) ∧
        ∃ bytes, st'.s = st.s ++ bytes ∧ bytes.length = szStrSum L := by
  intro L
  induction L with
  | nil =>
    intro i m st hspans hsz hbound
    refine ⟨st, [], ?_, ?_, [], by simp, ?_⟩
    · show buildArrayLoop (buildValueP k) 0 i m st = _
      unfold buildArrayLoop
      rw [show szNumSum [] - [].length = 0 from rfl]
      rfl
    · intro j _
      rfl
    · simp [szStrSum]
  | cons p L' ih =>
    intro i m st hspans hsz hbound
    have hv0 : st.v i = .Unparsed p.1 := by
      have := hspans 0 (by simp)
      simpa using this
    have hsz0 : sizesValueP k p.1 = .ok (p.2, []) := hsz p (List.mem_cons_self p L')
    have hpos0 : 1 ≤ p.2.num_objects := sizes_pos hsz0
    have hlt : i < m := by simp at hbound; omega
    obtain ⟨st₂, hbuild, hframe₂, bytes₂, hs₂, hlen₂⟩ :=
      ihBC i m p.1 st p.2 [] hlt hsz0
    have hpos' : L'.length ≤ szNumSum L' :=
      szNumSum_ge L' (fun q hq => hsz q (List.mem_cons_of_mem p hq))
    obtain ⟨st', u, hloop, hframe', bytes', hs', hlen'⟩ :=
      ih (i + 1) (m + (p.2.num_objects - 1)) st₂
        (by
          intro j hj
          have hne : i + 1 + j ≠ i := by omega
          rw [hframe₂ (i + 1 + j) hne (Or.inl (by simp at hbound; omega))]
          have := hspans (j + 1) (by simpa using Nat.succ_lt_succ hj)
          rw [show i + 1 + j = i + (j + 1) from by omega]
          rw [this]
          rfl)
        (fun q hq => hsz q (List.mem_cons_of_mem p hq))
        (by simp at hbound; omega)
    refine ⟨st', u, ?_, ?_, bytes₂ ++ bytes', ?_, ?_⟩
    · show buildArrayLoop (buildValueP k) (L'.length + 1) i m st = _
      unfold buildArrayLoop readUnparsed
      rw [hv0]
      dsimp only
      rw [hbuild]
      dsimp only
      rw [hloop]
      rw [show m + (p.2.num_objects - 1) + (szNumSum L' - L'.length) =
        m + (szNumSum (p :: L') - (p :: L').length) from by
          rw [szNumSum_cons]; simp; omega]
    · intro j hj
      have h1 : st'.v j = st₂.v j := by
        refine hframe' j ?_
        rw [szNumSum_cons] at hj
        simp at hj ⊢
        omega
      rw [h1]
      refine hframe₂ j (by rw [szNumSum_cons] at hj; simp at hj; omega)
        (by rw [szNumSum_cons] at hj; simp at hj; omega)
    · rw [hs', hs₂, List.append_assoc]
    · rw [szStrSum_cons]
      simp
      omega

end JSONM

namespace JSONM

open CxP

theorem first_elem_rel {k : Nat} {s1 : Input} {a : Sizes} {s' : Input}
    (hp1 : sizesValueP k s1 = .ok (a, s')) :
    ∃ w, extentValueP k s1 = .ok (w, s') ∧ sizesValueP k w = .ok (a, []) := by
  have hE := (rel_value k).1 s1 a s' hp1
  obtain ⟨pre, hpre⟩ := suff_sizesValueP k s1 a s' hp1
  have hw : s1.take (s1.length - s'.length) = pre := by
    rw [← hpre]
    have : (pre ++ s').length - s'.length = pre.length := by simp
    rw [this, List.take_left]
  refine ⟨s1.take (s1.length - s'.length), hE, ?_⟩
  rw [hw]
  have hsz : sizesValueP k (pre ++ s') = .ok (a, s') := by rw [hpre]; exact hp1
  exact ploc_sizesValueP k pre s' a [] (by simpa using hsz)

theorem sep1A {k : Nat} {s1 : Input} {szsep : Sizes} {s2 : Input}
    (max : Nat) (st : BuildSt)
    (h : separated_by_val (sizesValueP k)
      (seqSnd skip_whitespace (make_char_p (ch ','))) (Sizes.mk 1 0) Sizes.add s1 =
      .ok (szsep, s2)) :
    ∃ L : List (Input × Sizes),
      separated_by_valS (liftP (extentValueP k))
        (liftP (seqSnd skip_whitespace (make_char_p (ch ','))))
        max (fun i extent st => (i + 1, st.write i (.Unparsed extent))) s1 st =
        (.ok (max + L.length, s2), writeSpansA max L st) ∧
      (∀ p ∈ L, sizesValueP k p.1 = .ok (p.2, [])) ∧
      szsep = (L.map Prod.snd).foldl Sizes.add (Sizes.mk 1 0) := by
  rcases sep_ok h with ⟨hsoft, hacc, hr⟩ | ⟨a, s', hp1, hacc⟩
  · refine ⟨[], ?_, ?_, ?_⟩
    · have hE := (rel_value k).2 s1 hsoft
      have h1 : liftP (extentValueP k) s1 st = (.error .soft, st) := by
        rw [liftP_eq, hE]
      rw [sepS_soft_intro h1, hr]
      rfl
    · intro p hp
      cases hp
    · rw [hacc]
      rfl
  · obtain ⟨w, hE, hwsz⟩ := first_elem_rel hp1
    obtain ⟨L', haccS, hprops, hfold⟩ := acc1A s'.length (max + 1)
      (st.write max (.Unparsed w)) hacc
    refine ⟨(w, a) :: L', ?_, ?_, ?_⟩
    · have h1 : liftP (extentValueP k) s1 st = (.ok (w, s'), st) := by
        rw [liftP_eq, hE]
      have h2 : (fun i extent st => (i + 1, st.write i (.Unparsed extent)))
          max w st = (max + 1, st.write max (.Unparsed w)) := rfl
      rw [sepS_ok_intro h1 h2 haccS]
      rw [show max + 1 + L'.length = max + (L'.length + 1) from by omega]
      rfl
    · intro p hp
      rcases List.mem_cons.mp hp with hp | hp
      · rw [hp]
        exact hwsz
      · exact hprops p hp
    · rw [hfold]
      rfl

theorem szfold_num (L : List (Input × Sizes)) :
    ((L.map Prod.snd).foldl Sizes.add (Sizes.mk 1 0)).num_objects =
      1 + szNumSum L := by
  rw [foldl_sizes]
  simp [szNumSum, List.map_map]
  rfl

theorem szfold_str (L : List (Input × Sizes)) :
    ((L.map Prod.snd).foldl Sizes.add (Sizes.mk 1 0)).string_size = szStrSum L := by
  rw [foldl_sizes]
  simp [szStrSum, List.map_map]
  rfl

end JSONM

namespace JSONM

open CxP

theorem arrASM {k : Nat} (ihBC : BCprop k) {s : Input} {szarr : Sizes} {r : Input}
    (idx max : Nat) (st : BuildSt) (hlt : idx < max)
    (h : sizesArrayP (sizesValueP k) s = .ok (szarr, r)) :
    ∃ st', (seqSndS (liftP (make_char_p (ch '[')))
        (buildArrayP (buildValueP k) (extentValueP k) idx max)) s st =
        (.ok (max + (szarr.num_objects - 1), r), st') ∧
      (∀ j, j ≠ idx → (j < max ∨ max + (szarr.num_objects - 1) ≤ j) →
        st'.v j = st.v j) ∧
      ∃ bytes, st'.s = st.s ++ bytes ∧ bytes.length = szarr.string_size := by
  obtain ⟨x3, s3, xcl, h3, hcl, hx3⟩ := combine_ok h
  obtain ⟨x2, s2, uw, h2, hws, hx2⟩ := combine_ok h3
  obtain ⟨xch, s1, xsep, hch, hsep, hxc⟩ := combine_ok h2
  have hclch := close_ok hcl
  obtain ⟨L, hsepS, hprops, hfold⟩ := sep1A max st hsep
  have hnum : szarr.num_objects = 1 + szNumSum L := by
    rw [hx3, hx2, hxc, hfold]
    exact szfold_num L
  have hstr : szarr.string_size = szStrSum L := by
    rw [hx3, hx2, hxc, hfold]
    exact szfold_str L
  have hBIG : (seqFstS (seqFstS
      (separated_by_valS (liftP (extentValueP k))
        (liftP (seqSnd skip_whitespace (make_char_p (ch ','))))
        max (fun i extent st => (i + 1, st.write i (.Unparsed extent))))
      (liftP skip_whitespace))
      (liftP (make_char_p (ch ']')))) s1 st =
      (.ok (max + L.length, r), writeSpansA max L st) := by
    have hw' : liftP skip_whitespace s2 (writeSpansA max L st) =
        (.ok (uw, s3), writeSpansA max L st) := by
      rw [liftP_eq, hws]
    have hcl' : liftP (make_char_p (ch ']')) s3 (writeSpansA max L st) =
        (.ok (xcl, r), writeSpansA max L st) := by
      rw [liftP_eq, hclch]
    exact combineS_ok_intro (combineS_ok_intro hsepS hw') hcl'
  have hspans2 : ∀ j, (hj : j < L.length) →
      ((writeSpansA max L st).write idx (.Array ⟨max, L.length⟩)).v (max + j) =
        .Unparsed (L.get ⟨j, hj⟩).1 := by
    intro j hj
    rw [write_v, if_neg (by omega)]
    exact writeSpansA_v_at max L st j hj
  obtain ⟨st₃, u, hloop, hframe₃, bytes, hs₃, hlen₃⟩ :=
    loopA ihBC L max (max + L.length)
      ((writeSpansA max L st).write idx (.Array ⟨max, L.length⟩))
      hspans2 hprops (Nat.le_refl _)
  have hloopval : max + L.length + (szNumSum L - L.length) =
      max + (szarr.num_objects - 1) := by
    have := szNumSum_ge L hprops
    rw [hnum]
    omega
  refine ⟨st₃, ?_, ?_, bytes, ?_, ?_⟩
  · have hch' : liftP (make_char_p (ch '[')) s st = (.ok (xch, s1), st) := by
      rw [liftP_eq, hch]
    have h2' : buildArrayP (buildValueP k) (extentValueP k) idx max s1 st =
        (.ok (max + (szarr.num_objects - 1), r), st₃) := by
      unfold buildArrayP
      rw [hBIG]
      dsimp only
      rw [show max + L.length - max = L.length from by omega]
      rw [hloop, hloopval]
    exact combineS_ok_intro hch' h2'
  · intro j hne hreg
    have hn1 : 1 ≤ szarr.num_objects := by rw [hnum]; omega
    have hge := szNumSum_ge L hprops
    have hj3 : st₃.v j =
        ((writeSpansA max L st).write idx (.Array ⟨max, L.length⟩)).v j := by
      refine hframe₃ j ?_
      rcases hreg with hreg | hreg
      · exact Or.inl (by omega)
      · right; right
        rw [hloopval]
        exact hreg
    rw [hj3, write_v, if_neg hne]
    refine writeSpansA_v_lt max L st j ?_
    rcases hreg with hreg | hreg
    · exact Or.inl hreg
    · right
      rw [hnum] at hreg
      omega
  · rw [hs₃]
    show (writeSpansA max L st).s ++ bytes = st.s ++ bytes
    rw [writeSpansA_s]
  · rw [hlen₃, hstr]

end JSONM

namespace JSONM

open CxP

theorem bindS_err_intro1 {α β} {p : SParser α}
    {f : α → Input → BuildSt → PResult β × BuildSt}
    {i : Input} {st : BuildSt} {e : PErr} {st' : BuildSt}
    (h : p i st = (.error e, st')) : bindS p f i st = (.error e, st') := by
  unfold bindS
  rw [h]

theorem kvBS {k : Nat} {t : Input} {szkv : Sizes} {t' : Input}
    (h : sizesKeyValueP (sizesValueP k) t = .ok (szkv, t')) (st : BuildSt) :
    ∃ kve st' len vsz,
      buildKeyValueExtentP (extentValueP k) t st = (.ok (kve, t'), st') ∧
      st'.v = st.v ∧ (∃ kb, st'.s = st.s ++ kb ∧ kb.length = len) ∧
      sizesValueP k kve.val = .ok (vsz, []) ∧
      szkv = Sizes.mk (vsz.num_objects + 1) (vsz.string_size + len) := by
  obtain ⟨len, r1, hH, hk⟩ := bindP_ok h
  obtain ⟨vsz, hv, hszkv⟩ := fmap_ok hk
  obtain ⟨x2, rA, xc, h2, hcol, hx2⟩ := combine_ok hH
  obtain ⟨x1, rB, uw, h1, hw2, hx1⟩ := combine_ok h2
  obtain ⟨u1, rC, lenv, hw1, hstr, hx0⟩ := combine_ok h1
  obtain ⟨ev, kb, stB, hbs, hbv, hbss, hbl⟩ := bstr hstr st
  obtain ⟨w, hE, hwsz⟩ := first_elem_rel hv
  refine ⟨kv_extent.mk ev w, stB, len, vsz, ?_, hbv, ⟨kb, hbss, ?_⟩, hwsz, ?_⟩
  · have hA : (seqFstS (seqFstS (seqSndS (liftP skip_whitespace) buildStringP)
        (liftP skip_whitespace)) (liftP (make_char_p (ch ':')))) t st =
        (.ok (ev, r1), stB) := by
      have g1 : liftP skip_whitespace t st = (.ok (u1, rC), st) := by
        rw [liftP_eq, hw1]
      have g2 : liftP skip_whitespace rB stB = (.ok (uw, rA), stB) := by
        rw [liftP_eq, hw2]
      have g3 : liftP (make_char_p (ch ':')) rA stB = (.ok (xc, r1), stB) := by
        rw [liftP_eq, hcol]
      exact combineS_ok_intro (combineS_ok_intro (combineS_ok_intro g1 hbs) g2) g3
    refine bindS_ok_intro hA ?_
    show (fmap (fun val => kv_extent.mk ev val) (extentValueP k) r1, stB) = _
    rw [fmap_ok_intro hE]
  · rw [hbl]
    rw [hx2, hx1, hx0]
  · rw [hszkv, hx2, hx1, hx0]

theorem kv_soft_state {k : Nat} {t : Input} {q : Nat} {rr : Input}
    (hhead : make_char_p (ch '}') (t.dropWhile isWSb) = .ok (q, rr))
    (st : BuildSt) :
    buildKeyValueExtentP (extentValueP k) t st = (.error .soft, st) := by
  obtain ⟨hshape, _⟩ := char_ok hhead
  have hq : make_char_p (ch '"') (t.dropWhile isWSb) = .error .soft := by
    rw [hshape]
    simp [make_char_p, ch]
  have hstr : buildStringP (t.dropWhile isWSb) st = (.error .soft, st) := by
    unfold buildStringP
    refine combineS_err_intro1 (combineS_err_intro1 ?_)
    rw [liftP_eq, hq]
  have hws1 : liftP skip_whitespace t st = (.ok ((), t.dropWhile isWSb), st) := by
    rw [liftP_eq, ws_eq]
  exact bindS_err_intro1 (combineS_err_intro1 (combineS_err_intro1
    (combineS_err_intro2 hws1 hstr)))

theorem elemO_soft_state {k : Nat} {t : Input} {q : Nat} {rr : Input}
    (hhead : make_char_p (ch '}') (t.dropWhile isWSb) = .ok (q, rr))
    (st : BuildSt) :
    (seqSndS (liftP (seqSnd skip_whitespace (make_char_p (ch ','))))
      (buildKeyValueExtentP (extentValueP k))) t st = (.error .soft, st) := by
  obtain ⟨hshape, _⟩ := char_ok hhead
  refine combineS_err_intro1 ?_
  rw [liftP_eq]
  have : (seqSnd skip_whitespace (make_char_p (ch ','))) t = .error .soft := by
    refine combine_err_intro2 (by rw [ws_eq]) ?_
    rw [hshape]
    simp [make_char_p, ch]
  rw [this]

theorem elemO_soft_pure {k : Nat} {t : Input} {q : Nat} {rr : Input}
    (hhead : make_char_p (ch '}') (t.dropWhile isWSb) = .ok (q, rr)) :
    (seqSnd (seqSnd skip_whitespace (make_char_p (ch ',')))
      (sizesKeyValueP (sizesValueP k))) t = .error .soft := by
  obtain ⟨hshape, _⟩ := char_ok hhead
  refine combine_err_intro1 (combine_err_intro2 (by rw [ws_eq]) ?_)
  rw [hshape]
  simp [make_char_p, ch]

end JSONM

namespace JSONM

open CxP

theorem acc1O {k : Nat} : ∀ (F : Nat) {s : Input} {szacc szTot : Sizes} {r : Input}
    (i : Nat) (st : BuildSt) {q : Nat} {rr : Input},
    accumulate_parse (seqSnd (seqSnd skip_whitespace (make_char_p (ch ',')))
      (sizesKeyValueP (sizesValueP k))) Sizes.add F s szacc = .ok (szTot, r) →
    make_char_p (ch '}') (r.dropWhile isWSb) = .ok (q, rr) →
    ∃ (L : List (Input × Sizes × Nat)) (st' : BuildSt),
      accumulateS (seqSndS (liftP (seqSnd skip_whitespace (make_char_p (ch ','))))
          (buildKeyValueExtentP (extentValueP k)))
        (fun i kve st => (i + 2, (st.write i (.String kve.key)).write (i + 1)
          (.Unparsed kve.val))) F s i st =
        (.ok (i + 2 * L.length, r), st') ∧
      (∀ j, (hj : j < L.length) → st'.v (i + 2 * j + 1) =
        .Unparsed (L.get ⟨j, hj⟩).1) ∧
      (∀ j, (j < i ∨ i + 2 * L.length ≤ j) → st'.v j = st.v j) ∧
      (∃ kb, st'.s = st.s ++ kb ∧
        kb.length = (L.map (fun e => e.2.2)).sum) ∧
      (∀ e ∈ L, sizesValueP k e.1 = .ok (e.2.1, [])) ∧
      szTot = (L.map (fun e =>
        Sizes.mk (e.2.1.num_objects + 1) (e.2.1.string_size + e.2.2))).foldl
        Sizes.add szacc := by
  intro F
  induction F with
  | zero =>
    intro s szacc szTot r i st q rr h hhead
    rw [accumulate_parse_zero] at h
    injection h with h'
    injection h' with h1 h2
    refine ⟨[], st, ?_, ?_, ?_, ⟨[], by simp, rfl⟩, ?_, ?_⟩
    · rw [accumulateS_zero, ← h2]
      rfl
    · intro j hj
      cases hj
    · intro j _
      rfl
    · intro e he
      cases he
    · rw [← h1]
      rfl
  | succ F ih =>
    intro s szacc szTot r i st q rr h hhead
    cases s with
    | nil =>
      rw [accumulate_parse_nil] at h
      injection h with h'
      injection h' with h1 h2
      refine ⟨[], st, ?_, ?_, ?_, ⟨[], by simp, rfl⟩, ?_, ?_⟩
      · rw [accumulateS_nil, ← h2]
        rfl
      · intro j hj
        cases hj
      · intro j _
        rfl
      · intro e he
        cases he
      · rw [← h1]
        rfl
    | cons c cs =>
      rw [accumulate_parse_cons] at h
      rw [accumulateS_cons]
      cases hel : (seqSnd (seqSnd skip_whitespace (make_char_p (ch ',')))
          (sizesKeyValueP (sizesValueP k))) (c :: cs) with
      | error e =>
        cases e <;> rw [hel] at h
        · injection h with h'
          injection h' with h1 h2
          have hhead' : make_char_p (ch '}') ((c :: cs).dropWhile isWSb) =
              .ok (q, rr) := by
            rw [h2]
            exact hhead
          rw [elemO_soft_state hhead' st]
          refine ⟨[], st, ?_, ?_, ?_, ⟨[], by simp, rfl⟩, ?_, ?_⟩
          · rw [← h2]
            rfl
          · intro j hj
            cases hj
          · intro j _
            rfl
          · intro e he
            cases he
          · rw [← h1]
            rfl
        · cases h
      | ok ar =>
        obtain ⟨szkv, s'⟩ := ar
        rw [hel] at h
        obtain ⟨xsep, t1, xkv, hsep', hkv, hxel⟩ := combine_ok hel
        obtain ⟨kve, stB, len, vsz, hkvb, hkvv, ⟨kb0, hkbs, hkbl⟩, hwsz, hszkv⟩ :=
          kvBS hkv st
        have helS : (seqSndS (liftP (seqSnd skip_whitespace (make_char_p (ch ','))))
            (buildKeyValueExtentP (extentValueP k))) (c :: cs) st =
            (.ok (kve, s'), stB) := by
          have g1 : liftP (seqSnd skip_whitespace (make_char_p (ch ','))) (c :: cs) st
              = (.ok (xsep, t1), st) := by
            rw [liftP_eq, hsep']
          exact combineS_ok_intro g1 hkvb
        rw [helS]
        dsimp only
        obtain ⟨L', st', haccS, hodd, hframe, ⟨kb', hkb's, hkb'l⟩, hprops, hfold⟩ :=
          ih (i + 2) ((stB.write i (.String kve.key)).write (i + 1)
            (.Unparsed kve.val)) h hhead
        refine ⟨(kve.val, vsz, len) :: L', st', ?_, ?_, ?_, ?_, ?_, ?_⟩
        · rw [haccS, show i + 2 + 2 * L'.length = i + 2 * (L'.length + 1) from
            by omega]
          rfl
        · intro j hj
          cases j with
          | zero =>
            rw [hframe (i + 2 * 0 + 1) (Or.inl (by omega))]
            rw [write_v, if_pos (by omega)]
            rfl
          | succ j =>
            have := hodd j (by simpa using Nat.succ_lt_succ hj)
            rw [show i + 2 * (j + 1) + 1 = i + 2 + 2 * j + 1 from by omega]
            rw [this]
            rfl
        · intro j hj
          have hj2 : j < i + 2 ∨ i + 2 + 2 * L'.length ≤ j := by
            rcases hj with hj | hj
            · exact Or.inl (by omega)
            · right
              simp at hj
              omega
          have hne1 : ¬ j = i + 1 := by
            rcases hj with hj | hj
            · omega
            · simp at hj
              omega
          have hne0 : ¬ j = i := by
            rcases hj with hj | hj
            · omega
            · simp at hj
              omega
          rw [hframe j hj2, write_v, if_neg hne1, write_v, if_neg hne0, hkvv]
        · refine ⟨kb0 ++ kb', ?_, ?_⟩
          · rw [hkb's]
            show ((stB.write i (.String kve.key)).write (i + 1)
              (.Unparsed kve.val)).s ++ kb' = st.s ++ (kb0 ++ kb')
            rw [write_s, write_s, hkbs, List.append_assoc]
          · simp only [List.length_append, List.map_cons, List.sum_cons, hkbl, hkb'l]
        · intro e he
          rcases List.mem_cons.mp he with he | he
          · rw [he]
            exact hwsz
          · exact hprops e he
        · rw [hfold, hxel, hszkv]
          rfl

end JSONM

namespace JSONM

open CxP

theorem sep1O {k : Nat} {s1 : Input} {szsep : Sizes} {s2 : Input}
    (max : Nat) (st : BuildSt) {q : Nat} {rr : Input}
    (h : separated_by_val (sizesKeyValueP (sizesValueP k))
      (seqSnd skip_whitespace (make_char_p (ch ','))) (Sizes.mk 1 0) Sizes.add s1 =
      .ok (szsep, s2))
    (hhead : make_char_p (ch '}') (s2.dropWhile isWSb) = .ok (q, rr)) :
    ∃ (L : List (Input × Sizes × Nat)) (st' : BuildSt),
      separated_by_valS (buildKeyValueExtentP (extentValueP k))
        (liftP (seqSnd skip_whitespace (make_char_p (ch ','))))
        max (fun i kve st => (i + 2, (st.write i (.String kve.key)).write (i + 1)
          (.Unparsed kve.val))) s1 st =
        (.ok (max + 2 * L.length, s2), st') ∧
      (∀ j, (hj : j < L.length) → st'.v (max + 2 * j + 1) =
        .Unparsed (L.get ⟨j, hj⟩).1) ∧
      (∀ j, (j < max ∨ max + 2 * L.length ≤ j) → st'.v j = st.v j) ∧
      (∃ kb, st'.s = st.s ++ kb ∧
        kb.length = (L.map (fun e => e.2.2)).sum) ∧
      (∀ e ∈ L, sizesValueP k e.1 = .ok (e.2.1, [])) ∧
      szsep = (L.map (fun e =>
        Sizes.mk (e.2.1.num_objects + 1) (e.2.1.string_size + e.2.2))).foldl
        Sizes.add (Sizes.mk 1 0) := by
  rcases sep_ok h with ⟨hsoft, hacc, hr⟩ | ⟨a, s', hp1, hacc⟩
  · have hhead' : make_char_p (ch '}') (s1.dropWhile isWSb) = .ok (q, rr) := by
      rw [← hr]
      exact hhead
    refine ⟨[], st, ?_, ?_, ?_, ⟨[], by simp, rfl⟩, ?_, ?_⟩
    · rw [sepS_soft_intro (kv_soft_state hhead' st), hr]
      rfl
    · intro j hj
      cases hj
    · intro j _
      rfl
    · intro e he
      cases he
    · rw [hacc]
      rfl
  · obtain ⟨kve, stB, len, vsz, hkvb, hkvv, ⟨kb0, hkbs, hkbl⟩, hwsz, hszkv⟩ :=
      kvBS hp1 st
    obtain ⟨L', st', haccS, hodd, hframe, ⟨kb', hkb's, hkb'l⟩, hprops, hfold⟩ :=
      acc1O s'.length (max + 2) ((stB.write max (.String kve.key)).write (max + 1)
        (.Unparsed kve.val)) hacc hhead
    have h2 : (fun i kve st => (i + 2, (st.write i (.String kve.key)).write (i + 1)
        (.Unparsed kve.val))) max kve stB =
        (max + 2, (stB.write max (.String kve.key)).write (max + 1)
          (.Unparsed kve.val)) := rfl
    refine ⟨(kve.val, vsz, len) :: L', st', ?_, ?_, ?_, ?_, ?_, ?_⟩
    · rw [sepS_ok_intro hkvb h2 haccS]
      rw [show max + 2 + 2 * L'.length = max + 2 * (L'.length + 1) from by omega]
      rfl
    · intro j hj
      cases j with
      | zero =>
        rw [hframe (max + 2 * 0 + 1) (Or.inl (by omega))]
        rw [write_v, if_pos (by omega)]
        rfl
      | succ j =>
        have := hodd j (by simpa using Nat.succ_lt_succ hj)
        rw [show max + 2 * (j + 1) + 1 = max + 2 + 2 * j + 1 from by omega]
        rw [this]
        rfl
    · intro j hj
      have hj2 : j < max + 2 ∨ max + 2 + 2 * L'.length ≤ j := by
        rcases hj with hj | hj
        · exact Or.inl (by omega)
        · right
          simp at hj
          omega
      have hne1 : ¬ j = max + 1 := by
        rcases hj with hj | hj
        · omega
        · simp at hj
          omega
      have hne0 : ¬ j = max := by
        rcases hj with hj | hj
        · omega
        · simp at hj
          omega
      rw [hframe j hj2, write_v, if_neg hne1, write_v, if_neg hne0, hkvv]
    · refine ⟨kb0 ++ kb', ?_, ?_⟩
      · rw [hkb's]
        show ((stB.write max (.String kve.key)).write (max + 1)
          (.Unparsed kve.val)).s ++ kb' = st.s ++ (kb0 ++ kb')
        rw [write_s, write_s, hkbs, List.append_assoc]
      · simp only [List.length_append, List.map_cons, List.sum_cons, hkbl, hkb'l]
    · intro e he
      rcases List.mem_cons.mp he with he | he
      · rw [he]
        exact hwsz
      · exact hprops e he
    · rw [hfold, hszkv]
      rfl

end JSONM

namespace JSONM

open CxP

/-- Node count demanded by the member values of an object span list. -/
def numSumO (L : List (Input × Sizes × Nat)) : Nat :=
  (L.map (fun e => e.2.1.num_objects)).sum

/-- String byte count demanded by the member values of an object span list. -/
def strSumO (L : List (Input × Sizes × Nat)) : Nat :=
  (L.map (fun e => e.2.1.string_size)).sum

theorem numSumO_cons (e : Input × Sizes × Nat) (L : List (Input × Sizes × Nat)) :
    numSumO (e :: L) = e.2.1.num_objects + numSumO L := by
  simp [numSumO]

theorem strSumO_cons (e : Input × Sizes × Nat) (L : List (Input × Sizes × Nat)) :
    strSumO (e :: L) = e.2.1.string_size + strSumO L := by
  simp [strSumO]

theorem numSumO_ge {k : Nat} (L : List (Input × Sizes × Nat))
    (h : ∀ e ∈ L, sizesValueP k e.1 = .ok (e.2.1, [])) :
    L.length ≤ numSumO L := by
  induction L with
  | nil => simp [numSumO]
  | cons e L' ih =>
    rw [numSumO_cons]
    have h1 := sizes_pos (h e (List.mem_cons_self e L'))
    have h2 := ih (fun q hq => h q (List.mem_cons_of_mem e hq))
    simp
    omega

theorem loopO {k : Nat} (ihBC : BCprop k) :
    ∀ (L : List (Input × Sizes × Nat)) (i m : Nat) (st : BuildSt),
      (∀ j, (hj : j < L.length) → st.v (i + 2 * j + 1) =
        .Unparsed (L.get ⟨j, hj⟩).1) →
      (∀ e ∈ L, sizesValueP k e.1 = .ok (e.2.1, [])) →
      i + 2 * L.length ≤ m →
      ∃ st' u, buildObjectLoop (buildValueP k) L.length i m st =
          (.ok (m + (numSumO L - L.length), u), st') ∧
        (∀ j, (j < i ∨ (i + 2 * L.length ≤ j ∧ j < m) ∨
            m + (numSumO L - L.length) ≤ j) →
          st'.v j = st.v j) ∧
        ∃ bytes, st'.s = st.s ++ bytes ∧ bytes.length = strSumO L := by
  intro L
  induction L with
  | nil =>
    intro i m st hspans hsz hbound
    refine ⟨st, [], ?_, ?_, [], by simp, ?_⟩
    · show buildObjectLoop (buildValueP k) 0 i m st = _
      unfold buildObjectLoop
      rw [show numSumO [] - [].length = 0 from rfl]
      rfl
    · intro j _
      rfl
    · simp [strSumO]
  | cons e L' ih =>
    intro i m st hspans hsz hbound
    have hv0 : st.v (i + 1) = .Unparsed e.1 := by
      have := hspans 0 (by simp)
      simpa using this
    have hsz0 : sizesValueP k e.1 = .ok (e.2.1, []) := hsz e (List.mem_cons_self e L')
    have hpos0 : 1 ≤ e.2.1.num_objects := sizes_pos hsz0
    have hlt : i + 1 < m := by simp at hbound; omega
    obtain ⟨st₂, hbuild, hframe₂, bytes₂, hs₂, hlen₂⟩ :=
      ihBC (i + 1) m e.1 st e.2.1 [] hlt hsz0
    have hpos' : L'.length ≤ numSumO L' :=
      numSumO_ge L' (fun q hq => hsz q (List.mem_cons_of_mem e hq))
    obtain ⟨st', u, hloop, hframe', bytes', hs', hlen'⟩ :=
      ih (i + 2) (m + (e.2.1.num_objects - 1)) st₂
        (by
          intro j hj
          have hne : i + 2 + 2 * j + 1 ≠ i + 1 := by omega
          rw [hframe₂ (i + 2 + 2 * j + 1) hne (Or.inl (by simp at hbound; omega))]
          have := hspans (j + 1) (by simpa using Nat.succ_lt_succ hj)
          rw [show i + 2 + 2 * j + 1 = i + 2 * (j + 1) + 1 from by omega]
          rw [this]
          rfl)
        (fun q hq => hsz q (List.mem_cons_of_mem e hq))
        (by simp at hbound; omega)
    refine ⟨st', u, ?_, ?_, bytes₂ ++ bytes', ?_, ?_⟩
    · show buildObjectLoop (buildValueP k) (L'.length + 1) i m st = _
      unfold buildObjectLoop readUnparsed
      rw [hv0]
      dsimp only
      rw [hbuild]
      dsimp only
      rw [hloop]
      rw [show m + (e.2.1.num_objects - 1) + (numSumO L' - L'.length) =
        m + (numSumO (e :: L') - (e :: L').length) from by
          rw [numSumO_cons]; simp; omega]
    · intro j hj
      have h1 : st'.v j = st₂.v j := by
        refine hframe' j ?_
        rw [numSumO_cons] at hj
        simp at hj ⊢
        omega
      rw [h1]
      refine hframe₂ j (by rw [numSumO_cons] at hj; simp at hj; omega)
        (by rw [numSumO_cons] at hj; simp at hj; omega)
    · rw [hs', hs₂, List.append_assoc]
    · rw [strSumO_cons]
      simp
      omega

end JSONM

namespace JSONM

open CxP

theorem sum_map_add {α} (f g : α → Nat) (L : List α) :
    (L.map (fun e => f e + g e)).sum = (L.map f).sum + (L.map g).sum := by
  induction L with
  | nil => simp
  | cons e L' ih =>
    simp [ih]
    omega

theorem szfold_numO (L : List (Input × Sizes × Nat)) :
    ((L.map (fun e => Sizes.mk (e.2.1.num_objects + 1)
      (e.2.1.string_size + e.2.2))).foldl Sizes.add (Sizes.mk 1 0)).num_objects =
      1 + L.length + numSumO L := by
  rw [foldl_sizes]
  show 1 + (List.map Sizes.num_objects (L.map (fun e => Sizes.mk
    (e.2.1.num_objects + 1) (e.2.1.string_size + e.2.2)))).sum = _
  rw [List.map_map]
  have : (List.map (Sizes.num_objects ∘ fun e => Sizes.mk (e.2.1.num_objects + 1)
      (e.2.1.string_size + e.2.2)) L) =
      L.map (fun e => e.2.1.num_objects + 1) := rfl
  rw [this, sum_map_add (fun e => e.2.1.num_objects) (fun _ => 1) L]
  simp [numSumO]
  omega

theorem szfold_strO (L : List (Input × Sizes × Nat)) :
    ((L.map (fun e => Sizes.mk (e.2.1.num_objects + 1)
      (e.2.1.string_size + e.2.2))).foldl Sizes.add (Sizes.mk 1 0)).string_size =
      strSumO L + (L.map (fun e => e.2.2)).sum := by
  rw [foldl_sizes]
  show 0 + (List.map Sizes.string_size (L.map (fun e => Sizes.mk
    (e.2.1.num_objects + 1) (e.2.1.string_size + e.2.2)))).sum = _
  rw [List.map_map]
  have : (List.map (Sizes.string_size ∘ fun e => Sizes.mk (e.2.1.num_objects + 1)
      (e.2.1.string_size + e.2.2)) L) =
      L.map (fun e => e.2.1.string_size + e.2.2) := rfl
  rw [this, sum_map_add (fun e => e.2.1.string_size) (fun e => e.2.2) L]
  simp [strSumO]

end JSONM

namespace JSONM

open CxP

theorem objASM {k : Nat} (ihBC : BCprop k) {s : Input} {szobj : Sizes} {r : Input}
    (idx max : Nat) (st : BuildSt) (hlt : idx < max)
    (h : sizesObjectP (sizesValueP k) s = .ok (szobj, r)) :
    ∃ st', (seqSndS (liftP (make_char_p (ch '{')))
        (buildObjectP (buildValueP k) (extentValueP k) idx max)) s st =
        (.ok (max + (szobj.num_objects - 1), r), st') ∧
      (∀ j, j ≠ idx → (j < max ∨ max + (szobj.num_objects - 1) ≤ j) →
        st'.v j = st.v j) ∧
      ∃ bytes, st'.s = st.s ++ bytes ∧ bytes.length = szobj.string_size := by
  obtain ⟨x3, s3, xcl, h3, hcl, hx3⟩ := combine_ok h
  obtain ⟨x2, s2, uw, h2, hws, hx2⟩ := combine_ok h3
  obtain ⟨xch, s1, xsep, hch, hsep, hxc⟩ := combine_ok h2
  have hclch := close_ok hcl
  have hs3 : s3 = s2.dropWhile isWSb := by
    rw [ws_eq] at hws
    injection hws with hws'
    injection hws' with _ hws2
    exact hws2.symm
  rw [hs3] at hclch
  obtain ⟨L, st₁, hsepS, hodd, hframe₁, ⟨kb, hkb, hkbl⟩, hprops, hfold⟩ :=
    sep1O max st hsep hclch
  have hnum : szobj.num_objects = 1 + L.length + numSumO L := by
    rw [hx3, hx2, hxc, hfold]
    exact szfold_numO L
  have hstr : szobj.string_size = strSumO L + (L.map (fun e => e.2.2)).sum := by
    rw [hx3, hx2, hxc, hfold]
    exact szfold_strO L
  have hBIG : (seqFstS (seqFstS
      (separated_by_valS (buildKeyValueExtentP (extentValueP k))
        (liftP (seqSnd skip_whitespace (make_char_p (ch ','))))
        max (fun i kve st => (i + 2, (st.write i (.String kve.key)).write (i + 1)
          (.Unparsed kve.val))))
      (liftP skip_whitespace))
      (liftP (make_char_p (ch '}')))) s1 st =
      (.ok (max + 2 * L.length, r), st₁) := by
    have hw' : liftP skip_whitespace s2 st₁ = (.ok (uw, s3), st₁) := by
      rw [liftP_eq, hws]
    have hcl' : liftP (make_char_p (ch '}')) s3 st₁ = (.ok (xcl, r), st₁) := by
      rw [liftP_eq, hs3, hclch]
    exact combineS_ok_intro (combineS_ok_intro hsepS hw') hcl'
  have hspans2 : ∀ j, (hj : j < L.length) →
      ((st₁.write idx (.Object ⟨max, 2 * L.length⟩))).v (max + 2 * j + 1) =
        .Unparsed (L.get ⟨j, hj⟩).1 := by
    intro j hj
    rw [write_v, if_neg (by omega)]
    exact hodd j hj
  obtain ⟨st₃, u, hloop, hframe₃, bytes, hs₃, hlen₃⟩ :=
    loopO ihBC L max (max + 2 * L.length)
      (st₁.write idx (.Object ⟨max, 2 * L.length⟩))
      hspans2 hprops (Nat.le_refl _)
  have hge := numSumO_ge L hprops
  have hloopval : max + 2 * L.length + (numSumO L - L.length) =
      max + (szobj.num_objects - 1) := by
    rw [hnum]
    omega
  refine ⟨st₃, ?_, ?_, kb ++ bytes, ?_, ?_⟩
  · have hch' : liftP (make_char_p (ch '{')) s st = (.ok (xch, s1), st) := by
      rw [liftP_eq, hch]
    have h2' : buildObjectP (buildValueP k) (extentValueP k) idx max s1 st =
        (.ok (max + (szobj.num_objects - 1), r), st₃) := by
      unfold buildObjectP
      rw [hBIG]
      dsimp only
      rw [show max + 2 * L.length - max = 2 * L.length from by omega]
      rw [show 2 * L.length / 2 = L.length from by omega]
      rw [hloop, hloopval]
    exact combineS_ok_intro hch' h2'
  · intro j hne hreg
    have hn1 : 1 ≤ szobj.num_objects := by rw [hnum]; omega
    have hj3 : st₃.v j =
        (st₁.write idx (.Object ⟨max, 2 * L.length⟩)).v j := by
      refine hframe₃ j ?_
      rcases hreg with hreg | hreg
      · exact Or.inl (by omega)
      · right; right
        rw [hloopval]
        exact hreg
    rw [hj3, write_v, if_neg hne]
    refine hframe₁ j ?_
    rcases hreg with hreg | hreg
    · exact Or.inl hreg
    · right
      rw [hnum] at hreg
      omega
  · rw [hs₃]
    show (st₁.write idx (.Object ⟨max, 2 * L.length⟩)).s ++ bytes = _
    rw [write_s, hkb, List.append_assoc]
  · rw [hstr]
    simp
    omega

end JSONM

namespace JSONM

open CxP

theorem arr_soft_char {val : Parser Sizes} {i : Input}
    (h : sizesArrayP val i = .error .soft) :
    make_char_p (ch '[') i = .error .soft := by
  rcases combine_err h with h' | ⟨x, r1, _, h2⟩
  · rcases combine_err h' with h'' | ⟨x2, r2, _, h3⟩
    · rcases combine_err h'' with h''' | ⟨x3, r3, _, h4⟩
      · exact h'''
      · exact absurd h4 (sep_never_soft _ _ _ _ r3)
    · exact absurd h3 (ws_never_soft r2)
  · exact absurd h2 (altFailHard_never_soft _ r1)

theorem buildStringP_soft_head {c : Nat} {rest : Input} (st : BuildSt)
    (hc : ¬ c = ch '"') :
    buildStringP (c :: rest) st = (.error .soft, st) := by
  unfold buildStringP
  refine combineS_err_intro1 (combineS_err_intro1 ?_)
  rw [liftP_eq]
  have : make_char_p (ch '"') (c :: rest) = .error .soft := by
    simp [make_char_p, hc]
  rw [this]

theorem scalar_soft_parts {i : Input} (h : sizesScalarP i = .error .soft) :
    make_string_p (str2bytes "true") i = .error .soft ∧
    make_string_p (str2bytes "false") i = .error .soft ∧
    make_string_p (str2bytes "null") i = .error .soft ∧
    numberP i = .error .soft ∧
    stringSizeP i = .error .soft := by
  unfold sizesScalarP at h
  rcases alt_err h with ⟨_, he⟩ | ⟨h1, h2⟩
  · cases he
  · have hSTRS := fmap_err.mp h1
    rcases alt_err hSTRS with ⟨_, he⟩ | ⟨hT, hFN⟩
    · cases he
    · rcases alt_err hFN with ⟨_, he⟩ | ⟨hF, hN⟩
      · cases he
      · rcases alt_err h2 with ⟨_, he⟩ | ⟨hnum, hstr⟩
        · cases he
        · exact ⟨hT, hF, hN, fmap_err.mp hnum, fmap_err.mp hstr⟩

end JSONM

namespace JSONM

open CxP

theorem BC : ∀ k, BCprop k := by
  intro k
  induction k with
  | zero =>
    intro idx max i st sz r _ h
    cases h
  | succ k ih =>
    intro idx max i st sz r hlt h
    obtain ⟨u, r1, xv, hw, hxv, hxsz⟩ := combine_ok h
    have hszxv : sz = xv := hxsz
    subst hszxv
    rw [buildValueP_succ]
    have g0 : liftP skip_whitespace i st = (.ok (u, r1), st) := by
      rw [liftP_eq, hw]
    rcases alt_ok hxv with hsc | ⟨hscsoft, harr_obj⟩
    · rcases alt_ok hsc with hstr1 | ⟨hstr1soft, hsc2⟩
      · obtain ⟨y, hSTRS, hszv⟩ := fmap_ok hstr1
        rcases alt_ok hSTRS with hT | ⟨hTsoft, hFN⟩
        · refine ⟨st.write idx (.Boolean true), ?_, ?_, [], ?_, ?_⟩
          · rw [hszv]
            exact combineS_ok_intro g0 (altS_ok_intro1
              (fmapEff_ok_intro (show liftP (make_string_p (str2bytes "true")) r1 st
                = (.ok (y, r), st) by rw [liftP_eq, hT]) rfl))
          · intro j hne _
            rw [write_v, if_neg hne]
          · rw [write_s]
            simp
          · rw [hszv]
            rfl
        · rcases alt_ok hFN with hF | ⟨hFsoft, hN⟩
          · refine ⟨st.write idx (.Boolean false), ?_, ?_, [], ?_, ?_⟩
            · rw [hszv]
              refine combineS_ok_intro g0 (altS_ok_intro2
                (fmapEff_err_intro (show liftP (make_string_p (str2bytes "true")) r1 st
                  = (.error .soft, st) by rw [liftP_eq, hTsoft])) ?_)
              exact altS_ok_intro1
                (fmapEff_ok_intro (show liftP (make_string_p (str2bytes "false")) r1 st
                  = (.ok (y, r), st) by rw [liftP_eq, hF]) rfl)
            · intro j hne _
              rw [write_v, if_neg hne]
            · rw [write_s]
              simp
            · rw [hszv]
              rfl
          · refine ⟨st.write idx .Null, ?_, ?_, [], ?_, ?_⟩
            · rw [hszv]
              refine combineS_ok_intro g0 (altS_ok_intro2
                (fmapEff_err_intro (show liftP (make_string_p (str2bytes "true")) r1 st
                  = (.error .soft, st) by rw [liftP_eq, hTsoft])) ?_)
              refine altS_ok_intro2
                (fmapEff_err_intro (show liftP (make_string_p (str2bytes "false")) r1 st
                  = (.error .soft, st) by rw [liftP_eq, hFsoft])) ?_
              exact altS_ok_intro1
                (fmapEff_ok_intro (show liftP (make_string_p (str2bytes "null")) r1 st
                  = (.ok (y, r), st) by rw [liftP_eq, hN]) rfl)
            · intro j hne _
              rw [write_v, if_neg hne]
            · rw [write_s]
              simp
            · rw [hszv]
              rfl
      · have hSTRSsoft := fmap_err.mp hstr1soft
        rcases alt_err hSTRSsoft with ⟨_, he⟩ | ⟨hTsoft, hFN⟩
        · cases he
        rcases alt_err hFN with ⟨_, he⟩ | ⟨hFsoft, hNsoft⟩
        · cases he
        rcases alt_ok hsc2 with hnum | ⟨hnumsoft, hstr⟩
        · obtain ⟨d, hd, hszv⟩ := fmap_ok hnum
          refine ⟨st.write idx (.Number d), ?_, ?_, [], ?_, ?_⟩
          · rw [hszv]
            refine combineS_ok_intro g0 (altS_ok_intro2
              (fmapEff_err_intro (show liftP (make_string_p (str2bytes "true")) r1 st
                = (.error .soft, st) by rw [liftP_eq, hTsoft])) ?_)
            refine altS_ok_intro2
              (fmapEff_err_intro (show liftP (make_string_p (str2bytes "false")) r1 st
                = (.error .soft, st) by rw [liftP_eq, hFsoft])) ?_
            refine altS_ok_intro2
              (fmapEff_err_intro (show liftP (make_string_p (str2bytes "null")) r1 st
                = (.error .soft, st) by rw [liftP_eq, hNsoft])) ?_
            exact altS_ok_intro1
              (fmapEff_ok_intro (show liftP numberP r1 st
                = (.ok (d, r), st) by rw [liftP_eq, hd]) rfl)
          · intro j hne _
            rw [write_v, if_neg hne]
          · rw [write_s]
            simp
          · rw [hszv]
            rfl
        · have hnum' := fmap_err.mp hnumsoft
          obtain ⟨len, hlenok, hszv⟩ := fmap_ok hstr
          obtain ⟨ev, bytes, stB, hbs, hbv, hbss, hblen⟩ := bstr hlenok st
          refine ⟨stB.write idx (.String ev), ?_, ?_, bytes, ?_, ?_⟩
          · rw [hszv]
            refine combineS_ok_intro g0 (altS_ok_intro2
              (fmapEff_err_intro (show liftP (make_string_p (str2bytes "true")) r1 st
                = (.error .soft, st) by rw [liftP_eq, hTsoft])) ?_)
            refine altS_ok_intro2
              (fmapEff_err_intro (show liftP (make_string_p (str2bytes "false")) r1 st
                = (.error .soft, st) by rw [liftP_eq, hFsoft])) ?_
            refine altS_ok_intro2
              (fmapEff_err_intro (show liftP (make_string_p (str2bytes "null")) r1 st
                = (.error .soft, st) by rw [liftP_eq, hNsoft])) ?_
            refine altS_ok_intro2
              (fmapEff_err_intro (show liftP numberP r1 st
                = (.error .soft, st) by rw [liftP_eq, hnum'])) ?_
            exact altS_ok_intro1 (fmapEff_ok_intro hbs rfl)
          · intro j hne _
            rw [write_v, if_neg hne, hbv]
          · rw [write_s, hbss]
          · rw [hszv]
            exact hblen
    · obtain ⟨hTsoft, hFsoft, hNsoft, hnumsoft, hstrsoft⟩ := scalar_soft_parts hscsoft
      rcases alt_ok harr_obj with harr | ⟨harrsoft, hobj⟩
      · obtain ⟨xc3, sc3, xccl, hc3, _, _⟩ := combine_ok harr
        obtain ⟨xc2, sc2, ucw, hc2, _, _⟩ := combine_ok hc3
        obtain ⟨xcch, sc1, xcsep, hcch, _, _⟩ := combine_ok hc2
        obtain ⟨hr1shape, _⟩ := char_ok hcch
        obtain ⟨st₃, hbranch, hframe, bytes, hbs, hbl⟩ :=
          arrASM ih idx max st hlt harr
        refine ⟨st₃, ?_, hframe, bytes, hbs, hbl⟩
        refine combineS_ok_intro g0 (altS_ok_intro2
          (fmapEff_err_intro (show liftP (make_string_p (str2bytes "true")) r1 st
            = (.error .soft, st) by rw [liftP_eq, hTsoft])) ?_)
        refine altS_ok_intro2
          (fmapEff_err_intro (show liftP (make_string_p (str2bytes "false")) r1 st
            = (.error .soft, st) by rw [liftP_eq, hFsoft])) ?_
        refine altS_ok_intro2
          (fmapEff_err_intro (show liftP (make_string_p (str2bytes "null")) r1 st
            = (.error .soft, st) by rw [liftP_eq, hNsoft])) ?_
        refine altS_ok_intro2
          (fmapEff_err_intro (show liftP numberP r1 st
            = (.error .soft, st) by rw [liftP_eq, hnumsoft])) ?_
        refine altS_ok_intro2
          (fmapEff_err_intro (show buildStringP r1 st = (.error .soft, st) by
            rw [hr1shape]
            exact buildStringP_soft_head st (by decide))) ?_
        exact altS_ok_intro1 hbranch
      · obtain ⟨xc3, sc3, xccl, hc3, _, _⟩ := combine_ok hobj
        obtain ⟨xc2, sc2, ucw, hc2, _, _⟩ := combine_ok hc3
        obtain ⟨xcch, sc1, xcsep, hcch, _, _⟩ := combine_ok hc2
        obtain ⟨hr1shape, _⟩ := char_ok hcch
        obtain ⟨st₃, hbranch, hframe, bytes, hbs, hbl⟩ :=
          objASM ih idx max st hlt hobj
        refine ⟨st₃, ?_, hframe, bytes, hbs, hbl⟩
        refine combineS_ok_intro g0 (altS_ok_intro2
          (fmapEff_err_intro (show liftP (make_string_p (str2bytes "true")) r1 st
            = (.error .soft, st) by rw [liftP_eq, hTsoft])) ?_)
        refine altS_ok_intro2
          (fmapEff_err_intro (show liftP (make_string_p (str2bytes "false")) r1 st
            = (.error .soft, st) by rw [liftP_eq, hFsoft])) ?_
        refine altS_ok_intro2
          (fmapEff_err_intro (show liftP (make_string_p (str2bytes "null")) r1 st
            = (.error .soft, st) by rw [liftP_eq, hNsoft])) ?_
        refine altS_ok_intro2
          (fmapEff_err_intro (show liftP numberP r1 st
            = (.error .soft, st) by rw [liftP_eq, hnumsoft])) ?_
        refine altS_ok_intro2
          (fmapEff_err_intro (show buildStringP r1 st = (.error .soft, st) by
            rw [hr1shape]
            exact buildStringP_soft_head st (by decide))) ?_
        refine altS_ok_intro2 ?_ hbranch
        refine combineS_err_intro1 ?_
        rw [liftP_eq, arr_soft_char harrsoft]

end JSONM

namespace JSONM

open CxP

/-- C1: For every input on which the sizing pass succeeds with result
`(num_objects, string_size)`, the build pass on the same input also
succeeds with the same residual, returns `num_objects` as its
one-past-the-end arena index, leaves every arena node at an index `≥
num_objects` untouched (still `Null`, i.e. value nodes are written only at
indices in `[0, num_objects)`), and its string buffer holds exactly
`string_size` bytes — the computed sizes are never exceeded. -/
theorem C1_sizes_never_exceeded (k : Nat) (s : Input) (sz : Sizes) (r : Input)
    (h : sizesValueP k s = .ok (sz, r)) :
    ∃ st', construct k s = (.ok (sz.num_objects, r), st') ∧
      (∀ j, sz.num_objects ≤ j → st'.v j = .Null) ∧
      st'.s.length = sz.string_size := by
  obtain ⟨st', hb, hframe, bytes, hbs, hbl⟩ :=
    BC k 0 1 s initSt sz r (by omega) h
  have hpos := sizes_pos h
  refine ⟨st', ?_, ?_, ?_⟩
  · unfold construct
    rw [hb, show 1 + (sz.num_objects - 1) = sz.num_objects from by omega]
  · intro j hj
    have := hframe j (by omega) (by omega)
    rw [this]
    rfl
  · rw [hbs]
    show (([] : List Nat) ++ bytes).length = sz.string_size
    simp [hbl]

/-- Witness for C1 on the object `{"a":1}`: the sizing pass reports 3
nodes (object, key, value) and 1 string byte, and the build pass returns
one-past-the-end index 3 with a 1-byte string buffer. -/
theorem C1_witness :
    sizesValueP 2 (str2bytes "\x7b\"a\":1\x7d") = .ok (⟨3, 1⟩, []) ∧
    ∃ st', construct 2 (str2bytes "\x7b\"a\":1\x7d") = (.ok ((3 : Nat), ([] : Input)), st') ∧
      (∀ j, 3 ≤ j → st'.v j = .Null) ∧
      st'.s.length = 1 :=
  ⟨by decide, C1_sizes_never_exceeded 2 (str2bytes "\x7b\"a\":1\x7d") ⟨3, 1⟩ [] (by decide)⟩

end JSONM
